import Mathlib

/-! # DNS resolver tutorial: wire-format codec

A shallow embedding of `dns_resolver.c` (`hostname_to_dns_format`, `read_name`
and the query-building and answer-reading parts of `main`) and theorems about it.

Conventions of the embedding.

* A byte is a natural number below 256; memory objects (C strings, the
  message buffer, the 256-byte name array) are lists of bytes indexed from 0.
* A C string is the run of bytes before the first zero byte.
* An access outside an object is undefined behaviour in C; the embedding stops
  there with `Outcome.outOfBounds`.
* Loops whose trip count is not fixed in advance take a fuel argument and
  return `none` when the fuel is used up before the loop ends.
* The host string is extended in place by `strcat`; the size of the object that
  holds it is a parameter (`cap`) of `strcat`, `hostname_to_dns_format_in` and
  `build_query_in`. `hostname_to_dns_format` and `build_query` are these
  functions on a host string held with room for the appended dot.
* `read_name` and the answer loop are given twice: as functions of the buffer
  (`read_name`, `read_answers`) and as runs on a memory in which every store
  of the source is explicit (`read_name_mem`, `read_answers_mem`); the second
  form is what statements about the bytes a run changes refer to.
-/

namespace DNSResolver

/-! ## Results of a call -/

/-- Failure kinds named by the specification's error taxonomy. -/
inductive Failure where
  | InvalidName
  | MalformedMessage
  | QueryFailed (rcode : Nat)
  | TransportError
  deriving DecidableEq, Repr

/-- What a call does, as seen by its caller: it returns a value, it reports a
typed failure, or it accesses memory outside an object. No function of the
source has a failure return, so no definition below produces `failed`; the
constructor is what statements about reported failures refer to. -/
inductive Outcome (α : Type) where
  | returned (a : α)
  | failed (f : Failure)
  | outOfBounds
  deriving DecidableEq, Repr

/-! ## C strings -/

/-- The bytes of a C string stored in `s`: everything before the first zero. -/
def cstr (s : List Nat) : List Nat := s.takeWhile (fun b => b != 0)

/-- Length of the C string stored in `s` (libc `strlen`). -/
def strlen (s : List Nat) : Nat := (cstr s).length

/-- The call `strcat(s, t)` (libc) on a destination `s` held in an object of
`cap` bytes: the bytes of the C string `t` are stored after those of the C
string in `s`, and a terminating zero byte after them, `strlen(s) + strlen(t)
+ 1` bytes in all. When the object is smaller than that, the call stores
outside it. The value returned is the C string the call leaves in `s`. -/
def strcat (cap : Nat) (s t : List Nat) : Outcome (List Nat) :=
  if strlen s + strlen t + 1 ≤ cap then Outcome.returned (cstr s ++ cstr t)
  else Outcome.outOfBounds

/-- The byte value of the character `.`. -/
def dot : Nat := 46

/-! ## hostname_to_dns_format (lines 51-64) -/

/-- The inner loop `for(; lock < i; lock++) *dns++ = host[lock];`, run for
`n = i - lock` iterations. Returns the final `lock` and the bytes written. -/
def copy_segment (host : List Nat) : Nat → Nat → List Nat → Nat × List Nat
  | 0, lock, dns => (lock, dns)
  | n + 1, lock, dns => copy_segment host n (lock + 1) (dns ++ [host.getD lock 0])

/-- The loop `for(i = 0; i < strlen(host); i++)` of `hostname_to_dns_format`.
`dns` holds the bytes written through `*dns++` so far. The length octet
`i - lock` is stored into an `unsigned char`, hence taken modulo 256
(`lock ≤ i` always holds: `lock` is one past the previous dot). The `int`
counters `i` and `lock` never exceed the length of the string, which for an
argument string is far below `2^31`, so they are plain naturals here. -/
def encode_loop (host : List Nat) : Nat → Nat → Nat → List Nat → List Nat
  | 0, _, _, dns => dns
  | fuel + 1, i, lock, dns =>
    if i < strlen host then
      if host.getD i 0 = dot then
        let dns1 := dns ++ [(i - lock) % 256]
        let r := copy_segment host (i - lock) lock dns1
        encode_loop host fuel (i + 1) (r.1 + 1) r.2
      else
        encode_loop host fuel (i + 1) lock dns
    else dns

/-- Effect of `hostname_to_dns_format(dns, host)`: the bytes written to the
output buffer and the host string as the call leaves it. -/
structure Encoded where
  dns : List Nat
  host : List Nat
  deriving DecidableEq, Repr

/-- The function `hostname_to_dns_format`, called on a host string held in an
object of `cap` bytes. It is `void`, has no error path and checks nothing. The
host string is first extended in place by `strcat(host, ".")`, which needs
`strlen(host) + 2` bytes; the loop then runs once per byte of the extended
string and a final zero byte is written. -/
def hostname_to_dns_format_in (cap : Nat) (host : List Nat) : Outcome Encoded :=
  match strcat cap host [dot] with
  | Outcome.returned host1 =>
    let dns := encode_loop host1 (strlen host1) 0 0 []
    Outcome.returned ⟨dns ++ [0], host1⟩
  | Outcome.failed f => Outcome.failed f
  | Outcome.outOfBounds => Outcome.outOfBounds

/-- The function `hostname_to_dns_format` under its caller's precondition: the
host string is held with room for the dot that is appended, here in the least
such object, of `strlen(host) + 2` bytes (any larger object gives the same
result, `hostname_to_dns_format_in_room`). Under that precondition the call
always returns. -/
def hostname_to_dns_format (host : List Nat) : Outcome Encoded :=
  hostname_to_dns_format_in (strlen host + 2) host

/-- Size of the object that holds a command-line argument string: its bytes
and its terminator (`main` hands `argv[1]` itself to
`hostname_to_dns_format`, line 166). -/
def argv_storage (arg : List Nat) : Nat := strlen arg + 1

/-! ## read_name (lines 74-115) -/

/-- Size of the block `read_name` allocates for the name: `malloc(256)`. -/
def NAME_SIZE : Nat := 256

/-- The pointer target computed at line 86,
`offset = (*reader) * 256 + *(reader + 1) - 49152`, in `unsigned int`. -/
def ptr_offset (b0 b1 : Nat) : Nat := (b0 * 256 + b1 - 49152) % 4294967296

/-- State of `read_name` when its `while` loop ends. -/
structure ReadState where
  p : Nat
  jumped : Nat
  count : Nat
  name : List Nat
  deriving DecidableEq, Repr

/-- The loop `while(*reader != 0)` of `read_name` (lines 84-98). `reader` is the
offset of the read pointer from `buffer`. On a byte of 192 or more the two
statements `reader = buffer + offset - 1` and `reader = reader + 1` leave the
read pointer at `buffer + offset`, and `count` is not incremented because
`jumped` has just been set. Any other non-zero byte is stored at `name[p++]`,
whatever its role in the message. -/
def read_loop (buffer : List Nat) :
    Nat → Nat → Nat → Nat → Nat → List Nat → Option (Outcome ReadState)
  | 0, _, _, _, _, _ => none
  | fuel + 1, reader, p, jumped, count, name =>
    match buffer[reader]? with
    | none => some Outcome.outOfBounds
    | some b =>
      if b = 0 then some (Outcome.returned ⟨p, jumped, count, name⟩)
      else if 192 ≤ b then
        match buffer[reader + 1]? with
        | none => some Outcome.outOfBounds
        | some b1 => read_loop buffer fuel (ptr_offset b b1) p 1 count name
      else if p < NAME_SIZE then
        read_loop buffer fuel (reader + 1) (p + 1) jumped
          (if jumped = 0 then count + 1 else count) (name.set p b)
      else some Outcome.outOfBounds

/-- Value of `strlen(name)` on the name array: the index of its first zero
byte; `none` when the array holds no zero byte, so that `strlen` reads past
its end. -/
def strlen_name (name : List Nat) : Option Nat :=
  if strlen name < name.length then some (strlen name) else none

/-- The inner loop of lines 107-110,
`for(j = 0; j < (int)p; j++) { name[i] = name[i + 1]; i = i + 1; }`,
run for `n = p - j` iterations. Returns the final `i` and the array. -/
def shift_label : Nat → Nat → List Nat → Outcome (Nat × List Nat)
  | 0, i, name => Outcome.returned (i, name)
  | n + 1, i, name =>
    if i + 1 < NAME_SIZE then shift_label n (i + 1) (name.set i (name.getD (i + 1) 0))
    else Outcome.outOfBounds

/-- The loop `for(i = 0; i < (int)strlen(name); i++)` of lines 105-112, which
turns the copied length octets into dots in place. Returns the final `i` and
the array. -/
def dot_loop : Nat → Nat → List Nat → Option (Outcome (Nat × List Nat))
  | 0, _, _ => none
  | fuel + 1, i, name =>
    match strlen_name name with
    | none => some Outcome.outOfBounds
    | some len =>
      if i < len then
        match shift_label (name.getD i 0) i name with
        | Outcome.returned (i1, name1) =>
          if i1 < NAME_SIZE then dot_loop fuel (i1 + 1) (name1.set i1 dot)
          else some Outcome.outOfBounds
        | Outcome.failed f => some (Outcome.failed f)
        | Outcome.outOfBounds => some Outcome.outOfBounds
      else some (Outcome.returned (i, name))

/-- The function `read_name(reader, buffer, count)`. `heap` is the content of
the 256 bytes `malloc` hands out (unspecified in C), `reader` the offset of the
read pointer from `buffer`. Returns the C string left in the name array and the
final `*count`. The last statement `name[i-1] = 0` writes at index -1 when the
conversion loop ends with `i = 0`. The outer conversion loop advances `i` on
every iteration and stops once `i` reaches `strlen(name) < 256`, so 257
iterations always suffice for it. -/
def read_name (fuel : Nat) (heap buffer : List Nat) (reader : Nat) :
    Option (Outcome (List Nat × Nat)) :=
  let name0 := heap.set 0 0
  match read_loop buffer fuel reader 0 0 1 name0 with
  | none => none
  | some (Outcome.failed f) => some (Outcome.failed f)
  | some Outcome.outOfBounds => some Outcome.outOfBounds
  | some (Outcome.returned st) =>
    if st.p < NAME_SIZE then
      let name1 := st.name.set st.p 0
      let count1 := if st.jumped = 1 then st.count + 1 else st.count
      match dot_loop 257 0 name1 with
      | none => none
      | some (Outcome.failed f) => some (Outcome.failed f)
      | some Outcome.outOfBounds => some Outcome.outOfBounds
      | some (Outcome.returned (i, name2)) =>
        if i = 0 then some Outcome.outOfBounds
        else some (Outcome.returned (cstr (name2.set (i - 1) 0), count1))
    else some Outcome.outOfBounds

/-! ## main: building the query (lines 125, 147-174) -/

/-- Size of the message buffer of `main`: `unsigned char buf[65536]`. -/
def BUF_SIZE : Nat := 65536

/-- Size of `struct DNSHeader`. -/
def DNS_HEADER_SIZE : Nat := 12

/-- Size of `struct DNSQuestion`. -/
def DNS_QUESTION_SIZE : Nat := 4

/-- The constant `DNS_QUERY_TYPE_A`. -/
def DNS_QUERY_TYPE_A : Nat := 1

/-- The constant `DNS_QUERY_CLASS_IN`. -/
def DNS_QUERY_CLASS_IN : Nat := 1

/-- The two bytes that `htons(v)` leaves in memory once stored in an
`unsigned short`: the low 16 bits of `v`, most significant byte first. -/
def htons_bytes (v : Nat) : List Nat := [v % 65536 / 256, v % 256]

/-- The value `ntohs` gives for an `unsigned short` whose two bytes in memory
are `hi`, `lo`. -/
def ntohs (hi lo : Nat) : Nat := hi * 256 + lo

/-- Assignment to a bit-field of `width` bits that starts at bit `shift` of
`byte` (bit 0 is the least significant): the other bits of the byte are kept. -/
def set_bits (byte shift width v : Nat) : Nat :=
  byte - (byte / 2 ^ shift % 2 ^ width) * 2 ^ shift + (v % 2 ^ width) * 2 ^ shift

/-- Stores `bytes` into `buf` from offset `off` on; `none` when a byte would
land outside `buf`. -/
def write_at (buf : List Nat) (off : Nat) (bytes : List Nat) : Option (List Nat) :=
  if off + bytes.length ≤ buf.length then
    some (buf.take off ++ bytes ++ buf.drop (off + bytes.length))
  else none

/-- Value of `strlen` on the C string that starts at offset `off` of `buf`;
`none` when no zero byte follows inside `buf`. -/
def strlen_at (buf : List Nat) (off : Nat) : Option Nat :=
  if off + strlen (buf.drop off) < buf.length then some (strlen (buf.drop off)) else none

/-- Lines 148-160: the assignments to the header fields, on the first bytes of
`buf`. Bit-fields are laid out from the least significant bit of their byte, in
declaration order (the layout of the little-endian ABIs the struct is written
for): byte 2 holds `rd` (bit 0), `tc`, `aa`, `opcode` (bits 3-6), `qr` (bit 7);
byte 3 holds `rcode` (bits 0-3), `cd`, `ad`, `z`, `ra` (bit 7). The fields
`ans_count`, `auth_count` and `add_count` (bytes 6-11) are not assigned. -/
def set_header (buf : List Nat) (pid : Nat) : List Nat :=
  let b2 := buf.getD 2 0
  let b2 := set_bits b2 7 1 0
  let b2 := set_bits b2 3 4 0
  let b2 := set_bits b2 2 1 0
  let b2 := set_bits b2 1 1 0
  let b2 := set_bits b2 0 1 1
  let b3 := buf.getD 3 0
  let b3 := set_bits b3 7 1 0
  let b3 := set_bits b3 6 1 0
  let b3 := set_bits b3 5 1 0
  let b3 := set_bits b3 4 1 0
  let b3 := set_bits b3 0 4 0
  htons_bytes pid ++ [b2, b3] ++ htons_bytes 1 ++ buf.drop 6

/-- What `main` hands to `sendto`: the buffer and the length argument. -/
structure Query where
  buf : List Nat
  len : Nat
  deriving DecidableEq, Repr

/-- The datagram `sendto` transmits: the first `len` bytes of the buffer. -/
def Query.datagram (q : Query) : List Nat := q.buf.take q.len

/-- Lines 147-174 of `main`: `buf` is the content of the message buffer on
entry (an uninitialised automatic array of `BUF_SIZE` bytes), `pid` the value
of `getpid()`, `host` the string `argv[1]` and `cap` the size of the object
that holds it. `strlen(qname)` is evaluated on the buffer, once to place the
question fields and once for the length. -/
def build_query_in (cap : Nat) (buf : List Nat) (pid : Nat) (host : List Nat) :
    Outcome Query :=
  let buf1 := set_header buf pid
  match hostname_to_dns_format_in cap host with
  | Outcome.failed f => Outcome.failed f
  | Outcome.outOfBounds => Outcome.outOfBounds
  | Outcome.returned e =>
    match write_at buf1 DNS_HEADER_SIZE e.dns with
    | none => Outcome.outOfBounds
    | some buf2 =>
      match strlen_at buf2 DNS_HEADER_SIZE with
      | none => Outcome.outOfBounds
      | some n =>
        match write_at buf2 (DNS_HEADER_SIZE + (n + 1))
            (htons_bytes DNS_QUERY_TYPE_A ++ htons_bytes DNS_QUERY_CLASS_IN) with
        | none => Outcome.outOfBounds
        | some buf3 =>
          match strlen_at buf3 DNS_HEADER_SIZE with
          | none => Outcome.outOfBounds
          | some n1 =>
            Outcome.returned ⟨buf3, DNS_HEADER_SIZE + (n1 + 1) + DNS_QUESTION_SIZE⟩

/-- Lines 147-174 of `main` under the precondition of `hostname_to_dns_format`:
the host string is held with room for the dot that is appended, in the least
such object (any larger one gives the same query, `build_query_in_room`). -/
def build_query (buf : List Nat) (pid : Nat) (host : List Nat) : Outcome Query :=
  build_query_in (strlen host + 2) buf pid host

/-! ## main: reading the answers (lines 186-201) -/

/-- The string libc's `inet_ntoa` gives for an address whose four bytes in
memory are `a`, `b`, `c`, `d`: the decimal values joined by dots. -/
def inet_ntoa (a b c d : Nat) : String :=
  toString a ++ "." ++ toString b ++ "." ++ toString c ++ "." ++ toString d

/-- The loop `for(i = 0; i < ntohs(dns->ans_count); i++)` of lines 190-201, run
for `n` more iterations with the read pointer at offset `reader`. Each
iteration skips 2 bytes for the name and 10 bytes for type, class, TTL and data
length without looking at them, then copies 4 bytes and prints them through
`inet_ntoa`. `out` collects the printed addresses. -/
def answer_loop (buf : List Nat) : Nat → Nat → List String → Outcome (List String)
  | 0, _, out => Outcome.returned out
  | n + 1, reader, out =>
    let reader1 := reader + 2
    let reader2 := reader1 + 10
    if reader2 + 4 ≤ buf.length then
      let addr := inet_ntoa (buf.getD reader2 0) (buf.getD (reader2 + 1) 0)
        (buf.getD (reader2 + 2) 0) (buf.getD (reader2 + 3) 0)
      answer_loop buf n (reader2 + 4) (out ++ [addr])
    else Outcome.outOfBounds

/-- Lines 186-201 of `main` on the buffer `buf` as `recvfrom` left it: the read
pointer starts after the header, the C string at `qname` and the question
fields; the trip count is the header's `ans_count` (bytes 6 and 7) through
`ntohs`. Returns the addresses printed, in order. -/
def read_answers (buf : List Nat) : Outcome (List String) :=
  match strlen_at buf DNS_HEADER_SIZE with
  | none => Outcome.outOfBounds
  | some n =>
    answer_loop buf (ntohs (buf.getD 6 0) (buf.getD 7 0))
      (DNS_HEADER_SIZE + (n + 1) + DNS_QUESTION_SIZE) []

/-! ## read_name and the answer loop as runs on a memory -/

/-- Applies a function to the value a call returns. -/
def Outcome.map {α β : Type} (f : α → β) : Outcome α → Outcome β
  | Outcome.returned a => Outcome.returned (f a)
  | Outcome.failed e => Outcome.failed e
  | Outcome.outOfBounds => Outcome.outOfBounds

/-- The objects `read_name` and the answer loop of `main` address: the message
buffer, the block `read_name` allocates for the name, the integer behind the
pointer `count`, and the four bytes of `result.sin_addr.s_addr`, the
destination of the `memcpy` of the answer loop. -/
structure Mem where
  buffer : List Nat
  name : List Nat
  count : Nat
  addr : List Nat
  deriving DecidableEq, Repr

/-- The byte arrays of a memory. -/
inductive Obj where
  | buffer
  | name
  | addr
  deriving DecidableEq, Repr

/-- A read of the byte at index `i` of an object; `none` outside the object. -/
def Mem.load (m : Mem) : Obj → Nat → Option Nat
  | Obj.buffer, i => m.buffer[i]?
  | Obj.name, i => m.name[i]?
  | Obj.addr, i => m.addr[i]?

/-- A store of the byte `v` at index `i` of an object; `none` outside the
object. -/
def Mem.store (m : Mem) : Obj → Nat → Nat → Option Mem
  | Obj.buffer, i, v =>
    if i < m.buffer.length then some ⟨m.buffer.set i v, m.name, m.count, m.addr⟩ else none
  | Obj.name, i, v =>
    if i < m.name.length then some ⟨m.buffer, m.name.set i v, m.count, m.addr⟩ else none
  | Obj.addr, i, v =>
    if i < m.addr.length then some ⟨m.buffer, m.name, m.count, m.addr.set i v⟩ else none

/-- The statement `*count = v`. -/
def Mem.store_count (m : Mem) (v : Nat) : Mem := ⟨m.buffer, m.name, v, m.addr⟩

/-- The loop `while(*reader != 0)` of `read_name` (lines 84-98) on a memory:
`*reader` and `*(reader + 1)` are reads of the buffer, `name[p++] = *reader`
is a store to the allocated block, `*count = *count + 1` a store to the
integer. Returns the final `p`, `jumped` and memory. -/
def read_loop_mem : Nat → Nat → Nat → Nat → Mem → Option (Outcome (Nat × Nat × Mem))
  | 0, _, _, _, _ => none
  | fuel + 1, reader, p, jumped, m =>
    match m.load Obj.buffer reader with
    | none => some Outcome.outOfBounds
    | some b =>
      if b = 0 then some (Outcome.returned (p, jumped, m))
      else if 192 ≤ b then
        match m.load Obj.buffer (reader + 1) with
        | none => some Outcome.outOfBounds
        | some b1 => read_loop_mem fuel (ptr_offset b b1) p 1 m
      else
        match m.store Obj.name p b with
        | none => some Outcome.outOfBounds
        | some m1 =>
          read_loop_mem fuel (reader + 1) (p + 1) jumped
            (if jumped = 0 then m1.store_count (m1.count + 1) else m1)

/-- The inner loop of lines 107-110 on a memory: `name[i] = name[i + 1]` is a
read of the allocated block and a store to it. -/
def shift_label_mem : Nat → Nat → Mem → Outcome (Nat × Mem)
  | 0, i, m => Outcome.returned (i, m)
  | n + 1, i, m =>
    match m.load Obj.name (i + 1) with
    | none => Outcome.outOfBounds
    | some v =>
      match m.store Obj.name i v with
      | none => Outcome.outOfBounds
      | some m1 => shift_label_mem n (i + 1) m1

/-- The loop of lines 105-112 on a memory: `strlen(name)` and `p = name[i]`
read the allocated block, `name[i] = '.'` is a store to it. -/
def dot_loop_mem : Nat → Nat → Mem → Option (Outcome (Nat × Mem))
  | 0, _, _ => none
  | fuel + 1, i, m =>
    match strlen_name m.name with
    | none => some Outcome.outOfBounds
    | some len =>
      if i < len then
        match m.load Obj.name i with
        | none => some Outcome.outOfBounds
        | some n =>
          match shift_label_mem n i m with
          | Outcome.returned (i1, m1) =>
            match m1.store Obj.name i1 dot with
            | none => some Outcome.outOfBounds
            | some m2 => dot_loop_mem fuel (i1 + 1) m2
          | Outcome.failed f => some (Outcome.failed f)
          | Outcome.outOfBounds => some Outcome.outOfBounds
      else some (Outcome.returned (i, m))

/-- The function `read_name` on a memory whose `name` object is the block that
`malloc(256)` hands out. Every store of the function is one of `*count = ...`,
`name[...] = ...`; the buffer is reached through `reader` and `buffer`, which
are only read. Returns the C string left in the block, the final `*count` and
the memory. -/
def read_name_mem (fuel : Nat) (m : Mem) (reader : Nat) :
    Option (Outcome ((List Nat × Nat) × Mem)) :=
  match (m.store_count 1).store Obj.name 0 0 with
  | none => some Outcome.outOfBounds
  | some m1 =>
    match read_loop_mem fuel reader 0 0 m1 with
    | none => none
    | some (Outcome.failed f) => some (Outcome.failed f)
    | some Outcome.outOfBounds => some Outcome.outOfBounds
    | some (Outcome.returned (p, jumped, m2)) =>
      match m2.store Obj.name p 0 with
      | none => some Outcome.outOfBounds
      | some m3 =>
        let m4 := if jumped = 1 then m3.store_count (m3.count + 1) else m3
        match dot_loop_mem 257 0 m4 with
        | none => none
        | some (Outcome.failed f) => some (Outcome.failed f)
        | some Outcome.outOfBounds => some Outcome.outOfBounds
        | some (Outcome.returned (i, m5)) =>
          if i = 0 then some Outcome.outOfBounds
          else
            match m5.store Obj.name (i - 1) 0 with
            | none => some Outcome.outOfBounds
            | some m6 => some (Outcome.returned ((cstr m6.name, m6.count), m6))

/-- The call `memcpy(&result.sin_addr.s_addr, reader, 4)` of line 196, byte by
byte: `n` more bytes, from offset `reader` of the buffer to index `k` of the
address field. `none` when a byte lies outside its object. -/
def memcpy_addr : Nat → Nat → Nat → Mem → Option Mem
  | 0, _, _, m => some m
  | n + 1, k, reader, m =>
    match m.load Obj.buffer reader with
    | none => none
    | some v =>
      match m.store Obj.addr k v with
      | none => none
      | some m1 => memcpy_addr n (k + 1) (reader + 1) m1

/-- The loop `for(i = 0; i < ntohs(dns->ans_count); i++)` of lines 190-201 on
a memory. The condition reads bytes 6 and 7 of the buffer on every iteration;
the only store of the body is the `memcpy` into the address field. `out`
collects the printed addresses. -/
def answer_loop_mem : Nat → Nat → Nat → Mem → List String → Option (Outcome (List String × Mem))
  | 0, _, _, _, _ => none
  | fuel + 1, i, reader, m, out =>
    match m.load Obj.buffer 6 with
    | none => some Outcome.outOfBounds
    | some hi =>
      match m.load Obj.buffer 7 with
      | none => some Outcome.outOfBounds
      | some lo =>
        if i < ntohs hi lo then
          let reader1 := reader + 2
          let reader2 := reader1 + 10
          match memcpy_addr 4 0 reader2 m with
          | none => some Outcome.outOfBounds
          | some m1 =>
            let addr := inet_ntoa (m1.addr.getD 0 0) (m1.addr.getD 1 0) (m1.addr.getD 2 0)
              (m1.addr.getD 3 0)
            answer_loop_mem fuel (i + 1) (reader2 + 4) m1 (out ++ [addr])
        else some (Outcome.returned (out, m))

/-- Lines 186-201 of `main` on a memory whose buffer is as `recvfrom` left
it. Returns the addresses printed, in order, and the memory. -/
def read_answers_mem (fuel : Nat) (m : Mem) : Option (Outcome (List String × Mem)) :=
  match strlen_at m.buffer DNS_HEADER_SIZE with
  | none => some Outcome.outOfBounds
  | some n => answer_loop_mem fuel 0 (DNS_HEADER_SIZE + (n + 1) + DNS_QUESTION_SIZE) m []

/-! ## Vocabulary of the specification -/

/-- Splits a string at every dot, `cur` being the segment read so far. -/
def segments_from : List Nat → List Nat → List (List Nat)
  | [], cur => [cur]
  | c :: rest, cur =>
    if c = dot then cur :: segments_from rest [] else segments_from rest (cur ++ [c])

/-- The dot-separated segments of a host string, in order. A string with `n`
dots has `n + 1` segments, some of them possibly empty. -/
def segments (host : List Nat) : List (List Nat) := segments_from host []

/-- Labels joined by dots, with no trailing dot. -/
def dotted : List (List Nat) → List Nat
  | [] => []
  | [l] => l
  | l :: l1 :: ls => l ++ dot :: dotted (l1 :: ls)

/-- Wire form of a sequence of labels without the final zero octet: for each
label a length octet equal to its byte length, then its bytes. -/
def wire_labels : List (List Nat) → List Nat
  | [] => []
  | l :: ls => l.length :: l ++ wire_labels ls

/-- Same as `wire_labels` with each length octet reduced modulo 256, the value
an `unsigned char` keeps. -/
def wire_labels_mod : List (List Nat) → List Nat
  | [] => []
  | l :: ls => l.length % 256 :: l ++ wire_labels_mod ls

/-- A label of a valid name: 1 to 63 bytes, each in 1..191 and not a dot. -/
def ValidLabel (l : List Nat) : Prop :=
  1 ≤ l.length ∧ l.length ≤ 63 ∧ ∀ b ∈ l, 1 ≤ b ∧ b ≤ 191 ∧ b ≠ dot

instance : DecidablePred ValidLabel := fun l => by
  unfold ValidLabel; infer_instance

/-- A valid name: one or more valid labels. -/
def ValidName (ls : List (List Nat)) : Prop :=
  ls ≠ [] ∧ ∀ l ∈ ls, ValidLabel l

instance : DecidablePred ValidName := fun ls => by
  unfold ValidName; infer_instance

/-- A segment the encoder can take: 1 to 63 bytes. -/
def ValidSegment (s : List Nat) : Prop := 1 ≤ s.length ∧ s.length ≤ 63

instance : DecidablePred ValidSegment := fun s => by
  unfold ValidSegment; infer_instance

/-- The two bytes of a compression pointer to offset `t`. -/
def pointer_pair (t : Nat) : List Nat := [0xC0 ||| (t >>> 8), t &&& 0xFF]

/-- Run of the encoder over the part of the string still to read, `seg` being
the bytes read since the last dot. -/
def encode_rest : List Nat → List Nat → List Nat
  | [], _ => []
  | c :: rest, seg =>
    if c = dot then (seg.length % 256 :: seg) ++ encode_rest rest []
    else encode_rest rest (seg ++ [c])

/-- Labels each followed by a dot: what the name array holds once every length
octet has been turned into a dot. -/
def dotted_trail : List (List Nat) → List Nat
  | [] => []
  | l :: ls => l ++ dot :: dotted_trail ls

/-- The buffer holds `bytes` from offset `off` on. -/
def holds_at (buffer : List Nat) (off : Nat) (bytes : List Nat) : Prop :=
  (buffer.drop off).take bytes.length = bytes

instance (buffer : List Nat) (off : Nat) (bytes : List Nat) :
    Decidable (holds_at buffer off bytes) := by
  unfold holds_at; infer_instance

/-- An address (type A) answer record whose name is a two-byte compression
pointer: pointer bytes, class, TTL and the four address bytes. -/
structure ARecord where
  p0 : Nat
  p1 : Nat
  c0 : Nat
  c1 : Nat
  t0 : Nat
  t1 : Nat
  t2 : Nat
  t3 : Nat
  a0 : Nat
  a1 : Nat
  a2 : Nat
  a3 : Nat
  deriving DecidableEq, Repr

/-- Wire form of an address record: name pointer, type 1, class, TTL, data
length 4, address. -/
def ARecord.bytes (r : ARecord) : List Nat :=
  [r.p0, r.p1, 0, 1, r.c0, r.c1, r.t0, r.t1, r.t2, r.t3, 0, 4, r.a0, r.a1, r.a2, r.a3]

/-- The address of a record as a dotted quad. -/
def ARecord.address (r : ARecord) : String := inet_ntoa r.a0 r.a1 r.a2 r.a3

/-- Wire form of a sequence of address records, one after the other. -/
def answer_section : List ARecord → List Nat
  | [] => []
  | r :: rs => r.bytes ++ answer_section rs

/-- The target of the compression pointer the read loop follows when its read
pointer stands at offset `q`: the byte there is 192 or more and the byte after
it lies in the buffer. `none` when the loop follows no pointer at `q`. -/
def pointer_at (buffer : List Nat) (q : Nat) : Option Nat :=
  match buffer[q]? with
  | none => none
  | some b0 =>
    if 192 ≤ b0 then
      match buffer[q + 1]? with
      | none => none
      | some b1 => some (ptr_offset b0 b1)
    else none

/-- Following pointers from offset `q`, target after target, arrives within `k`
pointers at an offset where the read loop follows no pointer. An offset from
which this holds for no `k` starts a cycle made of pointers only. -/
def chain_leaves (buffer : List Nat) : Nat → Nat → Bool
  | 0, q => (pointer_at buffer q).isNone
  | k + 1, q =>
    match pointer_at buffer q with
    | none => true
    | some t => chain_leaves buffer k t

/-- Offset of the read pointer of the read loop of `read_name` after `n`
iterations, started at offset `reader` with `p` bytes copied: the control flow
of `read_loop` without the data. `none` when the loop has ended before. -/
def read_cursor (buffer : List Nat) : Nat → Nat → Nat → Option Nat
  | 0, reader, _ => some reader
  | n + 1, reader, p =>
    match buffer[reader]? with
    | none => none
    | some b =>
      if b = 0 then none
      else if 192 ≤ b then
        match buffer[reader + 1]? with
        | none => none
        | some b1 => read_cursor buffer n (ptr_offset b b1) p
      else if p < NAME_SIZE then read_cursor buffer n (reader + 1) (p + 1)
      else none

/-- Two name arrays of 256 bytes that hold the same bytes, none of them zero,
at the indices below `z`. -/
def same_below (z : Nat) (a b : List Nat) : Prop :=
  a.length = NAME_SIZE ∧ b.length = NAME_SIZE
    ∧ ∀ k, k < z → a.getD k 0 = b.getD k 0 ∧ a.getD k 0 ≠ 0

/-- Two name arrays that hold the same C string of length `z`: the same
non-zero bytes below index `z` and a zero byte at index `z`. -/
def same_string (z : Nat) (a b : List Nat) : Prop :=
  same_below z a b ∧ z < NAME_SIZE ∧ a.getD z 0 = 0 ∧ b.getD z 0 = 0

/-! ## Lemmas: C strings -/

theorem cstr_of_nonzero (s : List Nat) (h : ∀ b ∈ s, b ≠ 0) : cstr s = s := by
  unfold cstr
  rw [List.takeWhile_eq_self_iff]
  intro b hb
  simpa using h b hb

theorem cstr_append_zero (s t : List Nat) (h : ∀ b ∈ s, b ≠ 0) :
    cstr (s ++ 0 :: t) = s := by
  induction s with
  | nil => simp [cstr]
  | cons a s ih =>
    have ha : a ≠ 0 := h a (List.mem_cons_self _ _)
    have hs : ∀ b ∈ s, b ≠ 0 := fun b hb => h b (List.mem_cons_of_mem _ hb)
    have := ih hs
    simp only [cstr] at this ⊢
    simp [List.takeWhile_cons, ha, this]

theorem cstr_nonzero (s : List Nat) : ∀ b ∈ cstr s, b ≠ 0 := by
  intro b hb
  have := List.mem_takeWhile_imp hb
  simpa using this

theorem strlen_of_nonzero (s : List Nat) (h : ∀ b ∈ s, b ≠ 0) : strlen s = s.length := by
  unfold strlen; rw [cstr_of_nonzero s h]

/-! ## Lemmas: indexing a list at the end of a prefix -/

theorem getElem?_append_cons (pre : List Nat) (x : Nat) (rest : List Nat) :
    (pre ++ x :: rest)[pre.length]? = some x := by
  induction pre with
  | nil => simp
  | cons a pre ih => simpa using ih

theorem getD_append_cons (pre : List Nat) (x : Nat) (rest : List Nat) (d : Nat) :
    (pre ++ x :: rest).getD pre.length d = x := by
  induction pre with
  | nil => rfl
  | cons a pre ih => simpa using ih

theorem set_append_cons (pre : List Nat) (x y : Nat) (rest : List Nat) :
    (pre ++ x :: rest).set pre.length y = pre ++ y :: rest := by
  induction pre with
  | nil => rfl
  | cons a pre ih => simp [ih]

/-! ## Lemmas: the encoder -/

theorem copy_segment_eq (seg pre rest dns : List Nat) :
    copy_segment (pre ++ seg ++ rest) seg.length pre.length dns
      = (pre.length + seg.length, dns ++ seg) := by
  induction seg generalizing pre dns with
  | nil => simp [copy_segment]
  | cons c seg ih =>
    have h := ih (pre ++ [c]) (dns ++ [c])
    simp only [List.append_assoc, List.singleton_append, List.length_append,
      List.length_singleton] at h
    simp only [List.length_cons, copy_segment, List.append_assoc, List.cons_append]
    rw [getD_append_cons]
    simp only [List.cons_append] at h
    rw [h]
    simp [Nat.add_assoc, Nat.add_comm 1]

theorem encode_loop_eq (host : List Nat) (hz : ∀ b ∈ host, b ≠ 0) :
    ∀ (rest pre seg dns : List Nat), host = pre ++ seg ++ rest →
      encode_loop host rest.length (pre.length + seg.length) pre.length dns
        = dns ++ encode_rest rest seg := by
  intro rest
  induction rest with
  | nil => intro pre seg dns _; simp [encode_loop, encode_rest]
  | cons c rest ih =>
    intro pre seg dns hh
    have hlen : pre.length + seg.length < strlen host := by
      rw [strlen_of_nonzero host hz, hh]; simp
    have hget : host.getD (pre.length + seg.length) 0 = c := by
      rw [hh]
      have : pre.length + seg.length = (pre ++ seg).length := by simp
      rw [this, List.append_assoc pre seg, ← List.append_assoc pre seg]
      exact getD_append_cons (pre ++ seg) c rest 0
    simp only [List.length_cons, encode_loop, hlen, if_true, hget, encode_rest]
    by_cases hc : c = dot
    · simp only [hc, if_true]
      have hcopy := copy_segment_eq seg pre (c :: rest) (dns ++ [seg.length % 256])
      rw [← hh] at hcopy
      have hsub : pre.length + seg.length - pre.length = seg.length := by omega
      rw [hsub, hcopy]
      have h2 := ih (pre ++ seg ++ [c]) [] (dns ++ [seg.length % 256] ++ seg)
        (by rw [hh]; simp)
      simp only [List.length_append, List.length_singleton, List.length_nil,
        Nat.add_zero] at h2
      simp only [h2]
      simp
    · simp only [hc, if_false]
      have h2 := ih pre (seg ++ [c]) dns (by rw [hh]; simp)
      simp only [List.length_append, List.length_singleton] at h2
      rw [← Nat.add_assoc] at h2
      exact h2

theorem encode_rest_segments (h cur : List Nat) :
    encode_rest (h ++ [dot]) cur = wire_labels_mod (segments_from h cur) := by
  induction h generalizing cur with
  | nil => simp [encode_rest, segments_from, wire_labels_mod]
  | cons c h ih =>
    by_cases hc : c = dot
    · simp [encode_rest, segments_from, wire_labels_mod, hc, ih]
    · simp [encode_rest, segments_from, hc, ih]

theorem wire_labels_mod_length (h cur : List Nat) :
    (wire_labels_mod (segments_from h cur)).length = h.length + cur.length + 1 := by
  induction h generalizing cur with
  | nil => simp [segments_from, wire_labels_mod]
  | cons c h ih =>
    by_cases hc : c = dot
    · simp [segments_from, wire_labels_mod, hc, ih]; omega
    · simp [segments_from, hc, ih]; omega

theorem wire_labels_mod_eq (segs : List (List Nat)) (h : ∀ s ∈ segs, s.length ≤ 255) :
    wire_labels_mod segs = wire_labels segs := by
  induction segs with
  | nil => rfl
  | cons s segs ih =>
    have h1 : s.length ≤ 255 := h s (List.mem_cons_self _ _)
    have h2 := ih (fun t ht => h t (List.mem_cons_of_mem _ ht))
    simp [wire_labels_mod, wire_labels, h2, Nat.mod_eq_of_lt (by omega : s.length < 256)]

theorem strlen_dot : strlen [dot] = 1 := by decide

/-- What the encoder does on any host string held with room for one more
byte: the segments of the C string, each after its length modulo 256, then a
zero byte; the host string gains a trailing dot. -/
theorem hostname_to_dns_format_in_room (cap : Nat) (host : List Nat)
    (h : strlen host + 2 ≤ cap) :
    hostname_to_dns_format_in cap host
      = Outcome.returned ⟨wire_labels_mod (segments (cstr host)) ++ [0], cstr host ++ [dot]⟩ := by
  have hdot : cstr [dot] = [dot] := by decide
  have hc : strlen host + strlen [dot] + 1 ≤ cap := by rw [strlen_dot]; omega
  have hz : ∀ b ∈ cstr host ++ [dot], b ≠ 0 := by
    intro b hb
    rcases List.mem_append.1 hb with hb | hb
    · exact cstr_nonzero host b hb
    · simp [dot] at hb; omega
  have hloop := encode_loop_eq (cstr host ++ [dot]) hz (cstr host ++ [dot]) [] [] [] (by simp)
  simp only [List.length_nil, Nat.add_zero, List.nil_append] at hloop
  simp only [hostname_to_dns_format_in, strcat, hc, if_true, hdot, strlen_of_nonzero _ hz, hloop,
    encode_rest_segments, segments]

/-- On a host string held in fewer than `strlen(host) + 2` bytes the encoder
stores outside the object that holds the string. -/
theorem hostname_to_dns_format_in_no_room (cap : Nat) (host : List Nat)
    (h : cap < strlen host + 2) :
    hostname_to_dns_format_in cap host = Outcome.outOfBounds := by
  have hc : ¬ strlen host + strlen [dot] + 1 ≤ cap := by rw [strlen_dot]; omega
  simp only [hostname_to_dns_format_in, strcat, hc, if_false]

theorem hostname_to_dns_format_eq (host : List Nat) :
    hostname_to_dns_format host
      = Outcome.returned ⟨wire_labels_mod (segments (cstr host)) ++ [0], cstr host ++ [dot]⟩ :=
  hostname_to_dns_format_in_room _ host (Nat.le_refl _)

/-! ## Lemmas: the decoder -/

theorem read_loop_zero (buffer : List Nat) (fuel reader p jumped count : Nat) (name : List Nat)
    (h : buffer[reader]? = some 0) :
    read_loop buffer (fuel + 1) reader p jumped count name
      = some (Outcome.returned ⟨p, jumped, count, name⟩) := by
  simp [read_loop, h]

theorem read_loop_pointer (buffer : List Nat) (fuel reader p jumped count : Nat)
    (name : List Nat) (b0 b1 : Nat) (h0 : buffer[reader]? = some b0) (hb : 192 ≤ b0)
    (h1 : buffer[reader + 1]? = some b1) :
    read_loop buffer (fuel + 1) reader p jumped count name
      = read_loop buffer fuel (ptr_offset b0 b1) p 1 count name := by
  have hne : b0 ≠ 0 := by omega
  simp [read_loop, h0, h1, hne, hb]

theorem read_loop_literals (buffer : List Nat) (lits : List Nat) :
    ∀ (pre rest : List Nat) (fuel jumped count : Nat) (done free : List Nat),
      buffer = pre ++ lits ++ rest → (∀ b ∈ lits, 1 ≤ b ∧ b ≤ 191) →
      done.length + lits.length ≤ 256 → lits.length ≤ free.length →
      read_loop buffer (fuel + lits.length) pre.length done.length jumped count (done ++ free)
        = read_loop buffer fuel (pre.length + lits.length) (done.length + lits.length) jumped
            (if jumped = 0 then count + lits.length else count)
            (done ++ lits ++ free.drop lits.length) := by
  induction lits with
  | nil => intro pre rest fuel jumped count done free _ _ _ _; simp
  | cons b lits ih =>
    intro pre rest fuel jumped count done free hbuf hb hlen hfree
    have hb1 := hb b (List.mem_cons_self _ _)
    have hget : buffer[pre.length]? = some b := by
      rw [hbuf]; simp only [List.append_assoc, List.cons_append]
      exact getElem?_append_cons pre b _
    have hne : b ≠ 0 := by omega
    have hlt : ¬ 192 ≤ b := by omega
    have hp : done.length < NAME_SIZE := by
      simp only [List.length_cons] at hlen; unfold NAME_SIZE; omega
    cases free with
    | nil => simp at hfree
    | cons f free =>
      have hstep : read_loop buffer (fuel + (b :: lits).length) pre.length done.length jumped
          count (done ++ f :: free)
          = read_loop buffer (fuel + lits.length) (pre.length + 1) (done.length + 1) jumped
            (if jumped = 0 then count + 1 else count) (done ++ b :: free) := by
        show read_loop buffer ((fuel + lits.length) + 1) pre.length done.length jumped
          count (done ++ f :: free) = _
        simp only [read_loop, hget, hne, hlt, hp, if_true, if_false, set_append_cons]
      rw [hstep]
      have h2 := ih (pre ++ [b]) rest fuel jumped (if jumped = 0 then count + 1 else count)
        (done ++ [b]) free (by rw [hbuf]; simp)
        (fun c hc => hb c (List.mem_cons_of_mem _ hc))
        (by simp only [List.length_cons] at hlen; simp; omega)
        (by simpa using hfree)
      simp only [List.length_append, List.length_singleton, List.append_assoc,
        List.singleton_append] at h2
      rw [h2]
      by_cases hj : jumped = 0
      · simp [hj, Nat.add_assoc, Nat.add_comm 1]
      · simp [hj, Nat.add_assoc, Nat.add_comm 1]

theorem shift_label_eq (l : List Nat) :
    ∀ (pre : List Nat) (x : Nat) (rest : List Nat), pre.length + l.length < 256 →
      ∃ y, shift_label l.length pre.length (pre ++ x :: l ++ rest)
        = Outcome.returned (pre.length + l.length, pre ++ l ++ y :: rest) := by
  induction l with
  | nil => intro pre x rest _; exact ⟨x, by simp [shift_label]⟩
  | cons c l ih =>
    intro pre x rest hlen
    simp only [List.length_cons] at hlen
    obtain ⟨y, hy⟩ := ih (pre ++ [c]) c rest (by simp; omega)
    refine ⟨y, ?_⟩
    have hc : pre.length + 1 < NAME_SIZE := by unfold NAME_SIZE; omega
    have hget : (pre ++ x :: c :: (l ++ rest)).getD (pre.length + 1) 0 = c := by
      have := getD_append_cons (pre ++ [x]) c (l ++ rest) 0
      simpa using this
    simp only [List.length_cons, shift_label, hc, if_true, List.cons_append,
      set_append_cons, List.append_assoc, hget]
    simp only [List.length_append, List.length_singleton, List.append_assoc,
      List.singleton_append, List.cons_append, List.nil_append] at hy
    rw [hy]
    simp [Nat.add_assoc, Nat.add_comm 1]

theorem wire_labels_nonzero (ls : List (List Nat))
    (h : ∀ l ∈ ls, 1 ≤ l.length ∧ ∀ b ∈ l, b ≠ 0) : ∀ b ∈ wire_labels ls, b ≠ 0 := by
  induction ls with
  | nil => intro b hb; simp [wire_labels] at hb
  | cons l ls ih =>
    intro b hb
    have hl := h l (List.mem_cons_self _ _)
    simp only [wire_labels, List.cons_append, List.mem_cons, List.mem_append] at hb
    rcases hb with hb | hb | hb
    · omega
    · exact hl.2 b hb
    · exact ih (fun t ht => h t (List.mem_cons_of_mem _ ht)) b hb

theorem dotted_trail_length (ls : List (List Nat)) :
    (dotted_trail ls).length = (wire_labels ls).length := by
  induction ls with
  | nil => rfl
  | cons l ls ih => simp [dotted_trail, wire_labels, ih]; omega

theorem dotted_trail_eq (ls : List (List Nat)) (h : ls ≠ []) :
    dotted_trail ls = dotted ls ++ [dot] := by
  induction ls with
  | nil => exact absurd rfl h
  | cons l ls ih =>
    cases ls with
    | nil => simp [dotted_trail, dotted]
    | cons l1 ls =>
      have := ih (by simp)
      simp [dotted_trail, dotted] at this ⊢
      exact this

theorem dotted_nonzero (ls : List (List Nat)) (h : ∀ l ∈ ls, ∀ b ∈ l, b ≠ 0) :
    ∀ b ∈ dotted ls, b ≠ 0 := by
  induction ls with
  | nil => intro b hb; simp [dotted] at hb
  | cons l ls ih =>
    cases ls with
    | nil => intro b hb; exact h l (List.mem_cons_self _ _) b (by simpa [dotted] using hb)
    | cons l1 ls =>
      intro b hb
      simp only [dotted, List.mem_append, List.mem_cons] at hb
      rcases hb with hb | hb | hb
      · exact h l (List.mem_cons_self _ _) b hb
      · rw [hb]; decide
      · exact ih (fun t ht => h t (List.mem_cons_of_mem _ ht)) b hb

theorem strlen_name_eq (pre tail : List Nat) (h : ∀ b ∈ pre, b ≠ 0) :
    strlen_name (pre ++ 0 :: tail) = some pre.length := by
  simp [strlen_name, strlen, cstr_append_zero pre tail h]

theorem dot_loop_eq (ls : List (List Nat)) :
    ∀ (pre tail : List Nat) (fuel : Nat),
      (∀ l ∈ ls, 1 ≤ l.length ∧ ∀ b ∈ l, b ≠ 0) → (∀ b ∈ pre, b ≠ 0) →
      (pre ++ wire_labels ls ++ 0 :: tail).length ≤ 256 → ls.length < fuel →
      dot_loop fuel pre.length (pre ++ wire_labels ls ++ 0 :: tail)
        = some (Outcome.returned (pre.length + (wire_labels ls).length,
            pre ++ dotted_trail ls ++ 0 :: tail)) := by
  induction ls with
  | nil =>
    intro pre tail fuel _ hpre _ hfuel
    obtain ⟨fuel, rfl⟩ : ∃ k, fuel = k + 1 := ⟨fuel - 1, by simp at hfuel; omega⟩
    simp [dot_loop, wire_labels, dotted_trail, strlen_name_eq pre tail hpre]
  | cons l ls ih =>
    intro pre tail fuel hls hpre hlen hfuel
    obtain ⟨fuel, rfl⟩ : ∃ k, fuel = k + 1 := ⟨fuel - 1, by simp at hfuel; omega⟩
    have hl := hls l (List.mem_cons_self _ _)
    have hls1 : ∀ t ∈ ls, 1 ≤ t.length ∧ ∀ b ∈ t, b ≠ 0 :=
      fun t ht => hls t (List.mem_cons_of_mem _ ht)
    have hnz : ∀ b ∈ pre ++ wire_labels (l :: ls), b ≠ 0 := by
      intro b hb
      rcases List.mem_append.1 hb with hb | hb
      · exact hpre b hb
      · exact wire_labels_nonzero (l :: ls) hls b hb
    have hstr := strlen_name_eq (pre ++ wire_labels (l :: ls)) tail hnz
    simp only [wire_labels, List.length_append, List.length_cons, List.append_assoc,
      List.cons_append] at hstr hlen
    obtain ⟨y, hy⟩ := shift_label_eq l pre l.length (wire_labels ls ++ 0 :: tail) (by omega)
    simp only [List.cons_append, List.append_assoc] at hy
    have hi : pre.length < pre.length + (l.length + (wire_labels ls).length + 1) := by omega
    have hi1 : pre.length + l.length < NAME_SIZE := by unfold NAME_SIZE; omega
    have hset : (pre ++ (l ++ y :: (wire_labels ls ++ 0 :: tail))).set (pre.length + l.length) dot
        = pre ++ (l ++ dot :: (wire_labels ls ++ 0 :: tail)) := by
      have := set_append_cons (pre ++ l) y dot (wire_labels ls ++ 0 :: tail)
      simp only [List.length_append, List.append_assoc] at this
      exact this
    have h2 := ih (pre ++ l ++ [dot]) tail fuel hls1
      (by
        intro b hb
        simp only [List.mem_append, List.mem_singleton] at hb
        rcases hb with (hb | hb) | hb
        · exact hpre b hb
        · exact hl.2 b hb
        · rw [hb]; decide)
      (by simp; omega)
      (by simp only [List.length_cons] at hfuel; omega)
    simp only [List.length_append, List.length_singleton, List.append_assoc,
      List.singleton_append, List.cons_append, List.nil_append] at h2
    simp only [dot_loop, wire_labels, List.append_assoc, List.cons_append, hstr, hi, if_true,
      getD_append_cons, hy, hi1, hset, dotted_trail, List.length_cons, List.length_append]
    have e1 : pre.length + l.length + 1 = pre.length + (l.length + 1) := by omega
    rw [e1, h2]
    simp; omega

theorem holds_at_split (buffer : List Nat) (off : Nat) (bytes : List Nat) (hne : bytes ≠ [])
    (h : holds_at buffer off bytes) :
    ∃ pre rest, buffer = pre ++ bytes ++ rest ∧ pre.length = off := by
  unfold holds_at at h
  refine ⟨buffer.take off, (buffer.drop off).drop bytes.length, ?_, ?_⟩
  · have h1 : buffer.drop off = bytes ++ (buffer.drop off).drop bytes.length := by
      conv_lhs => rw [← List.take_append_drop bytes.length (buffer.drop off)]
      rw [h]
    rw [List.append_assoc, ← h1, List.take_append_drop]
  · rw [List.length_take]
    by_contra hcon
    have hle : buffer.length ≤ off := by omega
    rw [List.drop_eq_nil_of_le hle] at h
    simp at h
    exact hne h

theorem segments_from_append (l rest cur : List Nat) (hl : ∀ b ∈ l, b ≠ dot) :
    segments_from (l ++ rest) cur = segments_from rest (cur ++ l) := by
  induction l generalizing cur with
  | nil => simp
  | cons c l ih =>
    have hc : c ≠ dot := hl c (List.mem_cons_self _ _)
    have := ih (cur ++ [c]) (fun b hb => hl b (List.mem_cons_of_mem _ hb))
    simp [segments_from, hc, this]

theorem segments_dotted (ls : List (List Nat)) (hne : ls ≠ [])
    (h : ∀ l ∈ ls, ∀ b ∈ l, b ≠ dot) : segments (dotted ls) = ls := by
  induction ls with
  | nil => exact absurd rfl hne
  | cons l ls ih =>
    have hl := h l (List.mem_cons_self _ _)
    cases ls with
    | nil =>
      have := segments_from_append l [] [] hl
      simpa [segments, dotted, segments_from] using this
    | cons l1 ls =>
      have h1 := ih (by simp) (fun t ht => h t (List.mem_cons_of_mem _ ht))
      have h2 := segments_from_append l (dot :: dotted (l1 :: ls)) [] hl
      simp only [segments, dotted, List.nil_append] at h1 h2 ⊢
      rw [h2]
      simp [segments_from, h1]

theorem wire_labels_length (ls : List (List Nat)) (hne : ls ≠ []) :
    (wire_labels ls).length = (dotted ls).length + 1 := by
  rw [← dotted_trail_length, dotted_trail_eq ls hne]; simp

theorem wire_labels_append (ls1 ls2 : List (List Nat)) :
    wire_labels (ls1 ++ ls2) = wire_labels ls1 ++ wire_labels ls2 := by
  induction ls1 with
  | nil => rfl
  | cons l ls ih => simp [wire_labels, ih]

theorem validLabel_nonzero (ls : List (List Nat)) (h : ∀ l ∈ ls, ValidLabel l) :
    ∀ l ∈ ls, 1 ≤ l.length ∧ ∀ b ∈ l, b ≠ 0 := by
  intro l hl
  obtain ⟨h1, _, h3⟩ := h l hl
  exact ⟨h1, fun b hb => by have := h3 b hb; omega⟩

theorem wire_labels_literal (ls : List (List Nat)) (h : ∀ l ∈ ls, ValidLabel l) :
    ∀ b ∈ wire_labels ls, 1 ≤ b ∧ b ≤ 191 := by
  induction ls with
  | nil => intro b hb; simp [wire_labels] at hb
  | cons l ls ih =>
    intro b hb
    obtain ⟨h1, h2, h3⟩ := h l (List.mem_cons_self _ _)
    simp only [wire_labels, List.cons_append, List.mem_cons, List.mem_append] at hb
    rcases hb with hb | hb | hb
    · omega
    · have := h3 b hb; omega
    · exact ih (fun t ht => h t (List.mem_cons_of_mem _ ht)) b hb

/-- The read loop over a zero-terminated run of valid labels with no pointer. -/
theorem read_loop_labels (buffer : List Nat) (ls : List (List Nat)) (pre rest : List Nat)
    (fuel jumped count : Nat) (done free : List Nat)
    (hbuf : buffer = pre ++ wire_labels ls ++ 0 :: rest) (hv : ∀ l ∈ ls, ValidLabel l)
    (hlen : done.length + (wire_labels ls).length ≤ 256)
    (hfree : (wire_labels ls).length ≤ free.length) :
    read_loop buffer (fuel + 1 + (wire_labels ls).length) pre.length done.length jumped count
        (done ++ free)
      = some (Outcome.returned ⟨done.length + (wire_labels ls).length, jumped,
          if jumped = 0 then count + (wire_labels ls).length else count,
          done ++ wire_labels ls ++ free.drop (wire_labels ls).length⟩) := by
  rw [read_loop_literals buffer (wire_labels ls) pre (0 :: rest) (fuel + 1) jumped count done free
    hbuf (wire_labels_literal ls hv) hlen hfree]
  apply read_loop_zero
  rw [hbuf]
  have := getElem?_append_cons (pre ++ wire_labels ls) 0 rest
  simpa using this

/-- From the end of the read loop to the result of `read_name`, when the name
array holds the wire form of a non-empty sequence of labels. -/
theorem read_name_of_loop (fuel : Nat) (heap buffer : List Nat) (reader : Nat)
    (ls : List (List Nat)) (j c : Nat) (free : List Nat) (hne : ls ≠ [])
    (hv : ∀ l ∈ ls, 1 ≤ l.length ∧ ∀ b ∈ l, b ≠ 0)
    (hlen : (wire_labels ls ++ free).length = 256) (hfree : free ≠ [])
    (hloop : read_loop buffer fuel reader 0 0 1 (heap.set 0 0)
      = some (Outcome.returned ⟨(wire_labels ls).length, j, c, wire_labels ls ++ free⟩)) :
    read_name fuel heap buffer reader
      = some (Outcome.returned (dotted ls, if j = 1 then c + 1 else c)) := by
  obtain ⟨f, tail, rfl⟩ : ∃ f tail, free = f :: tail := by
    cases free with
    | nil => exact absurd rfl hfree
    | cons f tail => exact ⟨f, tail, rfl⟩
  have hp : (wire_labels ls).length < NAME_SIZE := by
    simp at hlen; unfold NAME_SIZE; omega
  have hset : (wire_labels ls ++ f :: tail).set (wire_labels ls).length 0
      = wire_labels ls ++ 0 :: tail := set_append_cons _ _ _ _
  have hdl := dot_loop_eq ls [] tail 257 hv (by simp) (by simp at hlen ⊢; omega)
    (by
      have h1 := dotted_trail_length ls
      have h2 : ls.length ≤ (dotted_trail ls).length := by
        clear hloop hset hp hlen hv hne h1
        induction ls with
        | nil => simp
        | cons l ls ih => simp [dotted_trail]; omega
      simp at hlen; omega)
  simp only [List.nil_append, List.length_nil, Nat.zero_add] at hdl
  have hpos : (wire_labels ls).length ≠ 0 := by
    rw [wire_labels_length ls hne]; omega
  have hfin : (dotted_trail ls ++ 0 :: tail).set ((wire_labels ls).length - 1) 0
      = dotted ls ++ 0 :: 0 :: tail := by
    rw [wire_labels_length ls hne, dotted_trail_eq ls hne]
    have := set_append_cons (dotted ls) dot 0 (0 :: tail)
    simp only [List.append_assoc, List.singleton_append, Nat.add_sub_cancel]
    exact this
  have hc : cstr (dotted ls ++ 0 :: 0 :: tail) = dotted ls :=
    cstr_append_zero _ _ (dotted_nonzero ls (fun l hl => (hv l hl).2))
  simp only [read_name, hloop, hp, if_true, hset, hdl, hpos, if_false, hfin, hc]

/-! ## Lemmas: compression pointers -/

theorem pointer_pair_eq (t : Nat) (ht : t < 16384) :
    pointer_pair t = [192 + t / 256, t % 256] := by
  have h1 : t >>> 8 = t / 256 := by rw [Nat.shiftRight_eq_div_pow]
  have h2 : t &&& 0xFF = t % 256 := Nat.and_pow_two_sub_one_eq_mod t 8
  have h3 : ∀ x < 64, 0xC0 ||| x = 192 + x := by decide
  have h4 : t / 256 < 64 := by omega
  simp only [pointer_pair, h1, h2, h3 _ h4]

theorem ptr_offset_pair (t : Nat) (ht : t < 16384) :
    ptr_offset (192 + t / 256) (t % 256) = t := by
  unfold ptr_offset
  omega

/-- The read loop over zero or more valid labels followed by a pointer to `t`:
the labels are copied and the loop goes on at offset `t` with `jumped` set. -/
theorem read_loop_labels_pointer (buffer : List Nat) (ls : List (List Nat)) (t m : Nat)
    (fuel jumped count : Nat) (done free : List Nat) (ht : t < 16384)
    (hm : holds_at buffer m (wire_labels ls ++ pointer_pair t)) (hv : ∀ l ∈ ls, ValidLabel l)
    (hlen : done.length + (wire_labels ls).length ≤ 256)
    (hfree : (wire_labels ls).length ≤ free.length) :
    read_loop buffer (fuel + 1 + (wire_labels ls).length) m done.length jumped count
        (done ++ free)
      = read_loop buffer fuel t (done.length + (wire_labels ls).length) 1
          (if jumped = 0 then count + (wire_labels ls).length else count)
          (done ++ wire_labels ls ++ free.drop (wire_labels ls).length) := by
  obtain ⟨pre, rest, hbuf, rfl⟩ := holds_at_split buffer m _ (by simp [pointer_pair]) hm
  rw [pointer_pair_eq t ht] at hbuf
  rw [read_loop_literals buffer (wire_labels ls) pre ([192 + t / 256, t % 256] ++ rest)
    (fuel + 1) jumped count done free (by rw [hbuf]; simp) (wire_labels_literal ls hv) hlen hfree]
  have h0 : buffer[pre.length + (wire_labels ls).length]? = some (192 + t / 256) := by
    have e : buffer = (pre ++ wire_labels ls) ++ (192 + t / 256) :: (t % 256 :: rest) := by
      rw [hbuf]; simp
    have hl : pre.length + (wire_labels ls).length = (pre ++ wire_labels ls).length := by simp
    rw [hl, e]
    exact getElem?_append_cons _ _ _
  have h1 : buffer[pre.length + (wire_labels ls).length + 1]? = some (t % 256) := by
    have e : buffer = (pre ++ wire_labels ls ++ [192 + t / 256]) ++ t % 256 :: rest := by
      rw [hbuf]; simp
    have hl : pre.length + (wire_labels ls).length + 1
        = (pre ++ wire_labels ls ++ [192 + t / 256]).length := by simp [Nat.add_assoc]
    rw [hl, e]
    exact getElem?_append_cons _ _ _
  rw [read_loop_pointer buffer fuel _ _ _ _ _ _ _ h0 (by omega) h1, ptr_offset_pair t ht]

/-- Result of `read_name` once the read loop, started with an empty name, is
at the start of a zero-terminated run of labels `ls2`, having copied `ls1`. -/
theorem read_name_finish (fuel k : Nat) (heap buffer : List Nat) (reader t : Nat)
    (ls1 ls2 : List (List Nat)) (j c : Nat) (hheap : heap.length = NAME_SIZE)
    (h1 : ∀ l ∈ ls1, ValidLabel l) (h2 : ValidName ls2)
    (hlen : (wire_labels ls1).length + (wire_labels ls2).length + 1 ≤ 256)
    (ht : holds_at buffer t (wire_labels ls2 ++ [0]))
    (hloop : read_loop buffer fuel reader 0 0 1 (heap.set 0 0)
      = read_loop buffer (k + 1 + (wire_labels ls2).length) t (wire_labels ls1).length j c
          (wire_labels ls1 ++ (heap.set 0 0).drop (wire_labels ls1).length)) :
    read_name fuel heap buffer reader
      = some (Outcome.returned (dotted (ls1 ++ ls2),
          if j = 1 then (if j = 0 then c + (wire_labels ls2).length else c) + 1
          else (if j = 0 then c + (wire_labels ls2).length else c))) := by
  obtain ⟨pre, rest, hbuf, rfl⟩ := holds_at_split buffer t _ (by simp) ht
  have hfl : (heap.set 0 0).length = 256 := by simpa [NAME_SIZE] using hheap
  have hl := read_loop_labels buffer ls2 pre rest k j c (wire_labels ls1)
    ((heap.set 0 0).drop (wire_labels ls1).length) (by rw [hbuf]; simp) h2.2 (by omega)
    (by simp [hfl]; omega)
  rw [hl] at hloop
  have hv : ∀ l ∈ ls1 ++ ls2, ValidLabel l := by
    intro l hl
    rcases List.mem_append.1 hl with hl | hl
    · exact h1 l hl
    · exact h2.2 l hl
  have hdrop : (((heap.set 0 0).drop (wire_labels ls1).length).drop (wire_labels ls2).length).length
      = 256 - (wire_labels ls1).length - (wire_labels ls2).length := by simp [hfl]; omega
  rw [← wire_labels_append, ← List.length_append, ← wire_labels_append] at hloop
  refine read_name_of_loop fuel heap buffer reader (ls1 ++ ls2) j _ _ (by simp [h2.1])
    (validLabel_nonzero _ hv) ?_ ?_ hloop
  · rw [List.length_append, hdrop, wire_labels_append, List.length_append]; omega
  · intro hnil; rw [hnil] at hdrop; simp at hdrop; omega

/-! ## Lemmas: the answer loop -/

theorem getD_append_add (pre l : List Nat) (j d : Nat) :
    (pre ++ l).getD (pre.length + j) d = l.getD j d := by
  induction pre with
  | nil => simp
  | cons a pre ih =>
    have : (a :: pre).length + j = (pre.length + j) + 1 := by simp; omega
    rw [this]
    simpa using ih

theorem answer_loop_eq (rs : List ARecord) :
    ∀ (pre rest : List Nat) (out : List String),
      answer_loop (pre ++ answer_section rs ++ rest) rs.length pre.length out
        = Outcome.returned (out ++ rs.map ARecord.address) := by
  induction rs with
  | nil => intro pre rest out; simp [answer_loop]
  | cons r rs ih =>
    intro pre rest out
    have h := ih (pre ++ r.bytes) rest (out ++ [r.address])
    have hl : (pre ++ r.bytes).length = pre.length + 2 + 10 + 4 := by
      simp [ARecord.bytes]
    rw [hl] at h
    have e : pre ++ answer_section (r :: rs) ++ rest
        = pre ++ r.bytes ++ answer_section rs ++ rest := by simp [answer_section]
    have hb : pre.length + 2 + 10 + 4 ≤ (pre ++ r.bytes ++ answer_section rs ++ rest).length := by
      simp [ARecord.bytes]; omega
    have g : ∀ j, (pre ++ r.bytes ++ answer_section rs ++ rest).getD (pre.length + j) 0
        = (r.bytes ++ answer_section rs ++ rest).getD j 0 := by
      intro j
      have := getD_append_add pre (r.bytes ++ answer_section rs ++ rest) j 0
      simpa using this
    have g0 : (pre ++ r.bytes ++ answer_section rs ++ rest).getD (pre.length + 12) 0 = r.a0 := by
      rw [g 12]; rfl
    have g1 : (pre ++ r.bytes ++ answer_section rs ++ rest).getD (pre.length + 13) 0 = r.a1 := by
      rw [g 13]; rfl
    have g2 : (pre ++ r.bytes ++ answer_section rs ++ rest).getD (pre.length + 14) 0 = r.a2 := by
      rw [g 14]; rfl
    have g3 : (pre ++ r.bytes ++ answer_section rs ++ rest).getD (pre.length + 15) 0 = r.a3 := by
      rw [g 15]; rfl
    have a0 : pre.length + 2 + 10 = pre.length + 12 := by omega
    have a1 : pre.length + 2 + 10 + 1 = pre.length + 13 := by omega
    have a2 : pre.length + 2 + 10 + 2 = pre.length + 14 := by omega
    have a3 : pre.length + 2 + 10 + 3 = pre.length + 15 := by omega
    rw [e]
    simp only [List.length_cons, answer_loop, hb, if_true, a0, a1, a2, a3, g0, g1, g2, g3]
    simp only [a0] at h
    rw [show inet_ntoa r.a0 r.a1 r.a2 r.a3 = r.address from rfl, h]
    simp

/-! ## Lemmas: no failure path, totality of the conversion -/

theorem shift_label_ne_failed (n : Nat) :
    ∀ (i : Nat) (name : List Nat) (f : Failure), shift_label n i name ≠ Outcome.failed f := by
  induction n with
  | zero => intro i name f; simp [shift_label]
  | succ n ih =>
    intro i name f
    simp only [shift_label]
    split
    · exact ih _ _ f
    · simp

theorem dot_loop_ne_failed (fuel : Nat) :
    ∀ (i : Nat) (name : List Nat) (f : Failure),
      dot_loop fuel i name ≠ some (Outcome.failed f) := by
  induction fuel with
  | zero => intro i name f; simp [dot_loop]
  | succ fuel ih =>
    intro i name f
    simp only [dot_loop]
    split
    · simp
    · split
      · split
        · split
          · exact ih _ _ f
          · simp
        · rename_i g hg
          exact absurd hg (shift_label_ne_failed _ _ _ g)
        · simp
      · simp

theorem read_loop_ne_failed (buffer : List Nat) (fuel : Nat) :
    ∀ (reader p jumped count : Nat) (name : List Nat) (f : Failure),
      read_loop buffer fuel reader p jumped count name ≠ some (Outcome.failed f) := by
  induction fuel with
  | zero => intro reader p jumped count name f; simp [read_loop]
  | succ fuel ih =>
    intro reader p jumped count name f
    simp only [read_loop]
    split
    · simp
    · split
      · simp
      · split
        · split
          · simp
          · exact ih _ _ _ _ _ f
        · split
          · exact ih _ _ _ _ _ f
          · simp

theorem read_name_ne_failed (fuel : Nat) (heap buffer : List Nat) (reader : Nat) (f : Failure) :
    read_name fuel heap buffer reader ≠ some (Outcome.failed f) := by
  simp only [read_name]
  cases h : read_loop buffer fuel reader 0 0 1 (heap.set 0 0) with
  | none => simp
  | some o =>
    cases o with
    | failed g => exact absurd h (read_loop_ne_failed buffer fuel _ _ _ _ _ g)
    | outOfBounds => simp
    | returned st =>
      simp only []
      by_cases hp : st.p < NAME_SIZE
      · simp only [hp, if_true]
        cases h2 : dot_loop 257 0 (st.name.set st.p 0) with
        | none => simp
        | some o2 =>
          cases o2 with
          | failed g => exact absurd h2 (dot_loop_ne_failed _ _ _ g)
          | outOfBounds => simp
          | returned r =>
            obtain ⟨i, n2⟩ := r
            by_cases hi : i = 0 <;> simp [hi]
      · simp [hp]

theorem read_name_of_loop_oob (fuel : Nat) (heap buffer : List Nat) (reader : Nat)
    (h : read_loop buffer fuel reader 0 0 1 (heap.set 0 0) = some Outcome.outOfBounds) :
    read_name fuel heap buffer reader = some Outcome.outOfBounds := by
  simp [read_name, h]

theorem read_name_of_loop_none (fuel : Nat) (heap buffer : List Nat) (reader : Nat)
    (h : read_loop buffer fuel reader 0 0 1 (heap.set 0 0) = none) :
    read_name fuel heap buffer reader = none := by
  simp [read_name, h]

/-! ## Lemmas: termination -/

theorem self_pointer_loops (fuel : Nat) :
    ∀ (p jumped count : Nat) (name : List Nat),
      read_loop [0xC0, 0x00] fuel 0 p jumped count name = none := by
  induction fuel with
  | zero => intro p jumped count name; rfl
  | succ fuel ih =>
    intro p jumped count name
    rw [read_loop_pointer [0xC0, 0x00] fuel 0 p jumped count name 0xC0 0x00 rfl (by decide) rfl]
    exact ih p 1 count name

theorem mutual_pointers_loop (fuel : Nat) :
    ∀ (p jumped count : Nat) (name : List Nat),
      read_loop [0xC0, 0x02, 0xC0, 0x00] fuel 0 p jumped count name = none
      ∧ read_loop [0xC0, 0x02, 0xC0, 0x00] fuel 2 p jumped count name = none := by
  induction fuel with
  | zero => intro p jumped count name; exact ⟨rfl, rfl⟩
  | succ fuel ih =>
    intro p jumped count name
    constructor
    · rw [read_loop_pointer [0xC0, 0x02, 0xC0, 0x00] fuel 0 p jumped count name 0xC0 0x02 rfl
        (by decide) rfl]
      exact (ih p 1 count name).2
    · rw [read_loop_pointer [0xC0, 0x02, 0xC0, 0x00] fuel 2 p jumped count name 0xC0 0x00 rfl
        (by decide) rfl]
      exact (ih p 1 count name).1

theorem shift_label_mono (n : Nat) :
    ∀ (i : Nat) (name : List Nat) (i1 : Nat) (name1 : List Nat),
      shift_label n i name = Outcome.returned (i1, name1) →
      i ≤ i1 ∧ name1.length = name.length := by
  induction n with
  | zero =>
    intro i name i1 name1 h
    simp only [shift_label, Outcome.returned.injEq, Prod.mk.injEq] at h
    exact ⟨by omega, by rw [h.2]⟩
  | succ n ih =>
    intro i name i1 name1 h
    simp only [shift_label] at h
    split at h
    · have := ih _ _ _ _ h
      simp only [List.length_set] at this
      exact ⟨by omega, this.2⟩
    · simp at h

/-- The conversion loop always ends within 257 iterations. -/
theorem dot_loop_total (fuel : Nat) :
    ∀ (i : Nat) (name : List Nat), name.length = 256 → 256 ≤ fuel + i →
      dot_loop (fuel + 1) i name ≠ none := by
  induction fuel with
  | zero =>
    intro i name hlen hi
    simp only [dot_loop]
    cases hs : strlen_name name with
    | none => simp
    | some len =>
      have hl : len < name.length := by
        unfold strlen_name at hs
        split at hs
        · simp only [Option.some.injEq] at hs; omega
        · simp at hs
      have : ¬ i < len := by omega
      simp [this]
  | succ fuel ih =>
    intro i name hlen hi
    rw [dot_loop]
    cases hs : strlen_name name with
    | none => simp
    | some len =>
      simp only []
      by_cases hil : i < len
      · simp only [hil, if_true]
        cases hsl : shift_label (name.getD i 0) i name with
        | failed f => simp
        | outOfBounds => simp
        | returned r =>
          obtain ⟨i1, name1⟩ := r
          have hm := shift_label_mono _ _ _ _ _ hsl
          simp only []
          by_cases hi1 : i1 < NAME_SIZE
          · simp only [hi1, if_true]
            exact ih (i1 + 1) (name1.set i1 dot) (by simp [hm.2, hlen]) (by omega)
          · simp [hi1]
      · simp [hil]

theorem read_loop_name_length (buffer : List Nat) (fuel : Nat) :
    ∀ (reader p jumped count : Nat) (name : List Nat) (st : ReadState),
      read_loop buffer fuel reader p jumped count name = some (Outcome.returned st) →
      st.name.length = name.length := by
  induction fuel with
  | zero => intro reader p jumped count name st h; simp [read_loop] at h
  | succ fuel ih =>
    intro reader p jumped count name st h
    simp only [read_loop] at h
    split at h
    · simp at h
    · split at h
      · simp only [Option.some.injEq, Outcome.returned.injEq] at h
        rw [← h]
      · split at h
        · split at h
          · simp at h
          · exact ih _ _ _ _ _ _ h
        · split at h
          · have := ih _ _ _ _ _ _ h
            simpa using this
          · simp at h

/-- Once the read loop has ended, `read_name` ends. -/
theorem read_name_ends_of_loop (fuel : Nat) (heap buffer : List Nat) (reader : Nat)
    (hheap : heap.length = NAME_SIZE)
    (h : read_loop buffer fuel reader 0 0 1 (heap.set 0 0) ≠ none) :
    read_name fuel heap buffer reader ≠ none := by
  simp only [read_name]
  cases hl : read_loop buffer fuel reader 0 0 1 (heap.set 0 0) with
  | none => exact absurd hl h
  | some o =>
    cases o with
    | failed g => simp
    | outOfBounds => simp
    | returned st =>
      simp only []
      by_cases hp : st.p < NAME_SIZE
      · simp only [hp, if_true]
        have hlen : (st.name.set st.p 0).length = 256 := by
          have := read_loop_name_length _ _ _ _ _ _ _ _ hl
          simp only [List.length_set] at this ⊢
          rw [this]; exact hheap
        have ht := dot_loop_total 256 0 (st.name.set st.p 0) hlen (by omega)
        cases h2 : dot_loop 257 0 (st.name.set st.p 0) with
        | none => exact absurd h2 ht
        | some o2 =>
          cases o2 with
          | failed g => simp
          | outOfBounds => simp
          | returned r =>
            obtain ⟨i, n2⟩ := r
            by_cases hi : i = 0 <;> simp [hi]
      · simp [hp]

/-- A run of 256 label bytes before the zero octet fills the name array, and
the terminating write `name[p] = 0` then falls outside it. -/
theorem read_name_overflow (lits heap : List Nat) (hheap : heap.length = NAME_SIZE)
    (hl : lits.length = 256) (hv : ∀ b ∈ lits, 1 ≤ b ∧ b ≤ 191) (fuel : Nat)
    (hfuel : 257 ≤ fuel) :
    read_name fuel heap (lits ++ [0]) 0 = some Outcome.outOfBounds := by
  obtain ⟨k, rfl⟩ : ∃ k, fuel = k + 1 + lits.length := ⟨fuel - 1 - lits.length, by omega⟩
  have hfl : (heap.set 0 0).length = 256 := by simpa [NAME_SIZE] using hheap
  have h1 := read_loop_literals (lits ++ [0]) lits [] [0] (k + 1) 0 1 [] (heap.set 0 0) (by simp)
    hv (by simp; omega) (by omega)
  simp only [List.length_nil, Nat.zero_add, List.nil_append, if_true] at h1
  have hz := read_loop_zero (lits ++ [0]) k lits.length lits.length 0 (1 + lits.length)
    (lits ++ List.drop lits.length (heap.set 0 0)) (getElem?_append_cons lits 0 [])
  rw [hz] at h1
  have hp : ¬ lits.length < NAME_SIZE := by unfold NAME_SIZE; omega
  simp only [read_name, h1, hp, if_false]

/-! ## Lemmas: building the query -/

theorem split_at_length (l : List Nat) (n : Nat) (h : n ≤ l.length) :
    ∃ a b, l = a ++ b ∧ a.length = n :=
  ⟨l.take n, l.drop n, (List.take_append_drop n l).symm, by simp [h]⟩

theorem write_at_eq (pre old new rest : List Nat) (h : old.length = new.length) :
    write_at (pre ++ old ++ rest) pre.length new = some (pre ++ new ++ rest) := by
  have h1 : pre.length + new.length ≤ (pre ++ old ++ rest).length := by simp; omega
  have h2 : (pre ++ old ++ rest).take pre.length = pre := by
    rw [List.append_assoc]; exact List.take_left' rfl
  have h3 : (pre ++ old ++ rest).drop (pre.length + new.length) = rest :=
    List.drop_left' (by simp [h])
  simp only [write_at, h1, if_true, h2, h3]

theorem strlen_at_eq (pre str rest : List Nat) (h : ∀ b ∈ str, b ≠ 0) :
    strlen_at (pre ++ str ++ 0 :: rest) pre.length = some str.length := by
  have h1 : (pre ++ str ++ 0 :: rest).drop pre.length = str ++ 0 :: rest := by
    rw [List.append_assoc]; exact List.drop_left' rfl
  have h2 : strlen (str ++ 0 :: rest) = str.length := by
    unfold strlen; rw [cstr_append_zero str rest h]
  simp [strlen_at, h1, h2]

set_option maxRecDepth 100000 in
theorem flag_bytes (b : Nat) (hb : b < 256) :
    set_bits (set_bits (set_bits (set_bits (set_bits b 7 1 0) 3 4 0) 2 1 0) 1 1 0) 0 1 1 = 1
      ∧ set_bits (set_bits (set_bits (set_bits (set_bits b 7 1 0) 6 1 0) 5 1 0) 4 1 0) 0 4 0
        = 0 := by
  have : ∀ b < 256,
      set_bits (set_bits (set_bits (set_bits (set_bits b 7 1 0) 3 4 0) 2 1 0) 1 1 0) 0 1 1 = 1
      ∧ set_bits (set_bits (set_bits (set_bits (set_bits b 7 1 0) 6 1 0) 5 1 0) 4 1 0) 0 4 0
        = 0 := by decide
  exact this b hb

theorem set_header_eq (buf : List Nat) (pid : Nat) (hbytes : ∀ b ∈ buf, b < 256)
    (hlen : 6 ≤ buf.length) :
    set_header buf pid = htons_bytes pid ++ [1, 0] ++ htons_bytes 1 ++ buf.drop 6 := by
  have h2 : buf.getD 2 0 < 256 := by
    have hl : 2 < buf.length := by omega
    rw [List.getD_eq_getElem _ _ hl]
    exact hbytes _ (List.getElem_mem hl)
  have h3 : buf.getD 3 0 < 256 := by
    have hl : 3 < buf.length := by omega
    rw [List.getD_eq_getElem _ _ hl]
    exact hbytes _ (List.getElem_mem hl)
  simp only [set_header, (flag_bytes _ h2).1, (flag_bytes _ h3).2]

theorem segments_nonzero (host : List Nat) (hnul : ∀ b ∈ host, b ≠ 0) :
    ∀ s ∈ segments host, ∀ b ∈ s, b ≠ 0 := by
  have : ∀ (h cur : List Nat), (∀ c ∈ h, c ≠ 0) → (∀ c ∈ cur, c ≠ 0) →
      ∀ t ∈ segments_from h cur, ∀ c ∈ t, c ≠ 0 := by
    intro h
    induction h with
    | nil => intro cur _ hcur t ht; simp [segments_from] at ht; rw [ht]; exact hcur
    | cons x h ih =>
      intro cur hh hcur t ht
      have hx : x ≠ 0 := hh x (List.mem_cons_self _ _)
      have hh1 : ∀ c ∈ h, c ≠ 0 := fun c hc => hh c (List.mem_cons_of_mem _ hc)
      by_cases hd : x = dot
      · simp only [segments_from, hd, if_true, List.mem_cons] at ht
        rcases ht with ht | ht
        · rw [ht]; exact hcur
        · exact ih [] hh1 (by simp) t ht
      · simp only [segments_from, hd, if_false] at ht
        refine ih (cur ++ [x]) hh1 ?_ t ht
        intro c hc
        rcases List.mem_append.1 hc with hc | hc
        · exact hcur c hc
        · simp at hc; rw [hc]; exact hx
  exact this host [] hnul (by simp)

/-- What lines 147-174 do on a host string with valid segments that fits the
buffer: header fields, encoded name, question fields; bytes 6 to 11 and the
bytes after the question keep their prior content. -/
theorem build_query_eq (buf : List Nat) (pid : Nat) (host : List Nat)
    (hbytes : ∀ b ∈ buf, b < 256) (hnul : ∀ b ∈ host, b ≠ 0)
    (hseg : ∀ s ∈ segments host, ValidSegment s) (hfit : host.length + 18 ≤ buf.length) :
    build_query buf pid host
      = Outcome.returned
          ⟨htons_bytes pid ++ [1, 0] ++ htons_bytes 1 ++ (buf.drop 6).take 6
            ++ (wire_labels (segments host) ++ [0])
            ++ (htons_bytes DNS_QUERY_TYPE_A ++ htons_bytes DNS_QUERY_CLASS_IN)
            ++ buf.drop (host.length + 18), host.length + 18⟩ := by
  have hw := wire_labels_mod_eq (segments host) (fun s hs => by have := (hseg s hs).2; omega)
  have henc : hostname_to_dns_format host
      = Outcome.returned ⟨wire_labels (segments host) ++ [0], host ++ [dot]⟩ := by
    rw [hostname_to_dns_format_eq, cstr_of_nonzero host hnul, hw]
  have hwl : (wire_labels (segments host)).length = host.length + 1 := by
    have := wire_labels_mod_length host []
    rw [← hw]; simpa [segments] using this
  have hwz : ∀ b ∈ wire_labels (segments host), b ≠ 0 :=
    wire_labels_nonzero _ (fun s hs => ⟨(hseg s hs).1, segments_nonzero host hnul s hs⟩)
  obtain ⟨b6, r1, rfl, hb6⟩ := split_at_length buf 6 (by omega)
  obtain ⟨c6, r2, rfl, hc6⟩ := split_at_length r1 6 (by simp at hfit; omega)
  obtain ⟨mid, r3, rfl, hmid⟩ := split_at_length r2 (host.length + 2)
    (by simp at hfit; omega)
  obtain ⟨q4, rest, rfl, hq4⟩ := split_at_length r3 4 (by simp at hfit; omega)
  have hd6 : (b6 ++ (c6 ++ (mid ++ (q4 ++ rest)))).drop 6 = c6 ++ (mid ++ (q4 ++ rest)) :=
    List.drop_left' hb6
  have ht6 : (c6 ++ (mid ++ (q4 ++ rest))).take 6 = c6 := List.take_left' hc6
  have hdr : (b6 ++ (c6 ++ (mid ++ (q4 ++ rest)))).drop (host.length + 18) = rest := by
    have : b6 ++ (c6 ++ (mid ++ (q4 ++ rest))) = (b6 ++ c6 ++ mid ++ q4) ++ rest := by simp
    rw [this]
    exact List.drop_left' (by simp; omega)
  have hsh := set_header_eq (b6 ++ (c6 ++ (mid ++ (q4 ++ rest)))) pid hbytes (by simp; omega)
  rw [hd6] at hsh
  rw [hd6, ht6, hdr]
  generalize hH : htons_bytes pid ++ [1, 0] ++ htons_bytes 1 = H at hsh ⊢
  have hH6 : H.length = 6 := by rw [← hH]; simp [htons_bytes]
  have hw1 : write_at (H ++ (c6 ++ (mid ++ (q4 ++ rest)))) DNS_HEADER_SIZE
      (wire_labels (segments host) ++ [0])
      = some ((H ++ c6) ++ (wire_labels (segments host) ++ [0]) ++ (q4 ++ rest)) := by
    have := write_at_eq (H ++ c6) mid (wire_labels (segments host) ++ [0]) (q4 ++ rest)
      (by simp; omega)
    have hl : (H ++ c6).length = DNS_HEADER_SIZE := by simp [hH6, hc6, DNS_HEADER_SIZE]
    rw [hl] at this
    simpa using this
  have hs1 : ∀ tail, strlen_at ((H ++ c6) ++ (wire_labels (segments host) ++ [0]) ++ tail)
      DNS_HEADER_SIZE = some (host.length + 1) := by
    intro tail
    have := strlen_at_eq (H ++ c6) (wire_labels (segments host)) tail hwz
    have hl : (H ++ c6).length = DNS_HEADER_SIZE := by simp [hH6, hc6, DNS_HEADER_SIZE]
    rw [hl, hwl] at this
    simpa using this
  have hw2 : write_at ((H ++ c6) ++ (wire_labels (segments host) ++ [0]) ++ (q4 ++ rest))
      (DNS_HEADER_SIZE + (host.length + 1 + 1))
      (htons_bytes DNS_QUERY_TYPE_A ++ htons_bytes DNS_QUERY_CLASS_IN)
      = some ((H ++ c6) ++ (wire_labels (segments host) ++ [0])
          ++ (htons_bytes DNS_QUERY_TYPE_A ++ htons_bytes DNS_QUERY_CLASS_IN) ++ rest) := by
    have := write_at_eq ((H ++ c6) ++ (wire_labels (segments host) ++ [0])) q4
      (htons_bytes DNS_QUERY_TYPE_A ++ htons_bytes DNS_QUERY_CLASS_IN) rest
      (by simp [hq4, htons_bytes])
    have hl : ((H ++ c6) ++ (wire_labels (segments host) ++ [0])).length
        = DNS_HEADER_SIZE + (host.length + 1 + 1) := by
      simp [hH6, hc6, hwl, DNS_HEADER_SIZE]; omega
    rw [hl] at this
    simpa using this
  have hs2 := hs1 ((htons_bytes DNS_QUERY_TYPE_A ++ htons_bytes DNS_QUERY_CLASS_IN) ++ rest)
  simp only [List.append_assoc] at hw1 hw2 hs1 hs2 ⊢
  have henc1 : hostname_to_dns_format_in (strlen host + 2) host
      = Outcome.returned ⟨wire_labels (segments host) ++ [0], host ++ [dot]⟩ := henc
  simp only [build_query, build_query_in, hsh, henc1, hw1, hs1, hw2, hs2, List.append_assoc]
  simp [DNS_HEADER_SIZE, DNS_QUESTION_SIZE]
  omega

/-- When `argv[1]` has no room for the dot, the store of `strcat` outside it
is the first thing that happens after the header is set. -/
theorem build_query_in_no_room (cap : Nat) (buf : List Nat) (pid : Nat) (host : List Nat)
    (h : cap < strlen host + 2) :
    build_query_in cap buf pid host = Outcome.outOfBounds := by
  simp only [build_query_in, hostname_to_dns_format_in_no_room cap host h]

/-! ## Lemmas: one iteration of the answer loop -/

theorem answer_loop_step (buf : List Nat) (n reader : Nat) (out : List String)
    (h : reader + 2 + 10 + 4 ≤ buf.length) :
    answer_loop buf (n + 1) reader out
      = answer_loop buf n (reader + 2 + 10 + 4)
          (out ++ [inet_ntoa (buf.getD (reader + 2 + 10) 0) (buf.getD (reader + 2 + 10 + 1) 0)
            (buf.getD (reader + 2 + 10 + 2) 0) (buf.getD (reader + 2 + 10 + 3) 0)]) := by
  simp only [answer_loop, h, if_true]

theorem answer_loop_oob (buf : List Nat) (n reader : Nat) (out : List String)
    (h : buf.length < reader + 2 + 10 + 4) :
    answer_loop buf (n + 1) reader out = Outcome.outOfBounds := by
  have : ¬ reader + 2 + 10 + 4 ≤ buf.length := by omega
  simp only [answer_loop, this, if_false]

theorem answer_loop_ne_failed (buf : List Nat) (n : Nat) :
    ∀ (reader : Nat) (out : List String) (f : Failure),
      answer_loop buf n reader out ≠ Outcome.failed f := by
  induction n with
  | zero => intro reader out f; simp [answer_loop]
  | succ n ih =>
    intro reader out f
    by_cases h : reader + 2 + 10 + 4 ≤ buf.length
    · rw [answer_loop_step buf n reader out h]; exact ih _ _ f
    · rw [answer_loop_oob buf n reader out (by omega)]; simp

theorem read_answers_ne_failed (buf : List Nat) (f : Failure) :
    read_answers buf ≠ Outcome.failed f := by
  unfold read_answers
  cases strlen_at buf DNS_HEADER_SIZE with
  | none => simp
  | some q => exact answer_loop_ne_failed _ _ _ _ f

/-- The answer loop depends on the buffer only through its size and the bytes
from the read pointer on. -/
theorem answer_loop_ext (buf1 buf2 : List Nat) (hlen : buf1.length = buf2.length) (n : Nat) :
    ∀ (reader : Nat) (out : List String),
      (∀ i, reader ≤ i → buf1.getD i 0 = buf2.getD i 0) →
      answer_loop buf1 n reader out = answer_loop buf2 n reader out := by
  induction n with
  | zero => intro reader out _; rfl
  | succ n ih =>
    intro reader out h
    by_cases hb : reader + 2 + 10 + 4 ≤ buf1.length
    · rw [answer_loop_step buf1 n reader out hb,
        answer_loop_step buf2 n reader out (by rw [← hlen]; exact hb),
        h _ (by omega), h _ (by omega), h _ (by omega), h _ (by omega)]
      exact ih _ _ (fun i hi => h i (by omega))
    · rw [answer_loop_oob buf1 n reader out (by omega),
        answer_loop_oob buf2 n reader out (by rw [← hlen]; omega)]

/-- Whether the answer loop stays inside the buffer is a matter of the answer
count and the buffer size alone. -/
theorem answer_loop_total (buf : List Nat) (n : Nat) :
    ∀ (reader : Nat) (out : List String),
      (reader + 16 * n ≤ buf.length →
        ∃ l, answer_loop buf n reader out = Outcome.returned l ∧ l.length = out.length + n)
      ∧ (0 < n → buf.length < reader + 16 * n →
        answer_loop buf n reader out = Outcome.outOfBounds) := by
  induction n with
  | zero =>
    intro reader out
    exact ⟨fun _ => ⟨out, rfl, rfl⟩, fun h => absurd h (by decide)⟩
  | succ n ih =>
    intro reader out
    constructor
    · intro h
      rw [answer_loop_step buf n reader out (by omega)]
      obtain ⟨l, hl, hlen⟩ := (ih (reader + 2 + 10 + 4) _).1 (by omega)
      exact ⟨l, hl, by rw [hlen]; simp; omega⟩
    · intro _ h
      by_cases hb : reader + 2 + 10 + 4 ≤ buf.length
      · rw [answer_loop_step buf n reader out hb]
        exact (ih (reader + 2 + 10 + 4) _).2 (by omega) (by omega)
      · exact answer_loop_oob buf n reader out (by omega)

/-! ## Lemmas: pointer arithmetic, single labels, the terminating octet -/

theorem wire_labels_mod_nonzero (segs : List (List Nat))
    (h : ∀ s ∈ segs, s.length % 256 ≠ 0 ∧ ∀ b ∈ s, b ≠ 0) :
    ∀ b ∈ wire_labels_mod segs, b ≠ 0 := by
  induction segs with
  | nil => intro b hb; simp [wire_labels_mod] at hb
  | cons s segs ih =>
    intro b hb
    have hs := h s (List.mem_cons_self _ _)
    simp only [wire_labels_mod, List.cons_append, List.mem_cons, List.mem_append] at hb
    rcases hb with hb | hb | hb
    · rw [hb]; exact hs.1
    · exact hs.2 b hb
    · exact ih (fun t ht => h t (List.mem_cons_of_mem _ ht)) b hb

/-- A host string that is one segment of 256 bytes: the length octet is
`256 % 256 = 0`, so the encoding starts with a zero octet. -/
theorem encode_segment_256 (l : List Nat) (hlen : l.length = 256)
    (hb : ∀ b ∈ l, b ≠ 0 ∧ b ≠ dot) :
    segments l = [l]
      ∧ hostname_to_dns_format l = Outcome.returned ⟨0 :: l ++ [0], l ++ [dot]⟩
      ∧ strlen (0 :: l ++ [0]) + 1 = 1 ∧ (0 :: l ++ [0]).length = 258 := by
  have hseg : segments l = [l] := by
    have := segments_from_append l [] [] (fun b h => (hb b h).2)
    simpa [segments, segments_from] using this
  refine ⟨hseg, ?_, ?_, ?_⟩
  · rw [hostname_to_dns_format_eq, cstr_of_nonzero l (fun b h => (hb b h).1), hseg]
    simp [wire_labels_mod, hlen]
  · simp [strlen, cstr]
  · simp [hlen]

/-! ## Lemmas: runs on valid names, more fuel -/

/-- State of the read loop at its end, when the start offset holds valid labels
`ls1` followed either by the zero octet (`ls2` empty) or by a pointer to the
fully encoded valid labels `ls2`. -/
theorem read_loop_valid (buffer : List Nat) (ls1 ls2 : List (List Nat)) (m : Nat)
    (heap : List Nat) (hheap : heap.length = NAME_SIZE) (fuel : Nat) (hfuel : 257 ≤ fuel)
    (h1 : ∀ l ∈ ls1, ValidLabel l) (h2 : ∀ l ∈ ls2, ValidLabel l)
    (hlen : (wire_labels (ls1 ++ ls2)).length ≤ 255)
    (hshape : (ls2 = [] ∧ holds_at buffer m (wire_labels ls1 ++ [0]))
      ∨ (ls2 ≠ [] ∧ ∃ t, t < 16384 ∧ holds_at buffer m (wire_labels ls1 ++ pointer_pair t)
          ∧ holds_at buffer t (wire_labels ls2 ++ [0]))) :
    ∃ free, read_loop buffer fuel m 0 0 1 (heap.set 0 0)
        = some (Outcome.returned ⟨(wire_labels (ls1 ++ ls2)).length,
            if ls2 = [] then 0 else 1, 1 + (wire_labels ls1).length,
            wire_labels (ls1 ++ ls2) ++ free⟩)
      ∧ free ≠ [] ∧ (wire_labels (ls1 ++ ls2) ++ free).length = 256 := by
  have hfl : (heap.set 0 0).length = 256 := by simpa [NAME_SIZE] using hheap
  rw [wire_labels_append, List.length_append] at hlen
  rcases hshape with ⟨hnil, hm⟩ | ⟨hne, t, ht, hm, hNt⟩
  · subst hnil
    simp only [wire_labels, List.length_nil, Nat.add_zero] at hlen
    obtain ⟨pre, rest, hbuf, rfl⟩ := holds_at_split buffer m _ (by simp) hm
    obtain ⟨k, rfl⟩ : ∃ k, fuel = k + 1 + (wire_labels ls1).length :=
      ⟨fuel - 1 - (wire_labels ls1).length, by omega⟩
    have hl := read_loop_labels buffer ls1 pre rest k 0 1 [] (heap.set 0 0)
      (by rw [hbuf]; simp) h1 (by simp; omega) (by omega)
    simp only [List.length_nil, Nat.zero_add, List.nil_append, if_true] at hl
    refine ⟨(heap.set 0 0).drop (wire_labels ls1).length, ?_, ?_, ?_⟩
    · simp only [List.append_nil, if_true]
      exact hl
    · intro hnil
      have := congrArg List.length hnil
      simp [hfl] at this
      omega
    · simp [hfl]; omega
  · obtain ⟨k, rfl⟩ : ∃ k, fuel = k + 1 + (wire_labels ls2).length + 1 + (wire_labels ls1).length :=
      ⟨fuel - 1 - (wire_labels ls2).length - 1 - (wire_labels ls1).length, by omega⟩
    have hp := read_loop_labels_pointer buffer ls1 t m (k + 1 + (wire_labels ls2).length) 0 1 []
      (heap.set 0 0) ht hm h1 (by simp; omega) (by omega)
    simp only [List.length_nil, Nat.zero_add, List.nil_append, if_true] at hp
    obtain ⟨pre, rest, hbuf, rfl⟩ := holds_at_split buffer t _ (by simp) hNt
    have hl := read_loop_labels buffer ls2 pre rest k 1 (1 + (wire_labels ls1).length)
      (wire_labels ls1) ((heap.set 0 0).drop (wire_labels ls1).length) (by rw [hbuf]; simp) h2
      (by omega) (by simp [hfl]; omega)
    rw [hl] at hp
    simp only [Nat.one_ne_zero, if_false] at hp
    refine ⟨((heap.set 0 0).drop (wire_labels ls1).length).drop (wire_labels ls2).length,
      ?_, ?_, ?_⟩
    · rw [hp, wire_labels_append, List.length_append]
      simp [hne]
    · intro hnil
      have := congrArg List.length hnil
      simp [hfl] at this
      omega
    · simp [hfl, wire_labels_append]; omega

/-- Result of `read_name` on such a name, for every content of the allocated
block and every sufficient fuel. -/
theorem read_name_valid (buffer : List Nat) (ls1 ls2 : List (List Nat)) (m : Nat)
    (heap : List Nat) (hheap : heap.length = NAME_SIZE) (fuel : Nat) (hfuel : 257 ≤ fuel)
    (h1 : ∀ l ∈ ls1, ValidLabel l) (h2 : ∀ l ∈ ls2, ValidLabel l) (hne : ls1 ++ ls2 ≠ [])
    (hlen : (wire_labels (ls1 ++ ls2)).length ≤ 255)
    (hshape : (ls2 = [] ∧ holds_at buffer m (wire_labels ls1 ++ [0]))
      ∨ (ls2 ≠ [] ∧ ∃ t, t < 16384 ∧ holds_at buffer m (wire_labels ls1 ++ pointer_pair t)
          ∧ holds_at buffer t (wire_labels ls2 ++ [0]))) :
    read_name fuel heap buffer m
      = some (Outcome.returned (dotted (ls1 ++ ls2),
          if (if ls2 = [] then 0 else 1) = 1 then 1 + (wire_labels ls1).length + 1
          else 1 + (wire_labels ls1).length)) := by
  obtain ⟨free, hloop, hfree, hlen256⟩ :=
    read_loop_valid buffer ls1 ls2 m heap hheap fuel hfuel h1 h2 hlen hshape
  have hv : ∀ l ∈ ls1 ++ ls2, ValidLabel l := by
    intro l hl
    rcases List.mem_append.1 hl with hl | hl
    · exact h1 l hl
    · exact h2 l hl
  exact read_name_of_loop fuel heap buffer m (ls1 ++ ls2) _ _ free hne
    (validLabel_nonzero _ hv) hlen256 hfree hloop

theorem read_loop_more_fuel (buffer : List Nat) (k : Nat) (fuel : Nat) :
    ∀ (reader p jumped count : Nat) (name : List Nat) (o : Outcome ReadState),
      read_loop buffer fuel reader p jumped count name = some o →
      read_loop buffer (fuel + k) reader p jumped count name = some o := by
  induction fuel with
  | zero => intro reader p jumped count name o h; simp [read_loop] at h
  | succ fuel ih =>
    intro reader p jumped count name o h
    have e : fuel + 1 + k = (fuel + k) + 1 := by omega
    rw [e]
    simp only [read_loop] at h ⊢
    split
    · rename_i hb; simp only [hb] at h; exact h
    · rename_i b hb
      simp only [hb] at h
      split
      · rename_i h0; simp only [h0, if_true] at h; exact h
      · rename_i h0
        simp only [h0, if_false] at h
        split
        · rename_i h192
          simp only [h192, if_true] at h
          split
          · rename_i hb1; simp only [hb1] at h; exact h
          · rename_i b1 hb1
            simp only [hb1] at h
            exact ih _ _ _ _ _ _ h
        · rename_i h192
          simp only [h192, if_false] at h
          split
          · rename_i hp
            simp only [hp, if_true] at h
            exact ih _ _ _ _ _ _ h
          · rename_i hp
            simp only [hp, if_false] at h
            exact h

theorem read_name_more_fuel (heap buffer : List Nat) (reader fuel1 fuel2 : Nat)
    (r : Outcome (List Nat × Nat)) (hle : fuel1 ≤ fuel2)
    (h : read_name fuel1 heap buffer reader = some r) :
    read_name fuel2 heap buffer reader = some r := by
  obtain ⟨k, rfl⟩ : ∃ k, fuel2 = fuel1 + k := ⟨fuel2 - fuel1, by omega⟩
  cases hl : read_loop buffer fuel1 reader 0 0 1 (heap.set 0 0) with
  | none => simp [read_name, hl] at h
  | some o =>
    have hl2 := read_loop_more_fuel buffer k fuel1 _ _ _ _ _ o hl
    simp only [read_name, hl] at h
    simp only [read_name, hl2]
    exact h

/-! ## Lemmas: the bytes the read loop copies -/

theorem take_set_succ (l : List Nat) (p v : Nat) (h : p < l.length) :
    (l.set p v).take (p + 1) = l.take p ++ [v] := by
  induction l generalizing p with
  | nil => simp at h
  | cons x l ih =>
    cases p with
    | zero => simp
    | succ p =>
      simp only [List.length_cons, Nat.add_lt_add_iff_right] at h
      simp [ih p h]

/-- The read loop stores no zero byte: when the bytes below `p` are non-zero on
entry, the bytes below the final `p` are non-zero when the loop ends. -/
theorem read_loop_copies_nonzero (buffer : List Nat) (fuel : Nat) :
    ∀ (reader p jumped count : Nat) (name : List Nat) (st : ReadState),
      name.length = NAME_SIZE → (∀ b ∈ name.take p, b ≠ 0) →
      read_loop buffer fuel reader p jumped count name = some (Outcome.returned st) →
      ∀ b ∈ st.name.take st.p, b ≠ 0 := by
  induction fuel with
  | zero => intro reader p jumped count name st _ _ h; simp [read_loop] at h
  | succ fuel ih =>
    intro reader p jumped count name st hlen hnz h
    unfold read_loop at h
    cases hb : buffer[reader]? with
    | none => simp [hb] at h
    | some b =>
      simp only [hb] at h
      by_cases hb0 : b = 0
      · simp only [hb0, if_true, Option.some.injEq, Outcome.returned.injEq] at h
        subst h
        exact hnz
      · simp only [hb0, if_false] at h
        by_cases hptr : 192 ≤ b
        · simp only [hptr, if_true] at h
          cases hb1 : buffer[reader + 1]? with
          | none => simp [hb1] at h
          | some b1 =>
            simp only [hb1] at h
            exact ih _ _ _ _ _ st hlen hnz h
        · simp only [hptr, if_false] at h
          by_cases hp : p < NAME_SIZE
          · simp only [hp, if_true] at h
            refine ih _ _ _ _ _ st (by simp [hlen]) ?_ h
            rw [take_set_succ name p b (by omega)]
            intro x hx
            rcases List.mem_append.1 hx with hx | hx
            · exact hnz x hx
            · simp at hx; omega
          · simp [hp] at h

/-- Labels whose encoding holds no zero byte are non-empty and hold no zero
byte. -/
theorem labels_of_wire_nonzero (ls : List (List Nat)) (h : ∀ b ∈ wire_labels ls, b ≠ 0) :
    ∀ l ∈ ls, 1 ≤ l.length ∧ ∀ b ∈ l, b ≠ 0 := by
  induction ls with
  | nil => intro l hl; simp at hl
  | cons l0 ls ih =>
    intro l hl
    simp only [wire_labels] at h
    rcases List.mem_cons.1 hl with rfl | hl
    · constructor
      · have := h l.length (by simp)
        omega
      · intro b hb
        exact h b (by simp [hb])
    · exact ih (fun b hb => h b (by simp [hb])) l hl

/-! ## Lemmas: when the read loop ends -/

theorem read_loop_literal (buffer : List Nat) (fuel reader p jumped count : Nat)
    (name : List Nat) (b : Nat) (hb : buffer[reader]? = some b) (hb0 : b ≠ 0)
    (hptr : ¬ 192 ≤ b) (hp : p < NAME_SIZE) :
    read_loop buffer (fuel + 1) reader p jumped count name
      = read_loop buffer fuel (reader + 1) (p + 1) jumped
          (if jumped = 0 then count + 1 else count) (name.set p b) := by
  simp only [read_loop, hb, hb0, hptr, hp, if_true, if_false]

/-- The read cursor is the read pointer of the read loop: after the `n`
iterations that lead to `q`, the loop goes on from `q`. -/
theorem read_cursor_loop (buffer : List Nat) (n : Nat) :
    ∀ (reader p q : Nat), read_cursor buffer n reader p = some q →
      ∀ (fuel jumped count : Nat) (name : List Nat), ∃ p1 j1 c1 name1,
        read_loop buffer (n + fuel) reader p jumped count name
          = read_loop buffer fuel q p1 j1 c1 name1 := by
  induction n with
  | zero =>
    intro reader p q h fuel jumped count name
    simp only [read_cursor, Option.some.injEq] at h
    subst h
    exact ⟨p, jumped, count, name, by rw [Nat.zero_add]⟩
  | succ n ih =>
    intro reader p q h fuel jumped count name
    have hf : n + 1 + fuel = (n + fuel) + 1 := by omega
    rw [hf]
    unfold read_cursor at h
    cases hb : buffer[reader]? with
    | none => simp [hb] at h
    | some b =>
      simp only [hb] at h
      by_cases hb0 : b = 0
      · simp [hb0] at h
      · simp only [hb0, if_false] at h
        by_cases hptr : 192 ≤ b
        · simp only [hptr, if_true] at h
          cases hb1 : buffer[reader + 1]? with
          | none => simp [hb1] at h
          | some b1 =>
            simp only [hb1] at h
            rw [read_loop_pointer buffer (n + fuel) reader p jumped count name b b1 hb hptr hb1]
            exact ih _ _ _ h fuel 1 count name
        · simp only [hptr, if_false] at h
          by_cases hp : p < NAME_SIZE
          · simp only [hp, if_true] at h
            rw [read_loop_literal buffer (n + fuel) reader p jumped count name b hb hb0 hptr hp]
            exact ih _ _ _ h fuel _ _ _
          · simp [hp] at h

/-- On a cycle made of pointers only the read loop never ends. -/
theorem pointer_cycle_loops (buffer : List Nat) (fuel : Nat) :
    ∀ (q p jumped count : Nat) (name : List Nat),
      (∀ k, chain_leaves buffer k q = false) →
      read_loop buffer fuel q p jumped count name = none := by
  induction fuel with
  | zero => intro q p jumped count name _; rfl
  | succ fuel ih =>
    intro q p jumped count name h
    have h0 := h 0
    simp only [chain_leaves] at h0
    cases hp : pointer_at buffer q with
    | none => simp [hp] at h0
    | some t =>
      have ht : ∀ k, chain_leaves buffer k t = false := by
        intro k
        have := h (k + 1)
        simpa only [chain_leaves, hp] using this
      unfold pointer_at at hp
      cases hb : buffer[q]? with
      | none => simp [hb] at hp
      | some b0 =>
        simp only [hb] at hp
        by_cases hptr : 192 ≤ b0
        · simp only [hptr, if_true] at hp
          cases hb1 : buffer[q + 1]? with
          | none => simp [hb1] at hp
          | some b1 =>
            simp only [hb1, Option.some.injEq] at hp
            rw [read_loop_pointer buffer fuel q p jumped count name b0 b1 hb hptr hb1, hp]
            exact ih t p 1 count name ht
        · simp [hptr] at hp

/-- From an offset whose pointer chain leaves the pointers, the read loop ends
once the loop that goes on after a copied byte does. -/
theorem read_loop_ends_chain (buffer : List Nat) (p count : Nat) (name : List Nat)
    (hlit : ∀ reader jumped b, buffer[reader]? = some b → b ≠ 0 → ¬ 192 ≤ b → p < NAME_SIZE →
      (∀ n q, read_cursor buffer n (reader + 1) (p + 1) = some q →
        ∃ k, chain_leaves buffer k q = true) →
      ∃ fuel, read_loop buffer fuel (reader + 1) (p + 1) jumped
        (if jumped = 0 then count + 1 else count) (name.set p b) ≠ none) (k : Nat) :
    ∀ (reader jumped : Nat), chain_leaves buffer k reader = true →
      (∀ n q, read_cursor buffer n reader p = some q → ∃ k, chain_leaves buffer k q = true) →
      ∃ fuel, read_loop buffer fuel reader p jumped count name ≠ none := by
  induction k with
  | zero =>
    intro reader jumped hk hall
    simp only [chain_leaves] at hk
    cases hb : buffer[reader]? with
    | none => exact ⟨1, by simp [read_loop, hb]⟩
    | some b =>
      by_cases hb0 : b = 0
      · exact ⟨1, by simp [read_loop, hb, hb0]⟩
      · by_cases hptr : 192 ≤ b
        · cases hb1 : buffer[reader + 1]? with
          | none => exact ⟨1, by simp [read_loop, hb, hb0, hptr, hb1]⟩
          | some b1 => simp [pointer_at, hb, hptr, hb1] at hk
        · by_cases hp : p < NAME_SIZE
          · obtain ⟨fuel, hf⟩ := hlit reader jumped b hb hb0 hptr hp (by
              intro n q hq
              exact hall (n + 1) q (by simp [read_cursor, hb, hb0, hptr, hp, hq]))
            refine ⟨fuel + 1, ?_⟩
            rw [read_loop_literal buffer fuel reader p jumped count name b hb hb0 hptr hp]
            exact hf
          · exact ⟨1, by simp [read_loop, hb, hb0, hptr, hp]⟩
  | succ k ih =>
    intro reader jumped hk hall
    cases hb : buffer[reader]? with
    | none => exact ⟨1, by simp [read_loop, hb]⟩
    | some b =>
      by_cases hb0 : b = 0
      · exact ⟨1, by simp [read_loop, hb, hb0]⟩
      · by_cases hptr : 192 ≤ b
        · cases hb1 : buffer[reader + 1]? with
          | none => exact ⟨1, by simp [read_loop, hb, hb0, hptr, hb1]⟩
          | some b1 =>
            have hp : pointer_at buffer reader = some (ptr_offset b b1) := by
              simp [pointer_at, hb, hptr, hb1]
            simp only [chain_leaves, hp] at hk
            obtain ⟨fuel, hf⟩ := ih (ptr_offset b b1) 1 hk (by
              intro n q hq
              exact hall (n + 1) q (by simp [read_cursor, hb, hb0, hptr, hb1, hq]))
            refine ⟨fuel + 1, ?_⟩
            rw [read_loop_pointer buffer fuel reader p jumped count name b b1 hb hptr hb1]
            exact hf
        · by_cases hp : p < NAME_SIZE
          · obtain ⟨fuel, hf⟩ := hlit reader jumped b hb hb0 hptr hp (by
              intro n q hq
              exact hall (n + 1) q (by simp [read_cursor, hb, hb0, hptr, hp, hq]))
            refine ⟨fuel + 1, ?_⟩
            rw [read_loop_literal buffer fuel reader p jumped count name b hb hb0 hptr hp]
            exact hf
          · exact ⟨1, by simp [read_loop, hb, hb0, hptr, hp]⟩

/-- The read loop ends when no offset it arrives at starts a cycle made of
pointers only: every copied byte brings `p` closer to the end of the name
array. -/
theorem read_loop_ends (buffer : List Nat) (d : Nat) :
    ∀ (reader p jumped count : Nat) (name : List Nat), NAME_SIZE - p = d →
      (∀ n q, read_cursor buffer n reader p = some q → ∃ k, chain_leaves buffer k q = true) →
      ∃ fuel, read_loop buffer fuel reader p jumped count name ≠ none := by
  induction d with
  | zero =>
    intro reader p jumped count name hd hall
    obtain ⟨k, hk⟩ := hall 0 reader rfl
    refine read_loop_ends_chain buffer p count name ?_ k reader jumped hk hall
    intro r j b _ _ _ hp _
    omega
  | succ d ih =>
    intro reader p jumped count name hd hall
    obtain ⟨k, hk⟩ := hall 0 reader rfl
    refine read_loop_ends_chain buffer p count name ?_ k reader jumped hk hall
    intro r j b _ _ _ hp hall1
    exact ih (r + 1) (p + 1) j _ _ (by omega) hall1

/-- A name of 256 label bytes before its zero octet, anywhere in the buffer:
the read loop copies all 256 and the terminator is then stored at index 256,
outside the name array. -/
theorem read_name_overflow_at (buffer lits heap : List Nat) (start : Nat)
    (hheap : heap.length = NAME_SIZE) (hl : lits.length = 256)
    (hv : ∀ b ∈ lits, 1 ≤ b ∧ b ≤ 191) (hat : holds_at buffer start (lits ++ [0]))
    (fuel : Nat) (hfuel : 257 ≤ fuel) :
    read_name fuel heap buffer start = some Outcome.outOfBounds := by
  obtain ⟨pre, rest, hbuf, hpre⟩ := holds_at_split buffer start (lits ++ [0]) (by simp) hat
  obtain ⟨k, rfl⟩ : ∃ k, fuel = k + 1 + lits.length := ⟨fuel - 1 - lits.length, by omega⟩
  have hfl : (heap.set 0 0).length = 256 := by simpa [NAME_SIZE] using hheap
  have h1 := read_loop_literals buffer lits pre (0 :: rest) (k + 1) 0 1 [] (heap.set 0 0)
    (by rw [hbuf]; simp) hv (by simp; omega) (by omega)
  simp only [List.length_nil, Nat.zero_add, List.nil_append, if_true, hpre] at h1
  have hz := read_loop_zero buffer k (start + lits.length) lits.length 0 (1 + lits.length)
    (lits ++ List.drop lits.length (heap.set 0 0))
    (by
      rw [hbuf, ← hpre, ← List.length_append]
      simpa [List.append_assoc] using getElem?_append_cons (pre ++ lits) 0 rest)
  rw [hz] at h1
  have hp : ¬ lits.length < NAME_SIZE := by unfold NAME_SIZE; omega
  simp only [read_name, h1, hp, if_false]

/-- In the buffer made of a label byte and a pointer to it, the read pointer
only ever stands at the label byte or at the pointer. -/
theorem read_cursor_label_pointer (n : Nat) :
    ∀ (reader p q : Nat), reader = 0 ∨ reader = 1 →
      read_cursor [1, 0xC0, 0x00] n reader p = some q → q = 0 ∨ q = 1 := by
  induction n with
  | zero =>
    intro reader p q hr h
    simp only [read_cursor, Option.some.injEq] at h
    subst h
    exact hr
  | succ n ih =>
    intro reader p q hr h
    rcases hr with rfl | rfl
    · by_cases hp : p < NAME_SIZE
      · have : read_cursor [1, 0xC0, 0x00] (n + 1) 0 p
            = read_cursor [1, 0xC0, 0x00] n 1 (p + 1) := by
          simp [read_cursor, hp]
        rw [this] at h
        exact ih 1 (p + 1) q (Or.inr rfl) h
      · simp [read_cursor, hp] at h
    · have : read_cursor [1, 0xC0, 0x00] (n + 1) 1 p = read_cursor [1, 0xC0, 0x00] n 0 p := by
        simp [read_cursor, ptr_offset]
      rw [this] at h
      exact ih 0 p q (Or.inl rfl) h

/-! ## Lemmas: the content of the allocated block does not matter -/

theorem getD_set (l : List Nat) (i k v : Nat) :
    (l.set i v).getD k 0 = if i = k ∧ i < l.length then v else l.getD k 0 := by
  simp only [List.getD_eq_getElem?_getD, List.getElem?_set]
  by_cases h : i = k
  · subst h
    by_cases h2 : i < l.length
    · simp [h2]
    · simp [h2, List.getElem?_eq_none (Nat.le_of_not_lt h2)]
  · simp [h]

theorem split_at_index (a : List Nat) (z : Nat) (hz : z < a.length) :
    a = a.take z ++ a.getD z 0 :: a.drop (z + 1) := by
  induction a generalizing z with
  | nil => simp at hz
  | cons x a ih =>
    cases z with
    | zero => simp
    | succ z =>
      simp only [List.length_cons, Nat.add_lt_add_iff_right] at hz
      simp only [List.take_succ_cons, List.getD_cons_succ, List.drop_succ_cons, List.cons_append]
      rw [← ih z hz]

theorem mem_take_getD (a : List Nat) (z : Nat) :
    ∀ x ∈ a.take z, ∃ k, k < z ∧ a.getD k 0 = x := by
  induction a generalizing z with
  | nil => intro x hx; simp at hx
  | cons y a ih =>
    cases z with
    | zero => intro x hx; simp at hx
    | succ z =>
      intro x hx
      simp only [List.take_succ_cons, List.mem_cons] at hx
      rcases hx with rfl | hx
      · exact ⟨0, by omega, by simp⟩
      · obtain ⟨k, hk, hkx⟩ := ih z x hx
        exact ⟨k + 1, by omega, by simpa using hkx⟩

theorem take_eq_of_getD (z : Nat) :
    ∀ (a b : List Nat), z ≤ a.length → z ≤ b.length →
      (∀ k, k < z → a.getD k 0 = b.getD k 0) → a.take z = b.take z := by
  induction z with
  | zero => intro a b _ _ _; simp
  | succ z ih =>
    intro a b ha hb h
    cases a with
    | nil => simp at ha
    | cons x a =>
      cases b with
      | nil => simp at hb
      | cons y b =>
        have h0 := h 0 (by omega)
        simp only [List.getD_cons_zero] at h0
        simp only [List.take_succ_cons, h0, List.cons.injEq, true_and]
        refine ih a b (by simpa using ha) (by simpa using hb) ?_
        intro k hk
        have := h (k + 1) (by omega)
        simpa using this

/-- An array whose first zero byte is at index `z`: its C string and its
`strlen`. -/
theorem first_zero (a : List Nat) (z : Nat) (hz : z < a.length)
    (hnz : ∀ k, k < z → a.getD k 0 ≠ 0) (h0 : a.getD z 0 = 0) :
    strlen_name a = some z ∧ cstr a = a.take z := by
  have hsplit := split_at_index a z hz
  rw [h0] at hsplit
  have hpre : ∀ x ∈ a.take z, x ≠ 0 := by
    intro x hx
    obtain ⟨k, hk, hkx⟩ := mem_take_getD a z x hx
    rw [← hkx]
    exact hnz k hk
  have hlen : (a.take z).length = z := by rw [List.length_take]; omega
  constructor
  · have := strlen_name_eq (a.take z) (a.drop (z + 1)) hpre
    rw [← hsplit, hlen] at this
    exact this
  · have := cstr_append_zero (a.take z) (a.drop (z + 1)) hpre
    rw [← hsplit] at this
    exact this

/-- Whether the shifting loop stays inside the array depends on the indices
only, not on the bytes. -/
theorem shift_label_sim (n : Nat) :
    ∀ (i : Nat) (a b : List Nat),
      (shift_label n i a = Outcome.outOfBounds ∧ shift_label n i b = Outcome.outOfBounds)
      ∨ ∃ a1 b1, shift_label n i a = Outcome.returned (i + n, a1)
          ∧ shift_label n i b = Outcome.returned (i + n, b1) := by
  induction n with
  | zero => intro i a b; exact Or.inr ⟨a, b, rfl, rfl⟩
  | succ n ih =>
    intro i a b
    by_cases h : i + 1 < NAME_SIZE
    · rcases ih (i + 1) (a.set i (a.getD (i + 1) 0)) (b.set i (b.getD (i + 1) 0)) with
        ⟨h1, h2⟩ | ⟨a1, b1, h1, h2⟩
      · exact Or.inl ⟨by simp only [shift_label, h, if_true, h1],
          by simp only [shift_label, h, if_true, h2]⟩
      · refine Or.inr ⟨a1, b1, ?_, ?_⟩
        · simp only [shift_label, h, if_true, h1]
          rw [Nat.add_assoc, Nat.add_comm 1 n]
        · simp only [shift_label, h, if_true, h2]
          rw [Nat.add_assoc, Nat.add_comm 1 n]
    · exact Or.inl ⟨by simp only [shift_label, h, if_false],
        by simp only [shift_label, h, if_false]⟩

/-- The bytes the shifting loop leaves: those at the indices `i` to
`i + n - 1` are the former bytes one index above, the others are unchanged. -/
theorem shift_label_getD (n : Nat) :
    ∀ (i : Nat) (a : List Nat) (i1 : Nat) (a1 : List Nat), a.length = NAME_SIZE →
      shift_label n i a = Outcome.returned (i1, a1) →
      a1.length = NAME_SIZE
        ∧ ∀ k, a1.getD k 0 = if i ≤ k ∧ k < i + n then a.getD (k + 1) 0 else a.getD k 0 := by
  induction n with
  | zero =>
    intro i a i1 a1 hlen h
    simp only [shift_label, Outcome.returned.injEq, Prod.mk.injEq] at h
    obtain ⟨_, rfl⟩ := h
    refine ⟨hlen, fun k => ?_⟩
    have : ¬ (i ≤ k ∧ k < i + 0) := by omega
    rw [if_neg this]
  | succ n ih =>
    intro i a i1 a1 hlen h
    by_cases hi : i + 1 < NAME_SIZE
    · simp only [shift_label, hi, if_true] at h
      obtain ⟨hl1, hget⟩ := ih (i + 1) _ i1 a1 (by simpa using hlen) h
      refine ⟨hl1, fun k => ?_⟩
      rw [hget k]
      have hil : i < a.length := by rw [hlen]; omega
      by_cases hk1 : i + 1 ≤ k ∧ k < i + 1 + n
      · have hk2 : i ≤ k ∧ k < i + (n + 1) := by omega
        have hne : ¬ (i = k + 1 ∧ i < a.length) := by omega
        simp only [hk1, hk2, and_self, if_true, getD_set, hne, if_false]
      · by_cases hki : k = i
        · subst hki
          have hk2 : k ≤ k ∧ k < k + (n + 1) := by omega
          simp only [hk1, hk2, and_self, if_true, if_false, getD_set, hil, true_and]
        · have hk2 : ¬ (i ≤ k ∧ k < i + (n + 1)) := by omega
          have hne : ¬ (i = k ∧ i < a.length) := by omega
          simp only [hk1, hk2, if_false, getD_set, hne]
    · simp only [shift_label, hi, if_false] at h
      cases h

/-- The read loop takes the same course in two name arrays that agree on the
bytes copied so far, and leaves arrays that agree on the bytes copied. -/
theorem read_loop_sim (buffer : List Nat) (fuel : Nat) :
    ∀ (reader p jumped count : Nat) (a b : List Nat), same_below p a b →
      (read_loop buffer fuel reader p jumped count a = none
        ∧ read_loop buffer fuel reader p jumped count b = none)
      ∨ (read_loop buffer fuel reader p jumped count a = some Outcome.outOfBounds
        ∧ read_loop buffer fuel reader p jumped count b = some Outcome.outOfBounds)
      ∨ ∃ p2 j2 c2 a2 b2,
          read_loop buffer fuel reader p jumped count a
            = some (Outcome.returned ⟨p2, j2, c2, a2⟩)
          ∧ read_loop buffer fuel reader p jumped count b
            = some (Outcome.returned ⟨p2, j2, c2, b2⟩)
          ∧ same_below p2 a2 b2 := by
  induction fuel with
  | zero => intro reader p jumped count a b _; exact Or.inl ⟨rfl, rfl⟩
  | succ fuel ih =>
    intro reader p jumped count a b hs
    cases hb : buffer[reader]? with
    | none => exact Or.inr (Or.inl ⟨by simp [read_loop, hb], by simp [read_loop, hb]⟩)
    | some c =>
      by_cases hc0 : c = 0
      · subst hc0
        refine Or.inr (Or.inr ⟨p, jumped, count, a, b, ?_, ?_, hs⟩)
        · exact read_loop_zero buffer fuel reader p jumped count a hb
        · exact read_loop_zero buffer fuel reader p jumped count b hb
      · by_cases hptr : 192 ≤ c
        · cases hb1 : buffer[reader + 1]? with
          | none =>
            exact Or.inr (Or.inl ⟨by simp [read_loop, hb, hc0, hptr, hb1],
              by simp [read_loop, hb, hc0, hptr, hb1]⟩)
          | some c1 =>
            rw [read_loop_pointer buffer fuel reader p jumped count a c c1 hb hptr hb1,
              read_loop_pointer buffer fuel reader p jumped count b c c1 hb hptr hb1]
            exact ih _ _ _ _ a b hs
        · by_cases hp : p < NAME_SIZE
          · rw [read_loop_literal buffer fuel reader p jumped count a c hb hc0 hptr hp,
              read_loop_literal buffer fuel reader p jumped count b c hb hc0 hptr hp]
            refine ih _ _ _ _ _ _ ?_
            obtain ⟨hla, hlb, hag⟩ := hs
            refine ⟨by simpa using hla, by simpa using hlb, fun k hk => ?_⟩
            rw [getD_set, getD_set]
            by_cases hkp : p = k
            · subst hkp
              have h1 : p = p ∧ p < a.length := ⟨rfl, by rw [hla]; exact hp⟩
              have h2 : p = p ∧ p < b.length := ⟨rfl, by rw [hlb]; exact hp⟩
              rw [if_pos h1, if_pos h2]
              exact ⟨rfl, hc0⟩
            · have h1 : ¬ (p = k ∧ p < a.length) := fun h => hkp h.1
              have h2 : ¬ (p = k ∧ p < b.length) := fun h => hkp h.1
              rw [if_neg h1, if_neg h2]
              exact hag k (by omega)
          · exact Or.inr (Or.inl ⟨by simp [read_loop, hb, hc0, hptr, hp],
              by simp [read_loop, hb, hc0, hptr, hp]⟩)

/-- One pass of the conversion loop in two arrays that hold the same string:
the arrays it leaves hold the same string again. -/
theorem dot_step_same (i z n : Nat) (a b a1 b1 : List Nat) (hs : same_string z a b)
    (hi : i < z) (hin : i + n < NAME_SIZE)
    (ha : shift_label n i a = Outcome.returned (i + n, a1))
    (hb : shift_label n i b = Outcome.returned (i + n, b1)) :
    same_string (if i + n < z then z else z - 1) (a1.set (i + n) dot) (b1.set (i + n) dot) := by
  obtain ⟨⟨hla, hlb, hag⟩, hz, haz, hbz⟩ := hs
  obtain ⟨hla1, hga⟩ := shift_label_getD n i a (i + n) a1 hla ha
  obtain ⟨hlb1, hgb⟩ := shift_label_getD n i b (i + n) b1 hlb hb
  have hd : dot ≠ 0 := by decide
  have hina : i + n < a1.length := by rw [hla1]; exact hin
  have hinb : i + n < b1.length := by rw [hlb1]; exact hin
  by_cases hcase : i + n < z
  · rw [if_pos hcase]
    refine ⟨⟨by simpa using hla1, by simpa using hlb1, fun k hk => ?_⟩, hz, ?_, ?_⟩
    · rw [getD_set, getD_set]
      by_cases hk1 : i + n = k
      · rw [if_pos ⟨hk1, hina⟩, if_pos ⟨hk1, hinb⟩]
        exact ⟨rfl, hd⟩
      · rw [if_neg (fun h => hk1 h.1), if_neg (fun h => hk1 h.1), hga k, hgb k]
        by_cases hk2 : i ≤ k ∧ k < i + n
        · rw [if_pos hk2, if_pos hk2]
          exact hag (k + 1) (by omega)
        · rw [if_neg hk2, if_neg hk2]
          exact hag k hk
    · rw [getD_set, if_neg (by omega), hga z, if_neg (by omega)]
      exact haz
    · rw [getD_set, if_neg (by omega), hgb z, if_neg (by omega)]
      exact hbz
  · rw [if_neg hcase]
    refine ⟨⟨by simpa using hla1, by simpa using hlb1, fun k hk => ?_⟩, by omega, ?_, ?_⟩
    · rw [getD_set, getD_set, if_neg (by omega), if_neg (by omega), hga k, hgb k]
      by_cases hk2 : i ≤ k ∧ k < i + n
      · rw [if_pos hk2, if_pos hk2]
        exact hag (k + 1) (by omega)
      · rw [if_neg hk2, if_neg hk2]
        exact hag k (by omega)
    · rw [getD_set, if_neg (by omega), hga (z - 1), if_pos (by omega)]
      have : z - 1 + 1 = z := by omega
      rw [this]
      exact haz
    · rw [getD_set, if_neg (by omega), hgb (z - 1), if_pos (by omega)]
      have : z - 1 + 1 = z := by omega
      rw [this]
      exact hbz

/-- The conversion loop takes the same course in two arrays that hold the same
string, and leaves arrays that hold the same string. -/
theorem dot_loop_sim (fuel : Nat) :
    ∀ (i z : Nat) (a b : List Nat), same_string z a b →
      (dot_loop fuel i a = none ∧ dot_loop fuel i b = none)
      ∨ (dot_loop fuel i a = some Outcome.outOfBounds
        ∧ dot_loop fuel i b = some Outcome.outOfBounds)
      ∨ ∃ i2 z2 a2 b2, dot_loop fuel i a = some (Outcome.returned (i2, a2))
          ∧ dot_loop fuel i b = some (Outcome.returned (i2, b2))
          ∧ same_string z2 a2 b2 := by
  induction fuel with
  | zero => intro i z a b _; exact Or.inl ⟨rfl, rfl⟩
  | succ fuel ih =>
    intro i z a b hs
    have hs0 := hs
    obtain ⟨⟨hla, hlb, hag⟩, hz, haz, hbz⟩ := hs
    have hsa := (first_zero a z (by rw [hla]; exact hz) (fun k hk => (hag k hk).2) haz).1
    have hsb := (first_zero b z (by rw [hlb]; exact hz)
      (fun k hk => by rw [← (hag k hk).1]; exact (hag k hk).2) hbz).1
    by_cases hi : i < z
    · have hn : b.getD i 0 = a.getD i 0 := ((hag i hi).1).symm
      rcases shift_label_sim (a.getD i 0) i a b with ⟨h1, h2⟩ | ⟨a1, b1, h1, h2⟩
      · exact Or.inr (Or.inl ⟨by simp only [dot_loop, hsa, hi, if_true, h1],
          by simp only [dot_loop, hsb, hi, if_true, hn, h2]⟩)
      · by_cases hin : i + a.getD i 0 < NAME_SIZE
        · have hnext := ih (i + a.getD i 0 + 1) _ _ _
            (dot_step_same i z (a.getD i 0) a b a1 b1 hs0 hi hin h1 h2)
          have ea : dot_loop (fuel + 1) i a
              = dot_loop fuel (i + a.getD i 0 + 1) (a1.set (i + a.getD i 0) dot) := by
            simp only [dot_loop, hsa, hi, if_true, h1, hin]
          have eb : dot_loop (fuel + 1) i b
              = dot_loop fuel (i + a.getD i 0 + 1) (b1.set (i + a.getD i 0) dot) := by
            simp only [dot_loop, hsb, hi, if_true, hn, h2, hin]
          rw [ea, eb]
          exact hnext
        · exact Or.inr (Or.inl ⟨by simp only [dot_loop, hsa, hi, if_true, h1, hin, if_false],
            by simp only [dot_loop, hsb, hi, if_true, hn, h2, hin, if_false]⟩)
    · exact Or.inr (Or.inr ⟨i, z, a, b, by simp only [dot_loop, hsa, hi, if_false],
        by simp only [dot_loop, hsb, hi, if_false], hs0⟩)

/-- The final store `name[i-1] = 0` leaves the same C string in two arrays
that hold the same string. -/
theorem finish_same (i z : Nat) (a b : List Nat) (hs : same_string z a b) (hi : 1 ≤ i) :
    cstr (a.set (i - 1) 0) = cstr (b.set (i - 1) 0) := by
  obtain ⟨⟨hla, hlb, hag⟩, hz, haz, hbz⟩ := hs
  have key : ∀ (c : List Nat), c.length = NAME_SIZE → (∀ k, k < z → c.getD k 0 ≠ 0) →
      c.getD z 0 = 0 →
      cstr (c.set (i - 1) 0) = (c.set (i - 1) 0).take (min z (i - 1)) := by
    intro c hlc hnz hcz
    refine (first_zero (c.set (i - 1) 0) (min z (i - 1)) (by simp [hlc]; omega) ?_ ?_).2
    · intro k hk
      rw [getD_set, if_neg (by omega)]
      exact hnz k (by omega)
    · rw [getD_set]
      by_cases h : i - 1 = min z (i - 1) ∧ i - 1 < c.length
      · rw [if_pos h]
      · rw [if_neg h]
        have : min z (i - 1) = z := by
          rw [hlc] at h
          omega
        rw [this]
        exact hcz
  rw [key a hla (fun k hk => (hag k hk).2) haz,
    key b hlb (fun k hk => by rw [← (hag k hk).1]; exact (hag k hk).2) hbz]
  refine take_eq_of_getD _ _ _ (by simp [hla]; omega) (by simp [hlb]; omega) ?_
  intro k hk
  rw [getD_set, getD_set, if_neg (by omega), if_neg (by omega)]
  exact (hag k (by omega)).1

/-- What `read_name` gives does not depend on the content of the block
`malloc` hands out. -/
theorem read_name_any_heap (fuel : Nat) (heap1 heap2 buffer : List Nat) (reader : Nat)
    (h1 : heap1.length = NAME_SIZE) (h2 : heap2.length = NAME_SIZE) :
    read_name fuel heap1 buffer reader = read_name fuel heap2 buffer reader := by
  have hs : same_below 0 (heap1.set 0 0) (heap2.set 0 0) :=
    ⟨by simpa using h1, by simpa using h2, fun k hk => absurd hk (by omega)⟩
  rcases read_loop_sim buffer fuel reader 0 0 1 _ _ hs with
    ⟨e1, e2⟩ | ⟨e1, e2⟩ | ⟨p2, j2, c2, a2, b2, e1, e2, hs2⟩
  · simp only [read_name, e1, e2]
  · simp only [read_name, e1, e2]
  · by_cases hp : p2 < NAME_SIZE
    · obtain ⟨hla, hlb, hag⟩ := hs2
      have hstr : same_string p2 (a2.set p2 0) (b2.set p2 0) := by
        refine ⟨⟨by simpa using hla, by simpa using hlb, fun k hk => ?_⟩, hp, ?_, ?_⟩
        · rw [getD_set, getD_set, if_neg (by omega), if_neg (by omega)]
          exact hag k hk
        · rw [getD_set, if_pos ⟨rfl, by rw [hla]; exact hp⟩]
        · rw [getD_set, if_pos ⟨rfl, by rw [hlb]; exact hp⟩]
      rcases dot_loop_sim 257 0 p2 _ _ hstr with
        ⟨d1, d2⟩ | ⟨d1, d2⟩ | ⟨i2, z2, a3, b3, d1, d2, hs3⟩
      · simp only [read_name, e1, e2, hp, if_true, d1, d2]
      · simp only [read_name, e1, e2, hp, if_true, d1, d2]
      · by_cases hi0 : i2 = 0
        · simp only [read_name, e1, e2, hp, if_true, d1, d2, hi0]
        · simp only [read_name, e1, e2, hp, if_true, d1, d2, hi0, if_false,
            finish_same i2 z2 a3 b3 hs3 (by omega)]
    · simp only [read_name, e1, e2, hp, if_false]

/-! ## Lemmas: the runs on a memory -/

theorem store_name_eq (m : Mem) (i v : Nat) (hlen : m.name.length = NAME_SIZE) :
    m.store Obj.name i v
      = if i < NAME_SIZE then some ⟨m.buffer, m.name.set i v, m.count, m.addr⟩ else none := by
  simp only [Mem.store, hlen]

/-- The read loop on a memory is the read loop on the buffer and the name
array: it leaves the buffer and the address field as they were. -/
theorem read_loop_mem_eq (fuel : Nat) :
    ∀ (reader p jumped : Nat) (m : Mem), m.name.length = NAME_SIZE →
      read_loop_mem fuel reader p jumped m
        = (read_loop m.buffer fuel reader p jumped m.count m.name).map
            (Outcome.map (fun st => (st.p, st.jumped, Mem.mk m.buffer st.name st.count m.addr))) := by
  induction fuel with
  | zero => intro reader p jumped m _; rfl
  | succ fuel ih =>
    intro reader p jumped m hlen
    cases hb : m.buffer[reader]? with
    | none => simp [read_loop_mem, read_loop, Mem.load, hb, Outcome.map]
    | some b =>
      by_cases hb0 : b = 0
      · simp [read_loop_mem, read_loop, Mem.load, hb, hb0, Outcome.map]
      · by_cases hptr : 192 ≤ b
        · cases hb1 : m.buffer[reader + 1]? with
          | none => simp [read_loop_mem, read_loop, Mem.load, hb, hb0, hptr, hb1, Outcome.map]
          | some b1 =>
            simp only [read_loop_mem, read_loop, Mem.load, hb, hb0, hptr, hb1, if_true, if_false]
            exact ih _ _ _ m hlen
        · by_cases hp : p < NAME_SIZE
          · simp only [read_loop_mem, read_loop, Mem.load, hb, hb0, hptr, if_false,
              store_name_eq m p b hlen, hp, if_true]
            by_cases hj : jumped = 0
            · simp only [hj, if_true, Mem.store_count]
              exact ih _ _ _ _ (by simpa using hlen)
            · simp only [hj, if_false]
              exact ih _ _ _ _ (by simpa using hlen)
          · simp [read_loop_mem, read_loop, Mem.load, hb, hb0, hptr, store_name_eq m p b hlen,
              hp, Outcome.map]

/-- The shifting loop on a memory is the shifting loop on the name array. -/
theorem shift_label_mem_eq (n : Nat) :
    ∀ (i : Nat) (m : Mem), m.name.length = NAME_SIZE →
      shift_label_mem n i m
        = (shift_label n i m.name).map (fun r => (r.1, Mem.mk m.buffer r.2 m.count m.addr)) := by
  induction n with
  | zero => intro i m _; rfl
  | succ n ih =>
    intro i m hlen
    by_cases hi : i + 1 < NAME_SIZE
    · have hi0 : i < NAME_SIZE := by omega
      have hload : m.name[i + 1]? = some (m.name.getD (i + 1) 0) := by
        rw [List.getD_eq_getElem?_getD, List.getElem?_eq_getElem (by rw [hlen]; exact hi)]
        rfl
      simp only [shift_label_mem, shift_label, Mem.load, hload, store_name_eq m i _ hlen, hi0,
        hi, if_true]
      exact ih _ _ (by simpa using hlen)
    · have hload : m.name[i + 1]? = none :=
        List.getElem?_eq_none (by rw [hlen]; omega)
      simp only [shift_label_mem, shift_label, Mem.load, hload, hi, if_false, Outcome.map]

/-- The conversion loop on a memory is the conversion loop on the name
array. -/
theorem dot_loop_mem_eq (fuel : Nat) :
    ∀ (i : Nat) (m : Mem), m.name.length = NAME_SIZE →
      dot_loop_mem fuel i m
        = (dot_loop fuel i m.name).map
            (Outcome.map (fun r => (r.1, Mem.mk m.buffer r.2 m.count m.addr))) := by
  induction fuel with
  | zero => intro i m _; rfl
  | succ fuel ih =>
    intro i m hlen
    cases hs : strlen_name m.name with
    | none => simp [dot_loop_mem, dot_loop, hs, Outcome.map]
    | some len =>
      by_cases hi : i < len
      · have hlt : len < m.name.length := by
          unfold strlen_name at hs
          by_cases h : strlen m.name < m.name.length
          · simp only [h, if_true, Option.some.injEq] at hs
            omega
          · simp [h] at hs
        have hload : m.name[i]? = some (m.name.getD i 0) := by
          rw [List.getD_eq_getElem?_getD, List.getElem?_eq_getElem (by omega)]
          rfl
        simp only [dot_loop_mem, dot_loop, hs, hi, if_true, Mem.load, hload,
          shift_label_mem_eq _ i m hlen]
        cases hsh : shift_label (m.name.getD i 0) i m.name with
        | failed f => simp [Outcome.map]
        | outOfBounds => simp [Outcome.map]
        | returned r =>
          obtain ⟨i1, name1⟩ := r
          have hl1 : name1.length = NAME_SIZE := by
            rw [(shift_label_mono _ i m.name i1 name1 hsh).2]
            exact hlen
          simp only [Outcome.map]
          rw [store_name_eq _ i1 dot hl1]
          by_cases hi1 : i1 < NAME_SIZE
          · simp only [hi1, if_true]
            exact ih _ _ (by simpa using hl1)
          · simp [hi1, Outcome.map]
      · simp [dot_loop_mem, dot_loop, hs, hi, Outcome.map]

/-- The conversion loop ends with `i` at most 256 and leaves the length of the
array as it was. -/
theorem dot_loop_bounds (fuel : Nat) :
    ∀ (i : Nat) (name : List Nat) (i2 : Nat) (name2 : List Nat),
      dot_loop fuel i name = some (Outcome.returned (i2, name2)) → i ≤ NAME_SIZE →
      i2 ≤ NAME_SIZE ∧ name2.length = name.length := by
  induction fuel with
  | zero => intro i name i2 name2 h _; simp [dot_loop] at h
  | succ fuel ih =>
    intro i name i2 name2 h hi
    unfold dot_loop at h
    cases hs : strlen_name name with
    | none => simp [hs] at h
    | some len =>
      simp only [hs] at h
      by_cases hlt : i < len
      · simp only [hlt, if_true] at h
        cases hsh : shift_label (name.getD i 0) i name with
        | failed f => simp only [hsh] at h; cases h
        | outOfBounds => simp only [hsh] at h; cases h
        | returned r =>
          obtain ⟨i1, name1⟩ := r
          simp only [hsh] at h
          by_cases hi1 : i1 < NAME_SIZE
          · simp only [hi1, if_true] at h
            obtain ⟨hb, hl⟩ := ih _ _ _ _ h (by omega)
            refine ⟨hb, ?_⟩
            rw [hl, List.length_set, (shift_label_mono _ i name i1 name1 hsh).2]
          · simp [hi1] at h
      · simp only [hlt, if_false, Option.some.injEq, Outcome.returned.injEq,
          Prod.mk.injEq] at h
        obtain ⟨rfl, rfl⟩ := h
        exact ⟨hi, rfl⟩

/-- The run of `read_name` on a memory: what it returns is what `read_name`
gives on the buffer and the allocated block, and the run leaves the buffer and
the address field as they were. -/
theorem read_name_mem_eq (fuel : Nat) (m : Mem) (reader : Nat)
    (hlen : m.name.length = NAME_SIZE) :
    (read_name_mem fuel m reader).map (Outcome.map Prod.fst)
        = read_name fuel m.name m.buffer reader
      ∧ ∀ r m1, read_name_mem fuel m reader = some (Outcome.returned (r, m1)) →
          m1.buffer = m.buffer ∧ m1.addr = m.addr := by
  have h0 : (0 : Nat) < NAME_SIZE := by decide
  have hstore : (m.store_count 1).store Obj.name 0 0
      = some ⟨m.buffer, m.name.set 0 0, 1, m.addr⟩ := by
    rw [store_name_eq _ 0 0 (by simpa [Mem.store_count] using hlen)]
    simp [h0, Mem.store_count]
  have hloop := read_loop_mem_eq fuel reader 0 0 ⟨m.buffer, m.name.set 0 0, 1, m.addr⟩
    (by simpa using hlen)
  simp only at hloop
  cases hl : read_loop m.buffer fuel reader 0 0 1 (m.name.set 0 0) with
  | none =>
    rw [hl] at hloop
    simp only [read_name_mem, hstore, hloop, read_name, hl, Option.map]
    exact ⟨trivial, fun r m1 h => by cases h⟩
  | some o =>
    rw [hl] at hloop
    cases o with
    | failed f =>
      simp only [read_name_mem, hstore, hloop, read_name, hl, Option.map, Outcome.map]
      exact ⟨trivial, fun r m1 h => by cases h⟩
    | outOfBounds =>
      simp only [read_name_mem, hstore, hloop, read_name, hl, Option.map, Outcome.map]
      exact ⟨trivial, fun r m1 h => by cases h⟩
    | returned st =>
      have hstl : st.name.length = NAME_SIZE := by
        rw [read_loop_name_length m.buffer fuel _ _ _ _ _ st hl]
        simpa using hlen
      simp only [Option.map, Outcome.map] at hloop
      by_cases hp : st.p < NAME_SIZE
      · have hst3 : (Mem.mk m.buffer st.name st.count m.addr).store Obj.name st.p 0
            = some ⟨m.buffer, st.name.set st.p 0, st.count, m.addr⟩ := by
          rw [store_name_eq _ _ _ hstl]
          simp [hp]
        have hdl := dot_loop_mem_eq 257 0
          ⟨m.buffer, st.name.set st.p 0, if st.jumped = 1 then st.count + 1 else st.count,
            m.addr⟩ (by simpa using hstl)
        simp only at hdl
        have hm4 : (if st.jumped = 1 then
              (Mem.mk m.buffer (st.name.set st.p 0) st.count m.addr).store_count (st.count + 1)
            else Mem.mk m.buffer (st.name.set st.p 0) st.count m.addr)
            = ⟨m.buffer, st.name.set st.p 0, if st.jumped = 1 then st.count + 1 else st.count,
                m.addr⟩ := by
          by_cases hj : st.jumped = 1
          · simp [hj, Mem.store_count]
          · simp [hj]
        cases hd : dot_loop 257 0 (st.name.set st.p 0) with
        | none =>
          rw [hd] at hdl
          simp only [read_name_mem, hstore, hloop, hst3, hm4, hdl, read_name, hl, hp, if_true,
            hd, Option.map]
          exact ⟨trivial, fun r m1 h => by cases h⟩
        | some o2 =>
          rw [hd] at hdl
          cases o2 with
          | failed f =>
            simp only [read_name_mem, hstore, hloop, hst3, hm4, hdl, read_name, hl, hp, if_true,
              hd, Option.map, Outcome.map]
            exact ⟨trivial, fun r m1 h => by cases h⟩
          | outOfBounds =>
            simp only [read_name_mem, hstore, hloop, hst3, hm4, hdl, read_name, hl, hp, if_true,
              hd, Option.map, Outcome.map]
            exact ⟨trivial, fun r m1 h => by cases h⟩
          | returned r2 =>
            obtain ⟨i, name2⟩ := r2
            obtain ⟨hi256, hl2⟩ := dot_loop_bounds 257 0 _ i name2 hd (by decide)
            have hl2b : name2.length = NAME_SIZE := by rw [hl2]; simpa using hstl
            simp only [Option.map, Outcome.map] at hdl
            by_cases hi0 : i = 0
            · simp only [read_name_mem, hstore, hloop, hst3, hm4, hdl, read_name, hl, hp,
                if_true, hd, hi0, Option.map, Outcome.map]
              exact ⟨trivial, fun r m1 h => by cases h⟩
            · have hst6 : (Mem.mk m.buffer name2
                    (if st.jumped = 1 then st.count + 1 else st.count) m.addr).store
                    Obj.name (i - 1) 0
                  = some ⟨m.buffer, name2.set (i - 1) 0,
                      if st.jumped = 1 then st.count + 1 else st.count, m.addr⟩ := by
                rw [store_name_eq _ _ _ hl2b]
                have : i - 1 < NAME_SIZE := by omega
                simp [this]
              simp only [read_name_mem, hstore, hloop, hst3, hm4, hdl, read_name, hl, hp,
                if_true, hd, hi0, if_false, hst6, Option.map, Outcome.map]
              refine ⟨trivial, fun r m1 h => ?_⟩
              simp only [Option.some.injEq, Outcome.returned.injEq, Prod.mk.injEq] at h
              obtain ⟨_, rfl⟩ := h
              exact ⟨rfl, rfl⟩
      · have hst3 : (Mem.mk m.buffer st.name st.count m.addr).store Obj.name st.p 0 = none := by
          rw [store_name_eq _ _ _ hstl]
          simp [hp]
        simp only [read_name_mem, hstore, hloop, hst3, read_name, hl, hp, if_false, Option.map,
          Outcome.map]
        exact ⟨trivial, fun r m1 h => by cases h⟩

theorem getElem?_of_lt (l : List Nat) (i : Nat) (h : i < l.length) :
    l[i]? = some (l.getD i 0) := by
  rw [List.getD_eq_getElem?_getD, List.getElem?_eq_getElem h]
  rfl

theorem memcpy_addr_step (n k r : Nat) (buffer name : List Nat) (count : Nat)
    (addr : List Nat) (hr : r < buffer.length) (hk : k < addr.length) :
    memcpy_addr (n + 1) k r ⟨buffer, name, count, addr⟩
      = memcpy_addr n (k + 1) (r + 1) ⟨buffer, name, count, addr.set k (buffer.getD r 0)⟩ := by
  simp only [memcpy_addr, Mem.load, getElem?_of_lt buffer r hr, Mem.store, hk, if_true]

theorem memcpy_addr_none (n k r : Nat) (m : Mem) (hl : m.buffer.length ≤ r) :
    memcpy_addr (n + 1) k r m = none := by
  simp only [memcpy_addr, Mem.load, List.getElem?_eq_none hl]

/-- The `memcpy` of the answer loop: the four bytes at the read pointer become
the content of the address field, and nothing else changes; it reads outside
the buffer when fewer than four bytes are left. -/
theorem memcpy_addr_eq (m : Mem) (r : Nat) (ha : m.addr.length = 4) :
    memcpy_addr 4 0 r m
      = if r + 4 ≤ m.buffer.length then
          some ⟨m.buffer, m.name, m.count,
            [m.buffer.getD r 0, m.buffer.getD (r + 1) 0, m.buffer.getD (r + 2) 0,
              m.buffer.getD (r + 3) 0]⟩
        else none := by
  obtain ⟨buffer, name, count, addr⟩ := m
  simp only at ha ⊢
  obtain ⟨x0, x1, x2, x3, rfl⟩ : ∃ x0 x1 x2 x3, addr = [x0, x1, x2, x3] := by
    match addr, ha with
    | [x0, x1, x2, x3], _ => exact ⟨x0, x1, x2, x3, rfl⟩
  show memcpy_addr (3 + 1) 0 r _ = _
  by_cases h0 : r < buffer.length
  · rw [memcpy_addr_step 3 0 r buffer name count _ h0 (by simp)]
    by_cases h1 : r + 1 < buffer.length
    · rw [memcpy_addr_step 2 1 (r + 1) buffer name count _ h1 (by simp)]
      by_cases h2 : r + 1 + 1 < buffer.length
      · rw [memcpy_addr_step 1 2 (r + 1 + 1) buffer name count _ h2 (by simp)]
        by_cases h3 : r + 1 + 1 + 1 < buffer.length
        · rw [memcpy_addr_step 0 3 (r + 1 + 1 + 1) buffer name count _ h3 (by simp)]
          have h : r + 4 ≤ buffer.length := by omega
          rw [if_pos h]
          rfl
        · rw [memcpy_addr_none 0 3 (r + 1 + 1 + 1) _ (by simp only; omega)]
          rw [if_neg (by omega)]
      · rw [memcpy_addr_none 1 2 (r + 1 + 1) _ (by simp only; omega)]
        rw [if_neg (by omega)]
    · rw [memcpy_addr_none 2 1 (r + 1) _ (by simp only; omega)]
      rw [if_neg (by omega)]
  · rw [memcpy_addr_none 3 0 r _ (by simp only; omega)]
    rw [if_neg (by omega)]

/-- One iteration of the answer loop on a memory. -/
theorem answer_loop_mem_step (fuel i reader : Nat) (m : Mem) (out : List String)
    (ha : m.addr.length = 4) (hb : 8 ≤ m.buffer.length) :
    answer_loop_mem (fuel + 1) i reader m out
      = if i < ntohs (m.buffer.getD 6 0) (m.buffer.getD 7 0) then
          if reader + 2 + 10 + 4 ≤ m.buffer.length then
            answer_loop_mem fuel (i + 1) (reader + 2 + 10 + 4)
              ⟨m.buffer, m.name, m.count,
                [m.buffer.getD (reader + 2 + 10) 0, m.buffer.getD (reader + 2 + 10 + 1) 0,
                  m.buffer.getD (reader + 2 + 10 + 2) 0, m.buffer.getD (reader + 2 + 10 + 3) 0]⟩
              (out ++ [inet_ntoa (m.buffer.getD (reader + 2 + 10) 0)
                (m.buffer.getD (reader + 2 + 10 + 1) 0) (m.buffer.getD (reader + 2 + 10 + 2) 0)
                (m.buffer.getD (reader + 2 + 10 + 3) 0)])
          else some Outcome.outOfBounds
        else some (Outcome.returned (out, m)) := by
  simp only [answer_loop_mem, Mem.load, getElem?_of_lt m.buffer 6 (by omega),
    getElem?_of_lt m.buffer 7 (by omega), memcpy_addr_eq m _ ha]
  by_cases hi : i < ntohs (m.buffer.getD 6 0) (m.buffer.getD 7 0)
  · rw [if_pos hi, if_pos hi]
    by_cases hr : reader + 2 + 10 + 4 ≤ m.buffer.length
    · rw [if_pos hr, if_pos hr]
      rfl
    · rw [if_neg hr, if_neg hr]
  · rw [if_neg hi, if_neg hi]

/-- The answer loop on a memory, given fuel for every iteration, is the answer
loop on the buffer: it prints the same addresses, and it leaves the buffer, the
name block and the count as they were. -/
theorem answer_loop_mem_eq (fuel : Nat) :
    ∀ (i reader : Nat) (m : Mem) (out : List String), m.addr.length = 4 →
      8 ≤ m.buffer.length → ntohs (m.buffer.getD 6 0) (m.buffer.getD 7 0) - i < fuel →
      ∃ addr1, addr1.length = 4
        ∧ answer_loop_mem fuel i reader m out
          = some ((answer_loop m.buffer (ntohs (m.buffer.getD 6 0) (m.buffer.getD 7 0) - i)
              reader out).map (fun l => (l, Mem.mk m.buffer m.name m.count addr1))) := by
  induction fuel with
  | zero => intro i reader m out _ _ h; omega
  | succ fuel ih =>
    intro i reader m out ha hb hf
    rw [answer_loop_mem_step fuel i reader m out ha hb]
    by_cases hi : i < ntohs (m.buffer.getD 6 0) (m.buffer.getD 7 0)
    · obtain ⟨d, hd⟩ : ∃ d, ntohs (m.buffer.getD 6 0) (m.buffer.getD 7 0) - i = d + 1 :=
        ⟨ntohs (m.buffer.getD 6 0) (m.buffer.getD 7 0) - i - 1, by omega⟩
      have hd1 : ntohs (m.buffer.getD 6 0) (m.buffer.getD 7 0) - (i + 1) = d := by omega
      rw [if_pos hi, hd]
      by_cases hr : reader + 2 + 10 + 4 ≤ m.buffer.length
      · rw [if_pos hr]
        obtain ⟨addr1, hl1, he⟩ := ih (i + 1) (reader + 2 + 10 + 4)
          ⟨m.buffer, m.name, m.count,
            [m.buffer.getD (reader + 2 + 10) 0, m.buffer.getD (reader + 2 + 10 + 1) 0,
              m.buffer.getD (reader + 2 + 10 + 2) 0, m.buffer.getD (reader + 2 + 10 + 3) 0]⟩
          (out ++ [inet_ntoa (m.buffer.getD (reader + 2 + 10) 0)
            (m.buffer.getD (reader + 2 + 10 + 1) 0) (m.buffer.getD (reader + 2 + 10 + 2) 0)
            (m.buffer.getD (reader + 2 + 10 + 3) 0)]) rfl hb (by simp only; omega)
        simp only [hd1] at he
        refine ⟨addr1, hl1, ?_⟩
        rw [he]
        simp only [answer_loop, hr, if_true]
      · rw [if_neg hr]
        refine ⟨m.addr, ha, ?_⟩
        simp only [answer_loop, hr, if_false, Outcome.map]
    · rw [if_neg hi]
      have hd : ntohs (m.buffer.getD 6 0) (m.buffer.getD 7 0) - i = 0 := by omega
      refine ⟨m.addr, ha, ?_⟩
      rw [hd]
      simp only [answer_loop, Outcome.map]

/-- A run of the answer loop on a memory that returns had fuel for every
iteration. -/
theorem answer_loop_mem_fuel (fuel : Nat) :
    ∀ (i reader : Nat) (m : Mem) (out : List String) (x : List String × Mem),
      m.addr.length = 4 → 8 ≤ m.buffer.length →
      answer_loop_mem fuel i reader m out = some (Outcome.returned x) →
      ntohs (m.buffer.getD 6 0) (m.buffer.getD 7 0) - i < fuel := by
  induction fuel with
  | zero => intro i reader m out x _ _ h; simp [answer_loop_mem] at h
  | succ fuel ih =>
    intro i reader m out x ha hb h
    rw [answer_loop_mem_step fuel i reader m out ha hb] at h
    by_cases hi : i < ntohs (m.buffer.getD 6 0) (m.buffer.getD 7 0)
    · rw [if_pos hi] at h
      by_cases hr : reader + 2 + 10 + 4 ≤ m.buffer.length
      · rw [if_pos hr] at h
        have := ih (i + 1) (reader + 2 + 10 + 4)
          ⟨m.buffer, m.name, m.count,
            [m.buffer.getD (reader + 2 + 10) 0, m.buffer.getD (reader + 2 + 10 + 1) 0,
              m.buffer.getD (reader + 2 + 10 + 2) 0, m.buffer.getD (reader + 2 + 10 + 3) 0]⟩
          _ x rfl hb h
        simp only at this
        omega
      · rw [if_neg hr] at h
        cases h
    · omega

theorem strlen_at_lt (buf : List Nat) (off n : Nat) (h : strlen_at buf off = some n) :
    off < buf.length := by
  unfold strlen_at at h
  by_cases hc : off + strlen (buf.drop off) < buf.length
  · omega
  · simp [hc] at h

/-- The answer-reading part of `main` on a memory, given fuel for every
iteration, is `read_answers` on the buffer; it leaves the buffer, the name
block and the count as they were. -/
theorem read_answers_mem_eq (fuel : Nat) (m : Mem) (ha : m.addr.length = 4)
    (hf : ntohs (m.buffer.getD 6 0) (m.buffer.getD 7 0) < fuel) :
    ∃ addr1, addr1.length = 4
      ∧ read_answers_mem fuel m
        = some ((read_answers m.buffer).map
            (fun l => (l, Mem.mk m.buffer m.name m.count addr1))) := by
  cases hs : strlen_at m.buffer DNS_HEADER_SIZE with
  | none =>
    refine ⟨m.addr, ha, ?_⟩
    simp only [read_answers_mem, read_answers, hs, Outcome.map]
  | some n =>
    have hb : 8 ≤ m.buffer.length := by
      have := strlen_at_lt _ _ _ hs
      unfold DNS_HEADER_SIZE at this
      omega
    obtain ⟨addr1, hl1, he⟩ := answer_loop_mem_eq fuel 0
      (DNS_HEADER_SIZE + (n + 1) + DNS_QUESTION_SIZE) m [] ha hb (by omega)
    refine ⟨addr1, hl1, ?_⟩
    simp only [read_answers_mem, read_answers, hs, he, Nat.sub_zero]

/-- A run of the answer-reading part of `main` on a memory that returns had
fuel for every iteration. -/
theorem read_answers_mem_fuel (fuel : Nat) (m : Mem) (x : List String × Mem)
    (ha : m.addr.length = 4) (h : read_answers_mem fuel m = some (Outcome.returned x)) :
    ntohs (m.buffer.getD 6 0) (m.buffer.getD 7 0) < fuel := by
  unfold read_answers_mem at h
  cases hs : strlen_at m.buffer DNS_HEADER_SIZE with
  | none => simp [hs] at h
  | some n =>
    simp only [hs] at h
    have hb : 8 ≤ m.buffer.length := by
      have := strlen_at_lt _ _ _ hs
      unfold DNS_HEADER_SIZE at this
      omega
    have := answer_loop_mem_fuel fuel 0 _ m [] x ha hb h
    omega

/-- The answer loop on a header `hdr`, a question and address records, the
count the loop takes from the header being the number of records. -/
theorem read_answers_records (hdr qname q4 : List Nat) (rs : List ARecord) (rest : List Nat)
    (hhdr : hdr.length = DNS_HEADER_SIZE)
    (hcount : ntohs (hdr.getD 6 0) (hdr.getD 7 0) = rs.length)
    (hq : ∀ b ∈ qname, b ≠ 0) (hq4 : q4.length = DNS_QUESTION_SIZE) :
    read_answers (hdr ++ qname ++ [0] ++ q4 ++ answer_section rs ++ rest)
      = Outcome.returned (rs.map ARecord.address)
    ∧ (rs.map ARecord.address).length = ntohs (hdr.getD 6 0) (hdr.getD 7 0) := by
  refine ⟨?_, by rw [List.length_map, hcount]⟩
  unfold DNS_HEADER_SIZE at hhdr
  unfold DNS_QUESTION_SIZE at hq4
  have e : hdr ++ qname ++ [0] ++ q4 ++ answer_section rs ++ rest
      = hdr ++ (qname ++ 0 :: (q4 ++ answer_section rs ++ rest)) := by simp
  have hdrop : (hdr ++ qname ++ [0] ++ q4 ++ answer_section rs ++ rest).drop 12
      = qname ++ 0 :: (q4 ++ answer_section rs ++ rest) := by
    rw [e, ← hhdr]; simp
  have hstr : strlen_at (hdr ++ qname ++ [0] ++ q4 ++ answer_section rs ++ rest) DNS_HEADER_SIZE
      = some qname.length := by
    unfold strlen_at DNS_HEADER_SIZE
    rw [hdrop]
    have hc : strlen (qname ++ 0 :: (q4 ++ answer_section rs ++ rest)) = qname.length := by
      unfold strlen; rw [cstr_append_zero _ _ hq]
    rw [hc]
    simp [hhdr]
  have h6 : (hdr ++ qname ++ [0] ++ q4 ++ answer_section rs ++ rest).getD 6 0 = hdr.getD 6 0 := by
    rw [e]; exact List.getD_append _ _ _ _ (by omega)
  have h7 : (hdr ++ qname ++ [0] ++ q4 ++ answer_section rs ++ rest).getD 7 0 = hdr.getD 7 0 := by
    rw [e]; exact List.getD_append _ _ _ _ (by omega)
  have hloop := answer_loop_eq rs (hdr ++ qname ++ [0] ++ q4) rest []
  have hl : (hdr ++ qname ++ [0] ++ q4).length
      = DNS_HEADER_SIZE + (qname.length + 1) + DNS_QUESTION_SIZE := by
    simp [hhdr, hq4, DNS_HEADER_SIZE, DNS_QUESTION_SIZE]; omega
  rw [hl] at hloop
  simp only [read_answers, hstr, h6, h7, hcount, hloop, List.nil_append]

theorem returned_of_map_fst {α β : Type} (x : Option (Outcome (α × β))) (r : α)
    (h : x.map (Outcome.map Prod.fst) = some (Outcome.returned r)) :
    ∃ m1, x = some (Outcome.returned (r, m1)) := by
  cases x with
  | none => simp at h
  | some o =>
    cases o with
    | failed f => simp [Outcome.map] at h
    | outOfBounds => simp [Outcome.map] at h
    | returned v =>
      obtain ⟨a, b⟩ := v
      simp only [Option.map, Outcome.map, Option.some.injEq, Outcome.returned.injEq] at h
      subst h
      exact ⟨b, rfl⟩

/-- On a response whose answer count field, most significant byte first,
holds the number of address records that follow the question, the answer
loop yields the addresses of the records; the count read through `ntohs` is
that number. -/
theorem read_answers_counted (h6 h4 qname q4 : List Nat) (rs : List ARecord) (rest : List Nat)
    (hh6 : h6.length = 6) (hh4 : h4.length = 4)
    (hq : ∀ b ∈ qname, b ≠ 0) (hq4 : q4.length = 4) :
    read_answers (h6 ++ [rs.length / 256, rs.length % 256] ++ h4 ++ qname ++ [0] ++ q4
        ++ answer_section rs ++ rest)
      = Outcome.returned (rs.map ARecord.address)
    ∧ ntohs ((h6 ++ [rs.length / 256, rs.length % 256] ++ h4 ++ qname ++ [0] ++ q4
          ++ answer_section rs ++ rest).getD 6 0)
        ((h6 ++ [rs.length / 256, rs.length % 256] ++ h4 ++ qname ++ [0] ++ q4
          ++ answer_section rs ++ rest).getD 7 0) = rs.length := by
  have hg6 : ∀ tl : List Nat,
      (h6 ++ ([rs.length / 256, rs.length % 256] ++ tl)).getD 6 0 = rs.length / 256 := by
    intro tl
    have := getD_append_add h6 ([rs.length / 256, rs.length % 256] ++ tl) 0 0
    rw [hh6] at this
    simpa using this
  have hg7 : ∀ tl : List Nat,
      (h6 ++ ([rs.length / 256, rs.length % 256] ++ tl)).getD 7 0 = rs.length % 256 := by
    intro tl
    have := getD_append_add h6 ([rs.length / 256, rs.length % 256] ++ tl) 1 0
    rw [hh6] at this
    simpa using this
  constructor
  · exact (read_answers_records (h6 ++ [rs.length / 256, rs.length % 256] ++ h4) qname q4 rs
      rest (by simp [hh6, hh4, DNS_HEADER_SIZE])
      (by
        rw [List.append_assoc, hg6, hg7]
        unfold ntohs
        exact Nat.div_add_mod' _ _)
      hq hq4).1
  · simp only [List.append_assoc]
    rw [hg6, hg7]
    unfold ntohs
    exact Nat.div_add_mod' _ _

/-! ## Claims -/

/-- C1 (round trip). For every name made of one or more labels, each of 1 to 63
bytes in 1..191 other than the dot, whose encoding (name length plus 2) is at
most 255 bytes: `hostname_to_dns_format` returns an encoding of exactly the
name's length plus 2 bytes, and `read_name` at offset 0 of a buffer holding
exactly that encoding returns the dotted name, without trailing dot, and a
count equal to the encoded byte count. This holds for every initial content of
the allocated name array and every fuel of at least 256 loop iterations. -/
theorem C1_round_trip (ls : List (List Nat)) (hv : ValidName ls)
    (hlen : (dotted ls).length + 2 ≤ 255) (heap : List Nat) (hheap : heap.length = NAME_SIZE)
    (fuel : Nat) (hfuel : 256 ≤ fuel) :
    ∃ enc, hostname_to_dns_format (dotted ls) = Outcome.returned enc
      ∧ enc.dns.length = (dotted ls).length + 2
      ∧ read_name fuel heap enc.dns 0 = some (Outcome.returned (dotted ls, enc.dns.length)) := by
  obtain ⟨hne, hlab⟩ := hv
  have hnz := validLabel_nonzero ls hlab
  have hdot : ∀ l ∈ ls, ∀ b ∈ l, b ≠ dot := fun l hl b hb => ((hlab l hl).2.2 b hb).2.2
  have hcs : cstr (dotted ls) = dotted ls :=
    cstr_of_nonzero _ (dotted_nonzero ls (fun l hl => (hnz l hl).2))
  have hwl := wire_labels_length ls hne
  have henc : hostname_to_dns_format (dotted ls)
      = Outcome.returned ⟨wire_labels ls ++ [0], dotted ls ++ [dot]⟩ := by
    rw [hostname_to_dns_format_eq, hcs, segments_dotted ls hne hdot,
      wire_labels_mod_eq ls (fun l hl => by have := (hlab l hl).2.1; omega)]
  refine ⟨_, henc, by simp [hwl], ?_⟩
  obtain ⟨k, rfl⟩ : ∃ k, fuel = k + 1 + (wire_labels ls).length :=
    ⟨fuel - 1 - (wire_labels ls).length, by omega⟩
  have hfl : (heap.set 0 0).length = 256 := by simpa [NAME_SIZE] using hheap
  have hloop := read_loop_labels (wire_labels ls ++ [0]) ls [] [] k 0 1 [] (heap.set 0 0)
    (by simp) hlab (by simp; omega) (by omega)
  simp only [List.length_nil, Nat.zero_add, List.nil_append, if_true] at hloop
  have hdrop : ((heap.set 0 0).drop (wire_labels ls).length).length
      = 256 - (wire_labels ls).length := by simp [hfl]
  have h := read_name_of_loop (k + 1 + (wire_labels ls).length) heap (wire_labels ls ++ [0]) 0 ls
    0 (1 + (wire_labels ls).length) ((heap.set 0 0).drop (wire_labels ls).length) hne hnz
    (by rw [List.length_append, hdrop]; omega)
    (by intro hnil; rw [hnil] at hdrop; simp at hdrop; omega) hloop
  simp only [Nat.zero_ne_one, if_false] at h
  rw [h]
  simp [Nat.add_comm]

/-- C1 at the name "example.com": the encoding has 13 bytes and decodes to
the same name with count 13. -/
theorem C1_round_trip_witness :
    ∃ enc, hostname_to_dns_format (dotted [[101, 120, 97, 109, 112, 108, 101], [99, 111, 109]])
        = Outcome.returned enc
      ∧ enc.dns.length = 13
      ∧ read_name 256 (List.replicate 256 0) enc.dns 0
        = some (Outcome.returned ([101, 120, 97, 109, 112, 108, 101, 46, 99, 111, 109], 13)) := by
  obtain ⟨enc, h1, h2, h3⟩ := C1_round_trip [[101, 120, 97, 109, 112, 108, 101], [99, 111, 109]]
    (by decide) (by decide) (List.replicate 256 0) (List.length_replicate 256 0) 256 (by decide)
  refine ⟨enc, h1, h2, ?_⟩
  rw [h3, h2]
  rfl

/-- C2 (compressed name and consumed count). Let a valid name `N` be stored
fully encoded and zero-terminated at offset `t < 16384`, and let offset `m`
hold zero or more valid labels `ls`, `k` bytes in wire form, followed by the
pointer pair `(0xC0 | (t >> 8), t & 0xFF)`, the combined name having at most
255 bytes of length octets and label bytes. Then `read_name` at `m` returns the
labels at `m` joined by dots with `N` and the count `k + 2`, however many bytes
are read after the jump. -/
theorem C2_compressed_name (buffer : List Nat) (N ls : List (List Nat)) (t m : Nat)
    (hN : ValidName N) (hls : ∀ l ∈ ls, ValidLabel l) (ht : t < 16384)
    (hNt : holds_at buffer t (wire_labels N ++ [0]))
    (hm : holds_at buffer m (wire_labels ls ++ pointer_pair t))
    (hlen : (wire_labels ls).length + (wire_labels N).length ≤ 255)
    (heap : List Nat) (hheap : heap.length = NAME_SIZE) (fuel : Nat) (hfuel : 257 ≤ fuel) :
    read_name fuel heap buffer m
      = some (Outcome.returned (dotted (ls ++ N), (wire_labels ls).length + 2)) := by
  obtain ⟨k, rfl⟩ : ∃ k, fuel = k + 1 + (wire_labels N).length + 1 + (wire_labels ls).length :=
    ⟨fuel - 1 - (wire_labels N).length - 1 - (wire_labels ls).length, by omega⟩
  have hfl : (heap.set 0 0).length = 256 := by simpa [NAME_SIZE] using hheap
  have hp := read_loop_labels_pointer buffer ls t m (k + 1 + (wire_labels N).length) 0 1 []
    (heap.set 0 0) ht hm hls (by simp; omega) (by omega)
  simp only [List.length_nil, Nat.zero_add, List.nil_append, if_true] at hp
  have h := read_name_finish _ k heap buffer m t ls N 1 (1 + (wire_labels ls).length) hheap hls hN
    (by omega) hNt hp
  rw [h]
  simp [Nat.add_comm, Nat.add_left_comm]

/-- C2 at a bare pointer: "www.example.com" fully encoded at offset 12 and the
pair (0xC0, 0x0C) at offset 40 decode at offset 40 to "www.example.com" with
count exactly 2. -/
theorem C2_compressed_name_witness :
    read_name 257 (List.replicate 256 0)
        (List.replicate 12 0
          ++ [3, 119, 119, 119, 7, 101, 120, 97, 109, 112, 108, 101, 3, 99, 111, 109, 0]
          ++ List.replicate 11 0 ++ [0xC0, 0x0C]) 40
      = some (Outcome.returned
          ([119, 119, 119, 46, 101, 120, 97, 109, 112, 108, 101, 46, 99, 111, 109], 2)) :=
  C2_compressed_name _ [[119, 119, 119], [101, 120, 97, 109, 112, 108, 101], [99, 111, 109]] []
    12 40 (by decide) (by decide) (by decide) (by decide) (by decide) (by decide)
    (List.replicate 256 0) (List.length_replicate 256 0) 257 (by decide)

/-- C3 (encoder output format). For every host string without NUL bytes whose
dot-separated segments are each 1 to 63 bytes long (so that it does not end
with a dot), `hostname_to_dns_format` writes, for each segment in order, a
length octet equal to the segment's byte length and then the segment's bytes,
followed by a single zero octet: `len(host) + 2` bytes in all. -/
theorem C3_encoder_output_format (host : List Nat) (hnul : ∀ b ∈ host, b ≠ 0)
    (hseg : ∀ s ∈ segments host, ValidSegment s) :
    (∃ enc, hostname_to_dns_format host = Outcome.returned enc
      ∧ enc.dns = wire_labels (segments host) ++ [0])
    ∧ (wire_labels (segments host) ++ [0]).length = host.length + 2 := by
  have hw := wire_labels_mod_eq (segments host) (fun s hs => by have := (hseg s hs).2; omega)
  refine ⟨⟨_, hostname_to_dns_format_eq host, ?_⟩, ?_⟩
  · simp only [cstr_of_nonzero host hnul, hw]
  · have := wire_labels_mod_length host []
    rw [← hw]
    simp only [segments, List.length_append, List.length_singleton, this, List.length_nil]

/-- C3 at the host "example.com": the output is 7 "example" 3 "com" 0. -/
theorem C3_encoder_output_format_witness :
    (∃ enc, hostname_to_dns_format [101, 120, 97, 109, 112, 108, 101, 46, 99, 111, 109]
        = Outcome.returned enc
      ∧ enc.dns = [7, 101, 120, 97, 109, 112, 108, 101, 3, 99, 111, 109, 0])
    ∧ ([7, 101, 120, 97, 109, 112, 108, 101, 3, 99, 111, 109, 0] : List Nat).length = 11 + 2 :=
  C3_encoder_output_format [101, 120, 97, 109, 112, 108, 101, 46, 99, 111, 109]
    (by decide) (by decide)

/-- C4 (answer extraction). For every response buffer made of a 12-byte header
whose answer count field (bytes 6 and 7, most significant byte first:
`n / 256` and `n % 256`) holds `n`, a zero-terminated question name, the 4
bytes of question type and class and then `n` address records, each with a
2-byte name and 4 bytes of address data (anything may follow), the answer loop
of `main` yields exactly `n` addresses, the i-th being the data bytes of the
i-th record as a dotted quad, in wire order, duplicates kept. -/
theorem C4_answer_extraction (h6 h4 qname q4 : List Nat) (rs : List ARecord) (rest : List Nat)
    (hh6 : h6.length = 6) (hh4 : h4.length = 4)
    (hq : ∀ b ∈ qname, b ≠ 0) (hq4 : q4.length = 4) :
    read_answers (h6 ++ [rs.length / 256, rs.length % 256] ++ h4 ++ qname ++ [0] ++ q4
        ++ answer_section rs ++ rest)
      = Outcome.returned (rs.map ARecord.address)
    ∧ (rs.map ARecord.address).length = rs.length := by
  exact ⟨(read_answers_counted h6 h4 qname q4 rs rest hh6 hh4 hq hq4).1, List.length_map _ _⟩

/-- C4 on a response with answer count 2 and two address records carrying
93.184.216.34 and 93.184.216.35: the loop yields exactly these two, in order;
and on a response with answer count 300 (count bytes 1 and 44) and 300 records
carrying 93.184.216.34: the loop yields all 300. -/
theorem C4_answer_extraction_witness :
    read_answers ([0x12, 0x34, 0x81, 0x80, 0, 1] ++ [0, 2] ++ [0, 0, 0, 0]
        ++ [7, 101, 120, 97, 109, 112, 108, 101, 3, 99, 111, 109] ++ [0] ++ [0, 1, 0, 1]
        ++ answer_section
            [⟨0xC0, 0x0C, 0, 1, 0, 0, 1, 44, 93, 184, 216, 34⟩,
             ⟨0xC0, 0x0C, 0, 1, 0, 0, 1, 44, 93, 184, 216, 35⟩]
        ++ [])
      = Outcome.returned ["93.184.216.34", "93.184.216.35"]
    ∧ read_answers ([0x12, 0x34, 0x81, 0x80, 0, 1] ++ [1, 44] ++ [0, 0, 0, 0]
        ++ [7, 101, 120, 97, 109, 112, 108, 101, 3, 99, 111, 109] ++ [0] ++ [0, 1, 0, 1]
        ++ answer_section
            (List.replicate 300 ⟨0xC0, 0x0C, 0, 1, 0, 0, 1, 44, 93, 184, 216, 34⟩)
        ++ [])
      = Outcome.returned (List.replicate 300 "93.184.216.34") := by
  constructor
  · exact (C4_answer_extraction [0x12, 0x34, 0x81, 0x80, 0, 1] [0, 0, 0, 0]
      [7, 101, 120, 97, 109, 112, 108, 101, 3, 99, 111, 109] [0, 1, 0, 1]
      [⟨0xC0, 0x0C, 0, 1, 0, 0, 1, 44, 93, 184, 216, 34⟩,
       ⟨0xC0, 0x0C, 0, 1, 0, 0, 1, 44, 93, 184, 216, 35⟩] []
      (by decide) (by decide) (by decide) (by decide)).1
  · have h := (C4_answer_extraction [0x12, 0x34, 0x81, 0x80, 0, 1] [0, 0, 0, 0]
      [7, 101, 120, 97, 109, 112, 108, 101, 3, 99, 111, 109] [0, 1, 0, 1]
      (List.replicate 300 ⟨0xC0, 0x0C, 0, 1, 0, 0, 1, 44, 93, 184, 216, 34⟩) []
      (by decide) (by decide) (by decide) (by decide)).1
    rw [List.length_replicate, List.map_replicate] at h
    exact h

set_option maxRecDepth 8192 in
/-- C5, as stated, fails. The pair (0xC0, 0x02) at offset 0 points forward, to
offset 2 inside the buffer: `read_name` follows it and returns "a" with count 2
instead of reporting `MalformedMessage`. The pair (0xC0, 0x09) in a 2-byte
buffer points past the end: `read_name` reads outside the buffer. -/
theorem C5_pointer_bounds_counterexample :
    read_name 8 (List.replicate 256 0) [0xC0, 0x02, 1, 97, 0] 0
        = some (Outcome.returned ([97], 2))
      ∧ read_name 8 (List.replicate 256 0) [0xC0, 0x02, 1, 97, 0] 0
        ≠ some (Outcome.failed Failure.MalformedMessage)
      ∧ read_name 8 (List.replicate 256 0) [0xC0, 0x09] 0 = some Outcome.outOfBounds := by
  refine ⟨by rfl, ?_, by rfl⟩
  exact read_name_ne_failed _ _ _ _ _

/-- C5, amended. `read_name` checks no pointer. For every buffer and every
pointer the read loop meets (a byte of 192 or more with a byte after it),
whatever the state of the loop: the loop goes on at the computed target with
`jumped` set, be the target before or after the pointer; when the target
equals or exceeds the buffer length the next read is outside the buffer, and
so `read_name` started at that pointer reads outside the buffer; and
`read_name` never reports a failure, `MalformedMessage` or other. -/
theorem C5_pointer_unchecked (buffer : List Nat) (reader b0 b1 : Nat)
    (h0 : buffer[reader]? = some b0) (hb : 192 ≤ b0) (h1 : buffer[reader + 1]? = some b1) :
    (∀ fuel p jumped count name,
        read_loop buffer (fuel + 1) reader p jumped count name
          = read_loop buffer fuel (ptr_offset b0 b1) p 1 count name)
      ∧ (buffer.length ≤ ptr_offset b0 b1 →
          (∀ fuel p jumped count name,
            read_loop buffer (fuel + 2) reader p jumped count name = some Outcome.outOfBounds)
          ∧ ∀ fuel heap, read_name (fuel + 2) heap buffer reader = some Outcome.outOfBounds)
      ∧ ∀ fuel heap start f, read_name fuel heap buffer start ≠ some (Outcome.failed f) := by
  have hstep : ∀ fuel p jumped count name,
      read_loop buffer (fuel + 1) reader p jumped count name
        = read_loop buffer fuel (ptr_offset b0 b1) p 1 count name :=
    fun fuel p jumped count name =>
      read_loop_pointer buffer fuel reader p jumped count name b0 b1 h0 hb h1
  have hoob : buffer.length ≤ ptr_offset b0 b1 → ∀ fuel p jumped count name,
      read_loop buffer (fuel + 2) reader p jumped count name = some Outcome.outOfBounds := by
    intro hlen fuel p jumped count name
    rw [hstep (fuel + 1)]
    have hnone : buffer[ptr_offset b0 b1]? = none := List.getElem?_eq_none hlen
    simp [read_loop, hnone]
  refine ⟨hstep, fun hlen => ⟨hoob hlen, fun fuel heap => ?_⟩, fun fuel heap start f => ?_⟩
  · exact read_name_of_loop_oob _ _ _ _ (hoob hlen fuel 0 0 1 _)
  · exact read_name_ne_failed fuel heap buffer start f

/-- C5 amended, at the pair (0xC0, 0x09) at offset 0 of a 2-byte buffer. -/
theorem C5_pointer_unchecked_witness :
    read_name 2 (List.replicate 256 0) [0xC0, 0x09] 0 = some Outcome.outOfBounds :=
  (C5_pointer_unchecked [0xC0, 0x09] 0 0xC0 0x09 (by decide) (by decide) (by decide)).2.1
    (by decide) |>.2 0 (List.replicate 256 0)

/-- C6, as stated, fails. On a pointer whose target is its own offset, and on
two pointers that target each other, the read loop of `read_name` never ends,
whatever the fuel. On 256 label bytes before the zero octet the loop copies
256 bytes and `read_name` then writes `name[256]`, outside the name array. -/
theorem C6_decoder_termination_counterexample :
    (¬ ∃ fuel, read_name fuel (List.replicate 256 0) [0xC0, 0x00] 0 ≠ none)
      ∧ (¬ ∃ fuel, read_name fuel (List.replicate 256 0) [0xC0, 0x02, 0xC0, 0x00] 0 ≠ none)
      ∧ read_name 300 (List.replicate 256 0) (List.replicate 256 1 ++ [0]) 0
        = some Outcome.outOfBounds := by
  refine ⟨?_, ?_, ?_⟩
  · rintro ⟨fuel, h⟩
    exact h (read_name_of_loop_none _ _ _ _ (self_pointer_loops fuel 0 0 1 _))
  · rintro ⟨fuel, h⟩
    exact h (read_name_of_loop_none _ _ _ _ (mutual_pointers_loop fuel 0 0 1 _).1)
  · exact read_name_overflow (List.replicate 256 1) (List.replicate 256 0)
      (List.length_replicate 256 0) (List.length_replicate 256 1)
      (by intro b hb; rw [List.eq_of_mem_replicate hb]; decide) 300 (by decide)

/-- C6, amended. `read_name` has no guard against pointer chains and no cap on
the name length. For every buffer and every start offset, the run of
`read_name` ends (it returns, or it stops at the first access outside the
buffer or the 256-byte name array) exactly when its read loop never arrives at
an offset that starts a cycle made of pointers only, that is, an offset from
which following pointers, target after target, leads to pointers without end
(a pointer to itself, two pointers that target each other); the offsets the
loop arrives at are those of `read_cursor`, from which the loop of the code
goes on. A cycle that passes through a label byte ends, at the end of the name
array. The number of bytes copied is bounded by the name array alone: on 256
label bytes followed by the zero octet the loop copies all 256 and the
terminator is stored outside the array. -/
theorem C6_decoder_ends (buffer heap : List Nat) (hheap : heap.length = NAME_SIZE)
    (start : Nat) :
    ((∃ fuel, read_name fuel heap buffer start ≠ none)
        ↔ ∀ n q, read_cursor buffer n start 0 = some q → ∃ k, chain_leaves buffer k q = true)
      ∧ (∀ n q, read_cursor buffer n start 0 = some q →
          ∀ fuel, ∃ p jumped count name,
            read_loop buffer (n + fuel) start 0 0 1 (heap.set 0 0)
              = read_loop buffer fuel q p jumped count name)
      ∧ (∀ lits, lits.length = 256 → (∀ b ∈ lits, 1 ≤ b ∧ b ≤ 191) →
          holds_at buffer start (lits ++ [0]) →
          ∀ fuel, 257 ≤ fuel → read_name fuel heap buffer start = some Outcome.outOfBounds) := by
  refine ⟨⟨?_, ?_⟩, fun n q hq fuel => read_cursor_loop buffer n start 0 q hq fuel 0 1 _, ?_⟩
  · rintro ⟨fuel, hf⟩ n q hq
    by_contra hno
    have hcyc : ∀ k, chain_leaves buffer k q = false := by
      intro k
      cases hk : chain_leaves buffer k q with
      | false => rfl
      | true => exact absurd ⟨k, hk⟩ hno
    obtain ⟨p1, j1, c1, name1, hlink⟩ := read_cursor_loop buffer n start 0 q hq fuel 0 1 (heap.set 0 0)
    rw [pointer_cycle_loops buffer fuel q p1 j1 c1 name1 hcyc] at hlink
    cases hl : read_loop buffer fuel start 0 0 1 (heap.set 0 0) with
    | none => exact hf (read_name_of_loop_none fuel heap buffer start hl)
    | some o =>
      have hmore := read_loop_more_fuel buffer n fuel start 0 0 1 (heap.set 0 0) o hl
      rw [Nat.add_comm, hlink] at hmore
      exact absurd hmore (by simp)
  · intro hall
    obtain ⟨fuel, hf⟩ := read_loop_ends buffer NAME_SIZE start 0 0 1 (heap.set 0 0) rfl hall
    exact ⟨fuel, read_name_ends_of_loop fuel heap buffer start hheap hf⟩
  · intro lits hl hv hat fuel hfuel
    exact read_name_overflow_at buffer lits heap start hheap hl hv hat fuel hfuel

/-- C6 amended, on the buffer made of the label byte 1 and a pointer to it,
read from the pointer: a cycle through a label byte, on which the run ends. -/
theorem C6_decoder_ends_witness :
    ∃ fuel, read_name fuel (List.replicate 256 0) [1, 0xC0, 0x00] 1 ≠ none :=
  (C6_decoder_ends [1, 0xC0, 0x00] (List.replicate 256 0) (List.length_replicate 256 0) 1).1.2
    (fun n q h =>
      (read_cursor_label_pointer n 1 0 q (Or.inr rfl) h).elim
        (fun h0 => ⟨0, by rw [h0]; decide⟩) (fun h1 => ⟨1, by rw [h1]; decide⟩))

/-- C7, as stated, fails. On a single segment of 64 bytes the encoder returns
an encoding that starts with the length octet 64, and on the empty string it
returns the two bytes 0 0; in neither case is `InvalidName` signalled. -/
theorem C7_encoder_rejects_counterexample :
    hostname_to_dns_format (List.replicate 64 97)
        = Outcome.returned ⟨64 :: List.replicate 64 97 ++ [0], List.replicate 64 97 ++ [dot]⟩
      ∧ hostname_to_dns_format (List.replicate 64 97) ≠ Outcome.failed Failure.InvalidName
      ∧ hostname_to_dns_format [] = Outcome.returned ⟨[0, 0], [dot]⟩
      ∧ hostname_to_dns_format [] ≠ Outcome.failed Failure.InvalidName := by
  decide

/-- C7, amended. `hostname_to_dns_format` has no failure path: for every host
string it returns an encoding, `strlen(host) + 2` bytes long, made of every
dot-separated segment of the string, whatever its length, after a length octet
equal to that length modulo 256, and a final zero octet. -/
theorem C7_encoder_never_rejects (host : List Nat) :
    ∃ enc, hostname_to_dns_format host = Outcome.returned enc
      ∧ enc.dns = wire_labels_mod (segments (cstr host)) ++ [0]
      ∧ enc.dns.length = strlen host + 2 := by
  refine ⟨_, hostname_to_dns_format_eq host, rfl, ?_⟩
  have := wire_labels_mod_length (cstr host) []
  simp only [segments, List.length_append, List.length_singleton, this, List.length_nil, strlen]

/-- C8 (query header) at a failing input. With every byte of the message
buffer equal to 0xFF on entry, process id 0x1234 and host "a", the first 12
bytes of the query are the id 12 34, the flag bytes 01 00, the question count
00 01 and then six bytes 0xFF: `main` never assigns `ans_count`, `auth_count`
and `add_count`, so the three counts keep the prior content of the buffer
instead of being 0. -/
theorem C8_header_counts_unassigned :
    ∃ q, build_query (List.replicate BUF_SIZE 255) 0x1234 [97] = Outcome.returned q
      ∧ q.datagram.take 12 = [0x12, 0x34, 0x01, 0x00, 0x00, 0x01, 255, 255, 255, 255, 255, 255] := by
  have hlen : (List.replicate BUF_SIZE 255).length = BUF_SIZE := List.length_replicate _ _
  have h := build_query_eq (List.replicate BUF_SIZE 255) 0x1234 [97]
    (fun b hb => by rw [List.eq_of_mem_replicate hb]; decide) (by decide) (by decide)
    (by rw [hlen]; decide)
  refine ⟨_, h, ?_⟩
  have h6 : ((List.replicate BUF_SIZE 255).drop 6).take 6 = List.replicate 6 255 := by
    rw [List.drop_replicate, List.take_replicate]
    rfl
  simp only [Query.datagram, h6]
  rfl

/-- C10 (transitive pointers). When the pointer at offset `m` targets an offset
`t1` that itself holds a pointer, whose target `t2` holds a fully encoded valid
name `N` of at most 255 bytes of length octets and label bytes, `read_name` at
`m` follows both pointers and returns `N` with count exactly 2. -/
theorem C10_transitive_pointers (buffer : List Nat) (N : List (List Nat)) (m t1 t2 : Nat)
    (hN : ValidName N) (hlen : (wire_labels N).length ≤ 255)
    (ht1 : t1 < 16384) (ht2 : t2 < 16384)
    (hm : holds_at buffer m (pointer_pair t1)) (h1 : holds_at buffer t1 (pointer_pair t2))
    (h2 : holds_at buffer t2 (wire_labels N ++ [0]))
    (heap : List Nat) (hheap : heap.length = NAME_SIZE) (fuel : Nat) (hfuel : 258 ≤ fuel) :
    read_name fuel heap buffer m = some (Outcome.returned (dotted N, 2)) := by
  obtain ⟨k, rfl⟩ : ∃ k, fuel = k + 1 + (wire_labels N).length + 1 + 1 :=
    ⟨fuel - 1 - (wire_labels N).length - 1 - 1, by omega⟩
  have hfl : (heap.set 0 0).length = 256 := by simpa [NAME_SIZE] using hheap
  have hnil : ∀ l ∈ ([] : List (List Nat)), ValidLabel l := by simp
  have hp1 := read_loop_labels_pointer buffer [] t1 m (k + 1 + (wire_labels N).length + 1) 0 1 []
    (heap.set 0 0) ht1 (by simpa [wire_labels] using hm) hnil (by simp [wire_labels])
    (by simp [wire_labels])
  have hp2 := read_loop_labels_pointer buffer [] t2 t1 (k + 1 + (wire_labels N).length) 1 1 []
    (heap.set 0 0) ht2 (by simpa [wire_labels] using h1) hnil (by simp [wire_labels])
    (by simp [wire_labels])
  simp only [wire_labels, List.length_nil, Nat.add_zero, List.nil_append, if_true,
    List.append_nil, List.drop_zero, Nat.one_ne_zero, if_false] at hp1 hp2
  rw [hp2] at hp1
  have h := read_name_finish _ k heap buffer m t2 [] N 1 1 hheap hnil hN
    (by simp [wire_labels]; omega) h2 (by simpa [wire_labels] using hp1)
  rw [h]
  simp

/-- C10 on a buffer with "a" encoded at offset 0, a pointer to 0 at offset 3
and a pointer to 3 at offset 5: reading at 5 gives "a" with count 2. -/
theorem C10_transitive_pointers_witness :
    read_name 258 (List.replicate 256 0) [1, 97, 0, 0xC0, 0x00, 0xC0, 0x03] 5
      = some (Outcome.returned ([97], 2)) :=
  C10_transitive_pointers _ [[97]] 5 3 0 (by decide) (by decide) (by decide) (by decide)
    (by decide) (by decide) (by decide) (List.replicate 256 0) (List.length_replicate 256 0)
    258 (by decide)

set_option maxRecDepth 8192 in
/-- C11 (name consumption in the parser) at a failing input. In this response
the only answer record has the uncompressed name "a" (3 bytes) at offset 19:
`read_name` computes the consumed count 3 there, but the answer loop, which
never calls `read_name`, advances by the constant 2 of line 192 ("Move past
the name"), so it takes the last byte of the data length and the first three
address bytes for the address and prints 4.93.184.216 instead of
93.184.216.34. -/
theorem C11_name_field_skipped_by_two :
    read_name 10 (List.replicate 256 0)
        ([0x12, 0x34, 0x81, 0x80, 0, 1, 0, 1, 0, 0, 0, 0] ++ [1, 97, 0] ++ [0, 1, 0, 1]
          ++ ([1, 97, 0] ++ [0, 1, 0, 1, 0, 0, 1, 44, 0, 4] ++ [93, 184, 216, 34])) 19
        = some (Outcome.returned ([97], 3))
      ∧ read_answers
        ([0x12, 0x34, 0x81, 0x80, 0, 1, 0, 1, 0, 0, 0, 0] ++ [1, 97, 0] ++ [0, 1, 0, 1]
          ++ ([1, 97, 0] ++ [0, 1, 0, 1, 0, 0, 1, 44, 0, 4] ++ [93, 184, 216, 34]))
        = Outcome.returned ["4.93.184.216"] := by
  exact ⟨by rfl, by rfl⟩

/-- C12, as stated, fails. The only answer record of this response is a TXT
record (type 16) with 4 bytes of data: the answer loop yields the address
3.120.121.122 for it instead of yielding nothing. -/
theorem C12_non_address_records_counterexample :
    read_answers
        ([0x12, 0x34, 0x81, 0x80, 0, 1, 0, 1, 0, 0, 0, 0] ++ [1, 97, 0] ++ [0, 1, 0, 1]
          ++ [0xC0, 0x0C, 0, 16, 0, 1, 0, 0, 1, 44, 0, 4, 3, 120, 121, 122])
      = Outcome.returned ["3.120.121.122"] := by
  rfl

/-- C12, amended. The answer loop reads neither the type nor the data length
of a record: whatever the 12 bytes of name, type, class, TTL and data length
hold, each iteration yields the 4 bytes that follow them as an address and
advances the cursor by 16 bytes. The addresses it yields are therefore the data
of the address records, in wire order, when every answer record is an address
record with a 2-byte name. -/
theorem C12_records_not_inspected (pre fields rest : List Nat) (d0 d1 d2 d3 : Nat)
    (n : Nat) (out : List String) (hfields : fields.length = 12) :
    answer_loop (pre ++ fields ++ [d0, d1, d2, d3] ++ rest) (n + 1) pre.length out
      = answer_loop (pre ++ fields ++ [d0, d1, d2, d3] ++ rest) n (pre.length + 16)
          (out ++ [inet_ntoa d0 d1 d2 d3]) := by
  have hl : (pre ++ fields).length = pre.length + 2 + 10 := by simp [hfields]
  have e : pre ++ fields ++ [d0, d1, d2, d3] ++ rest
      = (pre ++ fields) ++ ([d0, d1, d2, d3] ++ rest) := by simp
  have g : ∀ j, (pre ++ fields ++ [d0, d1, d2, d3] ++ rest).getD (pre.length + 2 + 10 + j) 0
      = ([d0, d1, d2, d3] ++ rest).getD j 0 := by
    intro j
    rw [e, ← hl]
    exact getD_append_add _ _ j 0
  rw [answer_loop_step _ n pre.length out (by simp [hfields]; omega)]
  have g0 := g 0
  rw [Nat.add_zero] at g0
  rw [g0, g 1, g 2, g 3]
  rfl

/-- C12 amended, on the TXT record of the counterexample. -/
theorem C12_records_not_inspected_witness :
    answer_loop ([0, 0, 0] ++ [0xC0, 0x0C, 0, 16, 0, 1, 0, 0, 1, 44, 0, 4] ++ [3, 120, 121, 122]
        ++ []) (0 + 1) 3 []
      = answer_loop ([0, 0, 0] ++ [0xC0, 0x0C, 0, 16, 0, 1, 0, 0, 1, 44, 0, 4]
        ++ [3, 120, 121, 122] ++ []) 0 (3 + 16) ([] ++ [inet_ntoa 3 120 121 122]) :=
  C12_records_not_inspected [0, 0, 0] [0xC0, 0x0C, 0, 16, 0, 1, 0, 0, 1, 44, 0, 4] [] 3 120 121
    122 0 [] (by decide)

/-- C13, as stated, fails. This response carries the response code 3
(NXDOMAIN, low four bits of byte 3) and no answer: the parser ends normally
with an empty list of addresses, and reports no `QueryFailed`. -/
theorem C13_response_code_counterexample :
    read_answers ([0x12, 0x34, 0x81, 0x83, 0, 1, 0, 0, 0, 0, 0, 0] ++ [1, 97, 0] ++ [0, 1, 0, 1])
        = Outcome.returned []
      ∧ read_answers
          ([0x12, 0x34, 0x81, 0x83, 0, 1, 0, 0, 0, 0, 0, 0] ++ [1, 97, 0] ++ [0, 1, 0, 1])
        ≠ Outcome.failed (Failure.QueryFailed 3) := by
  exact ⟨by rfl, by decide⟩

/-- C13, amended. The parser never reads the response code: its result is the
same whatever the two flag bytes of the header (bytes 2 and 3, the response
code being the low four bits of byte 3) hold, and it never reports
`QueryFailed` nor any other failure. -/
theorem C13_response_code_ignored (id2 flags flags1 rest : List Nat)
    (hid : id2.length = 2) (hf : flags.length = 2) (hf1 : flags1.length = 2) :
    read_answers (id2 ++ flags ++ rest) = read_answers (id2 ++ flags1 ++ rest)
      ∧ ∀ f, read_answers (id2 ++ flags ++ rest) ≠ Outcome.failed f := by
  refine ⟨?_, fun f => read_answers_ne_failed _ f⟩
  have hget : ∀ (fl : List Nat), fl.length = 2 → ∀ j,
      (id2 ++ fl ++ rest).getD (4 + j) 0 = rest.getD j 0 := by
    intro fl hfl j
    have := getD_append_add (id2 ++ fl) rest j 0
    rw [List.length_append, hid, hfl] at this
    exact this
  have hdrop : ∀ (fl : List Nat), fl.length = 2 →
      (id2 ++ fl ++ rest).drop DNS_HEADER_SIZE = rest.drop 8 := by
    intro fl hfl
    have h4 : (id2 ++ fl ++ rest).drop 4 = rest := List.drop_left' (by simp [hid, hfl])
    have : DNS_HEADER_SIZE = 4 + 8 := rfl
    rw [this, ← List.drop_drop, h4]
  have hlen : (id2 ++ flags ++ rest).length = (id2 ++ flags1 ++ rest).length := by
    simp [hf, hf1]
  have h6 : (id2 ++ flags ++ rest).getD 6 0 = (id2 ++ flags1 ++ rest).getD 6 0 := by
    rw [hget flags hf 2, hget flags1 hf1 2]
  have h7 : (id2 ++ flags ++ rest).getD 7 0 = (id2 ++ flags1 ++ rest).getD 7 0 := by
    rw [hget flags hf 3, hget flags1 hf1 3]
  simp only [read_answers, strlen_at, hdrop flags hf, hdrop flags1 hf1, hlen, h6, h7]
  split
  · rfl
  · apply answer_loop_ext _ _ hlen
    intro i hi
    obtain ⟨j, rfl⟩ : ∃ j, i = 4 + j := ⟨i - 4, by unfold DNS_HEADER_SIZE at hi; omega⟩
    rw [hget flags hf j, hget flags1 hf1 j]

/-- C13 amended: the NXDOMAIN response and the same response with a zero
response code are parsed to the same result. -/
theorem C13_response_code_ignored_witness :
    read_answers ([0x12, 0x34] ++ [0x81, 0x83] ++ ([0, 1, 0, 0, 0, 0, 0, 0] ++ [1, 97, 0]
        ++ [0, 1, 0, 1]))
      = read_answers ([0x12, 0x34] ++ [0x81, 0x80] ++ ([0, 1, 0, 0, 0, 0, 0, 0] ++ [1, 97, 0]
        ++ [0, 1, 0, 1])) :=
  (C13_response_code_ignored [0x12, 0x34] [0x81, 0x83] [0x81, 0x80] _ (by decide) (by decide)
    (by decide)).1

/-- C14, as stated, fails. The datagram received has 19 bytes (header with
answer count 1, question "a", no answer record) and the buffer holds 16 stale
bytes 0xAA after it: the answer loop reads offsets 31 to 34, beyond the 19
bytes received, yields 170.170.170.170 and reports no `MalformedMessage`. -/
theorem C14_parser_bounds_counterexample :
    ([0x12, 0x34, 0x81, 0x80, 0, 1, 0, 1, 0, 0, 0, 0] ++ [1, 97, 0] ++ [0, 1, 0, 1]).length = 19
      ∧ read_answers
          (([0x12, 0x34, 0x81, 0x80, 0, 1, 0, 1, 0, 0, 0, 0] ++ [1, 97, 0] ++ [0, 1, 0, 1])
            ++ List.replicate 16 170)
        = Outcome.returned ["170.170.170.170"] := by
  exact ⟨by rfl, by rfl⟩

/-- C14, amended. The answer loop takes no account of the number of bytes
received. For every received datagram and every stale content of the buffer
after it, with the question name ending at offset `12 + q` and the header's
answer count `n`: when the `16 * n` bytes after the question fit in the whole
buffer the loop yields `n` addresses, read wherever they lie, received or
stale; when they do not fit it reads outside the buffer; and it never reports
`MalformedMessage` nor any other failure. -/
theorem C14_parser_unbounded (datagram stale : List Nat) (q : Nat)
    (hq : strlen_at (datagram ++ stale) DNS_HEADER_SIZE = some q) :
    (DNS_HEADER_SIZE + (q + 1) + DNS_QUESTION_SIZE
          + 16 * ntohs ((datagram ++ stale).getD 6 0) ((datagram ++ stale).getD 7 0)
          ≤ (datagram ++ stale).length →
        ∃ l, read_answers (datagram ++ stale) = Outcome.returned l
          ∧ l.length = ntohs ((datagram ++ stale).getD 6 0) ((datagram ++ stale).getD 7 0))
      ∧ (0 < ntohs ((datagram ++ stale).getD 6 0) ((datagram ++ stale).getD 7 0) →
          (datagram ++ stale).length < DNS_HEADER_SIZE + (q + 1) + DNS_QUESTION_SIZE
            + 16 * ntohs ((datagram ++ stale).getD 6 0) ((datagram ++ stale).getD 7 0) →
          read_answers (datagram ++ stale) = Outcome.outOfBounds)
      ∧ ∀ f, read_answers (datagram ++ stale) ≠ Outcome.failed f := by
  have ht := answer_loop_total (datagram ++ stale)
    (ntohs ((datagram ++ stale).getD 6 0) ((datagram ++ stale).getD 7 0))
    (DNS_HEADER_SIZE + (q + 1) + DNS_QUESTION_SIZE) []
  refine ⟨fun h => ?_, fun h0 h => ?_, fun f => read_answers_ne_failed _ f⟩
  · obtain ⟨l, hl, hlen⟩ := ht.1 h
    refine ⟨l, ?_, by simpa using hlen⟩
    simp only [read_answers, hq, hl]
  · simp only [read_answers, hq, ht.2 h0 h]

/-- C14 amended, on the 19-byte datagram of the counterexample followed by 16
stale bytes: one address is yielded. -/
theorem C14_parser_unbounded_witness :
    ∃ l, read_answers
        (([0x12, 0x34, 0x81, 0x80, 0, 1, 0, 1, 0, 0, 0, 0] ++ [1, 97, 0] ++ [0, 1, 0, 1])
          ++ List.replicate 16 170) = Outcome.returned l
      ∧ l.length = 1 :=
  (C14_parser_unbounded
    ([0x12, 0x34, 0x81, 0x80, 0, 1, 0, 1, 0, 0, 0, 0] ++ [1, 97, 0] ++ [0, 1, 0, 1])
    (List.replicate 16 170) 2 (by decide)).1 (by decide)

/-- C15, as stated, fails. Called on the host string "a" held in 3 bytes of
storage, `hostname_to_dns_format` leaves the string "a.", one byte longer.
Called as `main` calls it, on `argv[1]` = "a" held in the 2 bytes of the
string and its terminator, it stores the new terminator outside the host
string. -/
theorem C15_encoder_frame_counterexample :
    hostname_to_dns_format_in 3 [97] = Outcome.returned ⟨[1, 97, 0], [97, 46]⟩
      ∧ ([97, 46] : List Nat) ≠ [97]
      ∧ hostname_to_dns_format_in (argv_storage [97]) [97] = Outcome.outOfBounds := by
  decide

/-- C15, amended. Besides the output buffer, `hostname_to_dns_format` writes
to the storage of the host string: its first statement appends a dot to the
string in place. For every host string and every size of its storage: when
the storage has room for the dot and the moved terminator (at least
`strlen(host) + 2` bytes), the host string after the call is the string given
followed by one dot, one byte longer, and the encoding written to the output
buffer is that of the string as given; when it has less room, the call stores
outside the storage of the host string, and that is the case of `argv[1]`,
held in just the bytes of the string and its terminator. -/
theorem C15_encoder_appends_dot (cap : Nat) (host : List Nat) :
    (strlen host + 2 ≤ cap →
        ∃ enc, hostname_to_dns_format_in cap host = Outcome.returned enc
          ∧ enc.host = cstr host ++ [dot]
          ∧ strlen enc.host = strlen host + 1
          ∧ enc.dns = wire_labels_mod (segments (cstr host)) ++ [0])
      ∧ (cap < strlen host + 2 → hostname_to_dns_format_in cap host = Outcome.outOfBounds)
      ∧ hostname_to_dns_format_in (argv_storage host) host = Outcome.outOfBounds := by
  refine ⟨fun h => ?_, hostname_to_dns_format_in_no_room cap host, ?_⟩
  · refine ⟨_, hostname_to_dns_format_in_room cap host h, rfl, ?_, rfl⟩
    have hz : ∀ b ∈ cstr host ++ [dot], b ≠ 0 := by
      intro b hb
      rcases List.mem_append.1 hb with hb | hb
      · exact cstr_nonzero host b hb
      · simp [dot] at hb; omega
    rw [strlen_of_nonzero _ hz]
    simp [strlen]
  · exact hostname_to_dns_format_in_no_room _ host (by unfold argv_storage; omega)

/-- C15 amended, on the host string "example.com" held in 13 bytes: after the
call it is "example.com.", 12 bytes long. -/
theorem C15_encoder_appends_dot_witness :
    ∃ enc, hostname_to_dns_format_in 13 [101, 120, 97, 109, 112, 108, 101, 46, 99, 111, 109]
        = Outcome.returned enc
      ∧ enc.host = cstr [101, 120, 97, 109, 112, 108, 101, 46, 99, 111, 109] ++ [dot]
      ∧ strlen enc.host = strlen [101, 120, 97, 109, 112, 108, 101, 46, 99, 111, 109] + 1
      ∧ enc.dns
        = wire_labels_mod (segments (cstr [101, 120, 97, 109, 112, 108, 101, 46, 99, 111, 109]))
          ++ [0] :=
  (C15_encoder_appends_dot 13 [101, 120, 97, 109, 112, 108, 101, 46, 99, 111, 109]).1
    (by decide)

/-- C16 (decode is repeatable). `read_name` and the answer loop of `main` are
run on a memory that holds the message buffer, the block `read_name`
allocates, the integer behind `count` and the address field the answer loop
copies into; every store of the source goes through `Mem.store` or
`Mem.store_count`. For every buffer and start offset, every block content and
every fuel: (1) a run of `read_name` that returns leaves the buffer as it was,
and a second call, on the memory the first one left and in a fresh block of
any other content, returns the same name and the same consumed count, and
leaves the buffer as it was; (2) the run on the memory returns whenever
`read_name` gives a result, with that result; (3) a run of the answer loop
that returns leaves the buffer as it was, and a second run on the memory it
left returns the same sequence of addresses; (4) the run on the memory
returns whenever `read_answers` gives a result, with that result; (5) on a
buffer that holds a valid name at the start offset the name returned, both
times, is the dotted form of its labels; (6) on a response with `n` address
records the sequence returned, both times, is the `n` addresses of the
records, in order. -/
theorem C16_decode_repeatable (buffer heap1 heap2 addr : List Nat) (count0 start : Nat)
    (hh1 : heap1.length = NAME_SIZE) (hh2 : heap2.length = NAME_SIZE)
    (ha : addr.length = 4) :
    (∀ fuel1 r mem1,
        read_name_mem fuel1 ⟨buffer, heap1, count0, addr⟩ start
          = some (Outcome.returned (r, mem1)) →
        mem1.buffer = buffer
          ∧ ∀ fuel2, fuel1 ≤ fuel2 →
              ∃ mem2, read_name_mem fuel2 ⟨mem1.buffer, heap2, mem1.count, mem1.addr⟩ start
                  = some (Outcome.returned (r, mem2))
                ∧ mem2.buffer = buffer)
      ∧ (∀ fuel r, read_name fuel heap1 buffer start = some (Outcome.returned r) →
          ∃ mem1, read_name_mem fuel ⟨buffer, heap1, count0, addr⟩ start
            = some (Outcome.returned (r, mem1)))
      ∧ (∀ fuel1 out mem1,
          read_answers_mem fuel1 ⟨buffer, heap1, count0, addr⟩
            = some (Outcome.returned (out, mem1)) →
          mem1.buffer = buffer
            ∧ ∀ fuel2, fuel1 ≤ fuel2 →
                ∃ mem2, read_answers_mem fuel2 mem1 = some (Outcome.returned (out, mem2))
                  ∧ mem2.buffer = buffer)
      ∧ (∀ fuel out, read_answers buffer = Outcome.returned out →
          ntohs (buffer.getD 6 0) (buffer.getD 7 0) < fuel →
          ∃ mem1, read_answers_mem fuel ⟨buffer, heap1, count0, addr⟩
            = some (Outcome.returned (out, mem1)))
      ∧ (∀ (ls1 ls2 : List (List Nat)) (fuel1 fuel2 : Nat),
          (∀ l ∈ ls1, ValidLabel l) → (∀ l ∈ ls2, ValidLabel l) → ls1 ++ ls2 ≠ [] →
          (wire_labels (ls1 ++ ls2)).length ≤ 255 →
          ((ls2 = [] ∧ holds_at buffer start (wire_labels ls1 ++ [0]))
            ∨ (ls2 ≠ [] ∧ ∃ t, t < 16384
                ∧ holds_at buffer start (wire_labels ls1 ++ pointer_pair t)
                ∧ holds_at buffer t (wire_labels ls2 ++ [0]))) →
          257 ≤ fuel1 → 257 ≤ fuel2 →
          ∃ count mem1 mem2,
            read_name_mem fuel1 ⟨buffer, heap1, count0, addr⟩ start
              = some (Outcome.returned ((dotted (ls1 ++ ls2), count), mem1))
            ∧ read_name_mem fuel2 ⟨mem1.buffer, heap2, mem1.count, mem1.addr⟩ start
              = some (Outcome.returned ((dotted (ls1 ++ ls2), count), mem2)))
      ∧ (∀ (h6 h4 qname q4 : List Nat) (rs : List ARecord) (rest : List Nat)
          (fuel1 fuel2 : Nat),
          h6.length = 6 → h4.length = 4 → (∀ b ∈ qname, b ≠ 0) → q4.length = 4 →
          buffer = h6 ++ [rs.length / 256, rs.length % 256] ++ h4 ++ qname ++ [0] ++ q4
            ++ answer_section rs ++ rest →
          rs.length < fuel1 → rs.length < fuel2 →
          ∃ mem1 mem2,
            read_answers_mem fuel1 ⟨buffer, heap1, count0, addr⟩
              = some (Outcome.returned (rs.map ARecord.address, mem1))
            ∧ read_answers_mem fuel2 mem1
              = some (Outcome.returned (rs.map ARecord.address, mem2))) := by
  have name1 : ∀ fuel r, read_name fuel heap1 buffer start = some (Outcome.returned r) →
      ∃ mem1, read_name_mem fuel ⟨buffer, heap1, count0, addr⟩ start
        = some (Outcome.returned (r, mem1)) := by
    intro fuel r h
    have := (read_name_mem_eq fuel ⟨buffer, heap1, count0, addr⟩ start hh1).1
    rw [h] at this
    exact returned_of_map_fst _ r this
  have name2 : ∀ fuel1 r mem1,
      read_name_mem fuel1 ⟨buffer, heap1, count0, addr⟩ start
        = some (Outcome.returned (r, mem1)) →
      mem1.buffer = buffer
        ∧ ∀ fuel2, fuel1 ≤ fuel2 →
            ∃ mem2, read_name_mem fuel2 ⟨mem1.buffer, heap2, mem1.count, mem1.addr⟩ start
                = some (Outcome.returned (r, mem2))
              ∧ mem2.buffer = buffer := by
    intro fuel1 r mem1 h
    obtain ⟨hres, hframe⟩ := read_name_mem_eq fuel1 ⟨buffer, heap1, count0, addr⟩ start hh1
    have hb1 : mem1.buffer = buffer := (hframe r mem1 h).1
    rw [h] at hres
    simp only [Option.map, Outcome.map] at hres
    refine ⟨hb1, fun fuel2 hle => ?_⟩
    have h2 : read_name fuel2 heap2 buffer start = some (Outcome.returned r) := by
      rw [← read_name_any_heap fuel2 heap1 heap2 buffer start hh1 hh2]
      exact read_name_more_fuel heap1 buffer start fuel1 fuel2 _ hle hres.symm
    obtain ⟨hres2, hframe2⟩ :=
      read_name_mem_eq fuel2 ⟨mem1.buffer, heap2, mem1.count, mem1.addr⟩ start hh2
    simp only [hb1] at hres2 hframe2 ⊢
    rw [h2] at hres2
    obtain ⟨mem2, hm2⟩ := returned_of_map_fst _ r hres2
    exact ⟨mem2, hm2, (hframe2 r mem2 hm2).1⟩
  have ans1 : ∀ fuel out, read_answers buffer = Outcome.returned out →
      ntohs (buffer.getD 6 0) (buffer.getD 7 0) < fuel →
      ∃ mem1, read_answers_mem fuel ⟨buffer, heap1, count0, addr⟩
        = some (Outcome.returned (out, mem1)) := by
    intro fuel out h hf
    obtain ⟨addr1, _, he⟩ := read_answers_mem_eq fuel ⟨buffer, heap1, count0, addr⟩ ha hf
    simp only [h, Outcome.map] at he
    exact ⟨_, he⟩
  have ans2 : ∀ fuel1 out mem1,
      read_answers_mem fuel1 ⟨buffer, heap1, count0, addr⟩
        = some (Outcome.returned (out, mem1)) →
      mem1.buffer = buffer
        ∧ ∀ fuel2, fuel1 ≤ fuel2 →
            ∃ mem2, read_answers_mem fuel2 mem1 = some (Outcome.returned (out, mem2))
              ∧ mem2.buffer = buffer := by
    intro fuel1 out mem1 h
    have hf := read_answers_mem_fuel fuel1 ⟨buffer, heap1, count0, addr⟩ _ ha h
    simp only at hf
    obtain ⟨addr1, hl1, he⟩ := read_answers_mem_eq fuel1 ⟨buffer, heap1, count0, addr⟩ ha hf
    simp only at he
    rw [h] at he
    cases hra : read_answers buffer with
    | failed f => simp [hra, Outcome.map] at he
    | outOfBounds => simp [hra, Outcome.map] at he
    | returned l =>
      simp only [hra, Outcome.map, Option.some.injEq, Outcome.returned.injEq,
        Prod.mk.injEq] at he
      obtain ⟨rfl, rfl⟩ := he
      refine ⟨rfl, fun fuel2 hle => ?_⟩
      obtain ⟨addr2, _, he2⟩ :=
        read_answers_mem_eq fuel2 ⟨buffer, heap1, count0, addr1⟩ hl1 (by simp only; omega)
      simp only [hra, Outcome.map] at he2
      exact ⟨_, he2, rfl⟩
  refine ⟨name2, name1, ans2, ans1, ?_, ?_⟩
  · intro ls1 ls2 fuel1 fuel2 h1 h2 hne hlen hshape hf1 hf2
    have hv := read_name_valid buffer ls1 ls2 start heap1 hh1 fuel1 hf1 h1 h2 hne hlen hshape
    obtain ⟨mem1, hm1⟩ := name1 fuel1 _ hv
    have hv2 := read_name_valid buffer ls1 ls2 start heap2 hh2 fuel2 hf2 h1 h2 hne hlen hshape
    obtain ⟨hres2, _⟩ :=
      read_name_mem_eq fuel2 ⟨mem1.buffer, heap2, mem1.count, mem1.addr⟩ start hh2
    have hb1 : mem1.buffer = buffer :=
      ((read_name_mem_eq fuel1 ⟨buffer, heap1, count0, addr⟩ start hh1).2 _ mem1 hm1).1
    simp only [hb1] at hres2
    rw [hv2] at hres2
    obtain ⟨mem2, hm2⟩ := returned_of_map_fst _ _ hres2
    exact ⟨_, mem1, mem2, hm1, by rw [hb1]; exact hm2⟩
  · intro h6 h4 qname q4 rs rest fuel1 fuel2 hh6 hh4 hq hq4 hbuf hf1 hf2
    obtain ⟨hra, hcount⟩ := read_answers_counted h6 h4 qname q4 rs rest hh6 hh4 hq hq4
    rw [← hbuf] at hra hcount
    obtain ⟨mem1, hm1⟩ := ans1 fuel1 _ hra (by omega)
    have hf := read_answers_mem_fuel fuel1 ⟨buffer, heap1, count0, addr⟩ _ ha hm1
    obtain ⟨addr1, hl1, he⟩ := read_answers_mem_eq fuel1 ⟨buffer, heap1, count0, addr⟩ ha hf
    simp only [hra, Outcome.map] at he
    rw [hm1] at he
    simp only [Option.some.injEq, Outcome.returned.injEq, Prod.mk.injEq, true_and] at he
    subst he
    obtain ⟨addr2, _, he2⟩ :=
      read_answers_mem_eq fuel2 ⟨buffer, heap1, count0, addr1⟩ hl1 (by simp only; omega)
    simp only [hra, Outcome.map] at he2
    exact ⟨_, _, hm1, he2⟩

/-- C16 on a response that holds the question name "a" at offset 12 and one
address record carrying 93.184.216.34: two calls of `read_name` at offset 12,
the second in a block of other content, return "a" with the same count, the
first leaving the buffer as it was; two runs of the answer loop return the one
address. -/
theorem C16_decode_repeatable_witness :
    (∃ count mem1 mem2,
        read_name_mem 257
            ⟨[0x12, 0x34, 0x81, 0x80, 0, 1] ++ [0, 1] ++ [0, 0, 0, 0] ++ [1, 97]
                ++ [0] ++ [0, 1, 0, 1]
                ++ answer_section [⟨0xC0, 0x0C, 0, 1, 0, 0, 1, 44, 93, 184, 216, 34⟩] ++ [],
              List.replicate 256 0, 0, [0, 0, 0, 0]⟩ 12
          = some (Outcome.returned (([97], count), mem1))
        ∧ mem1.buffer
          = [0x12, 0x34, 0x81, 0x80, 0, 1] ++ [0, 1] ++ [0, 0, 0, 0] ++ [1, 97]
              ++ [0] ++ [0, 1, 0, 1]
              ++ answer_section [⟨0xC0, 0x0C, 0, 1, 0, 0, 1, 44, 93, 184, 216, 34⟩] ++ []
        ∧ read_name_mem 300 ⟨mem1.buffer, List.replicate 256 255, mem1.count, mem1.addr⟩ 12
          = some (Outcome.returned (([97], count), mem2)))
      ∧ (∃ mem1 mem2,
          read_answers_mem 2
              ⟨[0x12, 0x34, 0x81, 0x80, 0, 1] ++ [0, 1] ++ [0, 0, 0, 0] ++ [1, 97]
                  ++ [0] ++ [0, 1, 0, 1]
                  ++ answer_section [⟨0xC0, 0x0C, 0, 1, 0, 0, 1, 44, 93, 184, 216, 34⟩] ++ [],
                List.replicate 256 0, 0, [0, 0, 0, 0]⟩
            = some (Outcome.returned (["93.184.216.34"], mem1))
          ∧ read_answers_mem 5 mem1 = some (Outcome.returned (["93.184.216.34"], mem2))) :=
  have T := C16_decode_repeatable
    ([0x12, 0x34, 0x81, 0x80, 0, 1] ++ [0, 1] ++ [0, 0, 0, 0] ++ [1, 97]
      ++ [0] ++ [0, 1, 0, 1]
      ++ answer_section [⟨0xC0, 0x0C, 0, 1, 0, 0, 1, 44, 93, 184, 216, 34⟩] ++ [])
    (List.replicate 256 0) (List.replicate 256 255) [0, 0, 0, 0] 0 12
    (List.length_replicate 256 0) (List.length_replicate 256 255) rfl
  ⟨(T.2.2.2.2.1 [[97]] [] 257 300 (by decide) (by decide) (by decide) (by decide)
      (Or.inl ⟨rfl, by decide⟩) (by decide) (by decide)).elim
    (fun count h1 => h1.elim (fun mem1 h2 => h2.elim (fun mem2 h3 =>
      ⟨count, mem1, mem2, h3.1, (T.1 257 _ mem1 h3.1).1, h3.2⟩))),
   T.2.2.2.2.2 [0x12, 0x34, 0x81, 0x80, 0, 1] [0, 0, 0, 0] [1, 97] [0, 1, 0, 1]
      [⟨0xC0, 0x0C, 0, 1, 0, 0, 1, 44, 93, 184, 216, 34⟩] [] 2 5 rfl rfl (by decide) rfl rfl
      (by decide) (by decide)⟩

set_option maxRecDepth 8192 in
/-- C18, as stated, fails. The length octet 2 at offset 0 is followed by the
label bytes 0xC0, 0x04 and a zero octet: `read_name` takes the label byte 0xC0
for a compression pointer, jumps to offset 4 and returns the name made of the
bytes found there, with count 3, instead of the two label bytes with count 4.
On the label byte 200 of [1, 200, 0] it jumps out of the buffer. -/
theorem C18_labels_verbatim_counterexample :
    read_name 10 (List.replicate 256 0) [2, 0xC0, 0x04, 0, 1, 98, 0] 0
        = some (Outcome.returned ([1, 98], 3))
      ∧ read_name 10 (List.replicate 256 0) [2, 0xC0, 0x04, 0, 1, 98, 0] 0
        ≠ some (Outcome.returned ([0xC0, 0x04], 4))
      ∧ read_name 10 (List.replicate 256 0) [1, 200, 0] 0 = some Outcome.outOfBounds := by
  exact ⟨by rfl, by decide, by rfl⟩

/-- C18, amended. For every length octet `L` in 1..63 at the cursor followed by
`L` bytes of any value in 1..191 (dots included) and then a zero octet,
`read_name` returns exactly those `L` bytes as the name, with consumed count
`L + 2`. A label byte of 192 or more is taken for a compression pointer. -/
theorem C18_labels_verbatim (buffer l : List Nat) (reader : Nat)
    (hl1 : 1 ≤ l.length) (hl2 : l.length ≤ 63) (hb : ∀ b ∈ l, 1 ≤ b ∧ b ≤ 191)
    (h : holds_at buffer reader (l.length :: l ++ [0]))
    (heap : List Nat) (hheap : heap.length = NAME_SIZE) (fuel : Nat) (hfuel : 66 ≤ fuel) :
    read_name fuel heap buffer reader = some (Outcome.returned (l, l.length + 2)) := by
  obtain ⟨pre, rest, hbuf, rfl⟩ := holds_at_split buffer reader _ (by simp) h
  have hfl : (heap.set 0 0).length = 256 := by simpa [NAME_SIZE] using hheap
  have hw : wire_labels [l] = l.length :: l := by simp [wire_labels]
  have hwl : (wire_labels [l]).length = l.length + 1 := by rw [hw]; simp
  obtain ⟨k, rfl⟩ : ∃ k, fuel = k + 1 + (wire_labels [l]).length :=
    ⟨fuel - 1 - (wire_labels [l]).length, by omega⟩
  have hlit := read_loop_literals buffer (wire_labels [l]) pre (0 :: rest) (k + 1) 0 1 []
    (heap.set 0 0) (by rw [hbuf, hw]; simp)
    (by
      intro b hmem
      rw [hw] at hmem
      rcases List.mem_cons.1 hmem with hmem | hmem
      · omega
      · exact hb b hmem)
    (by simp; omega) (by omega)
  simp only [List.length_nil, Nat.zero_add, List.nil_append, if_true] at hlit
  have hz := read_loop_zero buffer k (pre.length + (wire_labels [l]).length)
    (wire_labels [l]).length 0 (1 + (wire_labels [l]).length)
    (wire_labels [l] ++ List.drop (wire_labels [l]).length (heap.set 0 0))
    (by
      have e : buffer = (pre ++ wire_labels [l]) ++ 0 :: rest := by rw [hbuf, hw]; simp
      have hl : pre.length + (wire_labels [l]).length = (pre ++ wire_labels [l]).length := by
        simp
      rw [hl, e]
      exact getElem?_append_cons _ _ _)
  rw [hz] at hlit
  have hdrop : ((heap.set 0 0).drop (wire_labels [l]).length).length
      = 256 - (wire_labels [l]).length := by simp [hfl]
  have hres := read_name_of_loop (k + 1 + (wire_labels [l]).length) heap buffer pre.length [l] 0
    (1 + (wire_labels [l]).length) ((heap.set 0 0).drop (wire_labels [l]).length) (by simp)
    (by
      intro t ht
      rw [List.mem_singleton.1 ht]
      exact ⟨hl1, fun b hmem => by have := hb b hmem; omega⟩)
    (by rw [List.length_append, hdrop]; omega)
    (by intro hnil; rw [hnil] at hdrop; simp at hdrop; omega) hlit
  rw [hres, hwl]
  simp [dotted]
  omega

/-- C18 amended, on the label "a.b" (a dot among its bytes) at offset 0. -/
theorem C18_labels_verbatim_witness :
    read_name 66 (List.replicate 256 0) [3, 97, 46, 98, 0] 0
      = some (Outcome.returned ([97, 46, 98], 5)) :=
  C18_labels_verbatim [3, 97, 46, 98, 0] [97, 46, 98] 0 (by decide) (by decide) (by decide)
    (by decide) (List.replicate 256 0) (List.length_replicate 256 0) 66 (by decide)

/-- C19, as stated, fails. The host string of 256 bytes "aa...a" is not empty,
has no NUL byte, does not end with a dot and its only segment is not empty;
its length octet is 256 modulo 256, a zero octet at the start of the output.
The output holds two zero octets, and its C-string length plus 1 is 1, not the
encoded length 258. -/
theorem C19_appended_dot_counterexample :
    segments (List.replicate 256 97) = [List.replicate 256 97]
      ∧ hostname_to_dns_format (List.replicate 256 97)
        = Outcome.returned ⟨0 :: List.replicate 256 97 ++ [0], List.replicate 256 97 ++ [dot]⟩
      ∧ strlen (0 :: List.replicate 256 97 ++ [0]) + 1 = 1
      ∧ (0 :: List.replicate 256 97 ++ [0]).length = 258 :=
  encode_segment_256 (List.replicate 256 97) (List.length_replicate 256 97)
    (fun b hb => by rw [List.eq_of_mem_replicate hb]; decide)

/-- C19, amended. For every host string without NUL bytes whose segments all
have a length that is not a multiple of 256 (so none is empty: the string is
not empty, has no leading dot, no two adjacent dots and no trailing dot), the
dot `hostname_to_dns_format` appends is not encoded as a label of length 0: the
output contains exactly one zero octet, as its last byte, so the C-string
length of the encoded name plus 1 equals the encoded length,
`len(host) + 2`. -/
theorem C19_single_zero_octet (host : List Nat) (hnul : ∀ b ∈ host, b ≠ 0)
    (hseg : ∀ s ∈ segments host, s.length % 256 ≠ 0) :
    ∃ enc, hostname_to_dns_format host = Outcome.returned enc
      ∧ enc.dns.count 0 = 1
      ∧ enc.dns.getLast? = some 0
      ∧ strlen enc.dns + 1 = enc.dns.length
      ∧ enc.dns.length = host.length + 2 := by
  have hnz : ∀ b ∈ wire_labels_mod (segments host), b ≠ 0 :=
    wire_labels_mod_nonzero _ (fun s hs => ⟨hseg s hs, segments_nonzero host hnul s hs⟩)
  have hlen := wire_labels_mod_length host []
  refine ⟨_, hostname_to_dns_format_eq host, ?_, ?_, ?_, ?_⟩
  · rw [cstr_of_nonzero host hnul, List.count_append]
    have : List.count 0 (wire_labels_mod (segments host)) = 0 :=
      List.count_eq_zero.2 (fun hmem => hnz 0 hmem rfl)
    rw [this]
    rfl
  · simp
  · rw [cstr_of_nonzero host hnul]
    simp only [strlen, cstr_append_zero _ [] hnz, List.length_append, List.length_singleton]
  · rw [cstr_of_nonzero host hnul]
    simp only [segments, List.length_append, List.length_singleton, hlen, List.length_nil]

/-- C19 amended, at the host "example.com": one zero octet, the last of the
13 bytes. -/
theorem C19_single_zero_octet_witness :
    ∃ enc, hostname_to_dns_format [101, 120, 97, 109, 112, 108, 101, 46, 99, 111, 109]
        = Outcome.returned enc
      ∧ enc.dns.count 0 = 1 ∧ enc.dns.getLast? = some 0
      ∧ strlen enc.dns + 1 = enc.dns.length ∧ enc.dns.length = 11 + 2 :=
  C19_single_zero_octet [101, 120, 97, 109, 112, 108, 101, 46, 99, 111, 109] (by decide)
    (by decide)

set_option maxRecDepth 100000 in
/-- C20, as stated, fails. On the root name (a zero octet at the start offset)
the read loop ends at once with no byte copied, the conversion loop does not
run, and the final `name[i-1] = 0` is executed with `i = 0`: index -1. On the
68 bytes made of a 63-byte label, the label "b", the length octet 190 and a
zero octet, the read loop ends with 67 bytes copied, and the conversion loop,
shifting 190 bytes from index 66 on, reaches index 256. -/
theorem C20_name_array_bounds_counterexample :
    (∃ st, read_loop [0] 1 0 0 0 1 ((List.replicate 256 0).set 0 0)
          = some (Outcome.returned st) ∧ st.p = 0)
      ∧ read_name 1 (List.replicate 256 0) [0] 0 = some Outcome.outOfBounds
      ∧ read_name 1 (List.replicate 256 0) [0] 0 ≠ some (Outcome.returned ([], 1))
      ∧ (∃ st, read_loop ([63] ++ List.replicate 63 97 ++ [1, 98] ++ [190] ++ [0]) 68 0 0 0 1
            ((List.replicate 256 0).set 0 0) = some (Outcome.returned st) ∧ st.p = 67)
      ∧ read_name 68 (List.replicate 256 0)
          ([63] ++ List.replicate 63 97 ++ [1, 98] ++ [190] ++ [0]) 0
        = some Outcome.outOfBounds := by
  have hroot : read_name 1 (List.replicate 256 0) [0] 0 = some Outcome.outOfBounds := by rfl
  refine ⟨⟨_, by rfl, by rfl⟩, hroot, ?_, ⟨_, by rfl, by rfl⟩, by rfl⟩
  rw [hroot]
  decide

/-- C20, amended. For every buffer and start offset on which the read loop of
`read_name` ends having copied at most 255 bytes, when the bytes copied are
those of one or more labels, each after a length octet equal to its length,
every index at which `read_name` reads or writes its 256-byte name array lies
in 0..255: the terminator is stored at index `p`, the conversion loop runs to
its end without an access outside the array and leaves `i = p` with
`1 ≤ i ≤ 255`, so that the final store is at index `i - 1` in 0..254; and
`read_name` returns the labels joined by dots. Nothing is asked of how the
read loop reached the bytes (pointers, chains of pointers) nor of the bytes of
a label (a dot may be among them). -/
theorem C20_name_array_bounds (buffer : List Nat) (m fuel : Nat) (heap : List Nat)
    (hheap : heap.length = NAME_SIZE) (st : ReadState) (ls : List (List Nat))
    (hloop : read_loop buffer fuel m 0 0 1 (heap.set 0 0) = some (Outcome.returned st))
    (hp : st.p ≤ 255) (hne : ls ≠ []) (hcopied : st.name.take st.p = wire_labels ls) :
    ∃ i name2,
      dot_loop 257 0 (st.name.set st.p 0) = some (Outcome.returned (i, name2))
        ∧ i = st.p ∧ 1 ≤ i ∧ i ≤ 255
        ∧ read_name fuel heap buffer m
          = some (Outcome.returned
              (dotted ls, if st.jumped = 1 then st.count + 1 else st.count)) := by
  have hlen : st.name.length = 256 := by
    rw [read_loop_name_length buffer fuel _ _ _ _ _ st hloop]
    simpa [NAME_SIZE] using hheap
  have hnz : ∀ b ∈ wire_labels ls, b ≠ 0 := by
    rw [← hcopied]
    exact read_loop_copies_nonzero buffer fuel _ _ _ _ _ st (by simpa using hheap)
      (by simp) hloop
  have hv := labels_of_wire_nonzero ls hnz
  have hwl : (wire_labels ls).length = st.p := by
    rw [← hcopied, List.length_take, hlen]; omega
  have hname : st.name = wire_labels ls ++ st.name.drop st.p := by
    rw [← hcopied]; exact (List.take_append_drop _ _).symm
  obtain ⟨f, tail, hft⟩ : ∃ f tail, st.name.drop st.p = f :: tail := by
    cases hd : st.name.drop st.p with
    | nil =>
      have := congrArg List.length hd
      simp [hlen] at this; omega
    | cons f tail => exact ⟨f, tail, rfl⟩
  rw [hft] at hname
  have hlen256 : (wire_labels ls ++ f :: tail).length = 256 := by rw [← hname]; exact hlen
  have hset : st.name.set st.p 0 = wire_labels ls ++ 0 :: tail := by
    rw [hname, ← hwl]; exact set_append_cons _ _ _ _
  have hlist : ls.length ≤ (wire_labels ls).length := by
    clear hv hnz hwl hname hlen256 hset hcopied hne
    induction ls with
    | nil => simp
    | cons l ls ih => simp [wire_labels]; omega
  have hdl := dot_loop_eq ls [] tail 257 hv (by simp)
    (by simp at hlen256 ⊢; omega) (by omega)
  simp only [List.nil_append, List.length_nil, Nat.zero_add] at hdl
  have hst : st = ⟨(wire_labels ls).length, st.jumped, st.count, wire_labels ls ++ f :: tail⟩ := by
    cases st with
    | mk p j c nm => simp only [ReadState.mk.injEq] at *; exact ⟨hwl.symm, trivial, trivial, hname⟩
  refine ⟨(wire_labels ls).length, dotted_trail ls ++ 0 :: tail, ?_, hwl, ?_, by omega, ?_⟩
  · rw [hset]; exact hdl
  · rw [wire_labels_length _ hne]; omega
  · rw [hst] at hloop
    exact read_name_of_loop fuel heap buffer m ls st.jumped st.count (f :: tail) hne hv
      hlen256 (by simp) hloop

set_option maxRecDepth 100000 in
/-- C20 amended, on a chain of two pointers that leads to a label with a dot
among its bytes: from offset 7 the pointer leads to the pointer at offset 5,
that one to offset 0, where the label "a.b" and the zero octet stand. -/
theorem C20_name_array_bounds_witness :
    ∃ i name2,
      dot_loop 257 0 (([3, 97, 46, 98] ++ List.replicate 252 0).set 4 0)
          = some (Outcome.returned (i, name2))
        ∧ i = 4 ∧ 1 ≤ i ∧ i ≤ 255
        ∧ read_name 8 (List.replicate 256 0) [3, 97, 46, 98, 0, 0xC0, 0x00, 0xC0, 0x05] 7
          = some (Outcome.returned (dotted [[97, 46, 98]], if 1 = 1 then 1 + 1 else 1)) :=
  C20_name_array_bounds [3, 97, 46, 98, 0, 0xC0, 0x00, 0xC0, 0x05] 7 8 (List.replicate 256 0)
    (List.length_replicate 256 0) ⟨4, 1, 1, [3, 97, 46, 98] ++ List.replicate 252 0⟩
    [[97, 46, 98]] (by rfl) (by decide) (by decide) (by rfl)

end DNSResolver
